import Mathlib

/-!
# ReMem: a conservative mark-and-sweep garbage collector — verification

Shallow embedding of the ReMem collector (src/ReMem.c, src/arena/arena.c)
and proofs about its behaviour.

Modelling conventions:
* machine addresses and words are `Nat`; a value `0` models a NULL pointer;
  `uintptr_t` arithmetic that cannot wrap under the proved invariants is
  modelled by `Nat` arithmetic;
* the per-page bit arrays (`uint8_t*` with bit packing via `bitByte`/`bitMask`)
  are modelled as `List Bool` indexed by slot;
* slot payloads are modelled as lists of 64-bit machine words
  (`traceWorklist` reads payloads at word granularity); the intrusive
  free-list link `*slotNextPtr` occupies the low 32 bits of word 0 of a slot;
* calls that terminate the process (`exit(n)`) are modelled with
  `Except Nat`, the error carrying the exit code; metadata allocations
  (`malloc`/`calloc`/`realloc` for Page handles, bitmaps, the worklist and
  the roots array) terminate the process on failure and never return NULL,
  so they are modelled as always succeeding;
* the machine stack contents, the client memory read through registered
  roots, and the addresses produced by `aligned_alloc` /
  `arenaLocalAllocBuffsizeBlock` / `arenaLocalAlloc` are environment inputs,
  passed in explicitly (an `Env`);
* unbounded C `while` loops over the hash table and the GC worklist are
  modelled with an explicit fuel that provably suffices under the
  well-formedness invariant.
-/

set_option maxHeartbeats 1600000

namespace ReMem

/-- `BUFF_SIZE` from `arena/arena.h`: 1 MiB; this is the page size. -/
def BUFF_SIZE : Nat := 1024 * 1024

/-- The fixed size-class table, `sizeClasses` in ReMem.c. -/
def sizeClasses : List Nat :=
  [16, 32, 64, 128, 256, 512, 1024, 2048, 4096, 8192,
   16384, 32768, 65536, 131072, 262144]

/-- `NUM_CLASSES` in ReMem.c (= 15). -/
def NUM_CLASSES : Nat := sizeClasses.length

/-- `classForSize` (ReMem.c): the loop walking `sizeClasses` with index `i`,
looking for the first class whose slot size is at least `size`. -/
def classForSizeAux (size : Nat) : Nat → List Nat → Int
  | _, [] => -1
  | i, c :: rest => if size ≤ c then (i : Int) else classForSizeAux size (i + 1) rest

/-- `classForSize` (ReMem.c): smallest class index fitting `size`,
`-1` when `size` exceeds the largest class. -/
def classForSize (size : Nat) : Int := classForSizeAux size 0 sizeClasses

-- ========================
-- Root registry (ReMem.c)
-- ========================

/-- Index of the first registry entry that is vacant or already holds `x`
(the scan inside `addRoot`, ReMem.c lines 526-532). -/
def findVacantOrSelf : List (Option Nat) → Nat → Option Nat
  | [], _ => none
  | e :: rest, x =>
    if e = none ∨ e = some x then some 0
    else (findVacantOrSelf rest x).map (· + 1)

/-- `addRoot` (ReMem.c 496-537), modelled on registry contents.
The registry is the prefix `gc.roots[0 .. rootsLen)`; `none` is a vacancy
(`NULL` entry).  Capacity handling (`malloc`/`realloc` growth, which
terminates the process on failure) does not change the contents and is
not represented.  The C code first handles an empty registry, then scans
for the first vacant-or-equal entry, and appends as a last resort. -/
def addRoot (roots : List (Option Nat)) (x : Nat) : List (Option Nat) :=
  if roots.isEmpty then [some x]
  else
    match findVacantOrSelf roots x with
    | some i => roots.set i (some x)
    | none => roots ++ [some x]

/-- `removeRoot` (ReMem.c 540-553): clear the first entry equal to `x`
(without compacting); the returned flag tells whether one was found. -/
def removeRoot : List (Option Nat) → Nat → List (Option Nat) × Bool
  | [], _ => ([], false)
  | e :: rest, x =>
    if e = some x then (none :: rest, true)
    else
      let r := removeRoot rest x
      (e :: r.1, r.2)

-- ==========================================
-- Page index: open-addressing hash (ReMem.c)
-- ==========================================

/-- SplitMix64-style finalizer `hash64` (ReMem.c 119-126) on 64-bit words. -/
def hash64 (x : Nat) : Nat :=
  let x0 := x % 2 ^ 64
  let x1 := x0 ^^^ (x0 >>> 30)
  let x2 := (x1 * 0xbf58476d1ce4e5b9) % 2 ^ 64
  let x3 := x2 ^^^ (x2 >>> 27)
  let x4 := (x3 * 0x94d049bb133111eb) % 2 ^ 64
  x4 ^^^ (x4 >>> 31)

/-- The page-index hash table (globals `pageIndexKeys`, `pageIndexVals`,
`pageIndexCap`, `pageIndexCnt` in ReMem.c).  Key `0` marks an empty slot.
A stored value stands for the `Page*`; the GC model uses the page's
immutable block base address as the page identity. -/
structure HIdx where
  keys : List Nat
  vals : List Nat
  cap : Nat
  cnt : Nat
deriving Repr, DecidableEq

/-- The rounding loop `p = 1; while (p < cap) p <<= 1;` of `pageIndexInit`. -/
def roundPow2Aux (cap : Nat) : Nat → Nat → Nat
  | 0, p => p
  | fuel + 1, p => if p < cap then roundPow2Aux cap fuel (2 * p) else p

def roundPow2 (cap : Nat) : Nat := roundPow2Aux cap cap 1

/-- `pageIndexInit` (ReMem.c 129-147): capacity at least 64, rounded up to a
power of two; zeroed key and value arrays.  (`calloc` failure exits the
process and is not modelled.) -/
def pageIndexInit (cap : Nat) : HIdx :=
  let cap1 := if cap < 64 then 64 else cap
  let p := roundPow2 cap1
  { keys := List.replicate p 0, vals := List.replicate p 0, cap := p, cnt := 0 }

/-- The linear-probe loop of `pageIndexInsert`:
`while (keys[pos] && keys[pos] != base) pos = (pos+1) & mask;`. -/
def hScanIns (keys : List Nat) (mask base : Nat) : Nat → Nat → Nat
  | 0, pos => pos
  | fuel + 1, pos =>
    if keys.getD pos 0 ≠ 0 ∧ keys.getD pos 0 ≠ base then
      hScanIns keys mask base fuel ((pos + 1) &&& mask)
    else pos

/-- The first-free-slot probe loop used by `pageIndexGrow` and by the
re-homing walk of `pageIndexRemove`: `while (keys[pos]) pos = (pos+1) & mask;`. -/
def hScanFree (keys : List Nat) (mask : Nat) : Nat → Nat → Nat
  | 0, pos => pos
  | fuel + 1, pos =>
    if keys.getD pos 0 ≠ 0 then hScanFree keys mask fuel ((pos + 1) &&& mask)
    else pos

/-- One re-insertion inside `pageIndexGrow` (ReMem.c 176-189). -/
def hReinsert (h : HIdx) (k v : Nat) : HIdx :=
  let mask := h.cap - 1
  let pos := hScanFree h.keys mask h.cap (hash64 k &&& mask)
  { h with keys := h.keys.set pos k, vals := h.vals.set pos v, cnt := h.cnt + 1 }

/-- `pageIndexGrow` (ReMem.c 163-194): double the capacity (128 from zero)
and re-insert every stored entry in table order. -/
def pageIndexGrow (h : HIdx) : HIdx :=
  let h2 := pageIndexInit (if h.cap ≠ 0 then h.cap * 2 else 128)
  (h.keys.zip h.vals).foldl
    (fun acc kv => if kv.1 ≠ 0 then hReinsert acc kv.1 kv.2 else acc) h2

/-- `pageIndexInsert` (ReMem.c 197-222); `base` is the page block address,
`v` the page identity. -/
def pageIndexInsert (h : HIdx) (base v : Nat) : HIdx :=
  let h1 := if h.cap = 0 then pageIndexInit 128 else h
  let h2 := if (h1.cnt + 1) * 10 ≥ h1.cap * 7 then pageIndexGrow h1 else h1
  let mask := h2.cap - 1
  let pos := hScanIns h2.keys mask base h2.cap (hash64 base &&& mask)
  let h3 := if h2.keys.getD pos 0 = 0 then { h2 with cnt := h2.cnt + 1 } else h2
  { h3 with keys := h3.keys.set pos base, vals := h3.vals.set pos v }

/-- The back-shift walk of `pageIndexRemove` (ReMem.c 241-264): starting
just past the cleared slot, pop each following occupied entry and re-home
it at the first free slot on its own probe path. -/
def hShift : Nat → HIdx → Nat → HIdx
  | 0, h, _ => h
  | fuel + 1, h, next =>
    let mask := h.cap - 1
    if h.keys.getD next 0 ≠ 0 then
      let key := h.keys.getD next 0
      let val := h.vals.getD next 0
      let h1 : HIdx :=
        { h with keys := h.keys.set next 0, vals := h.vals.set next 0, cnt := h.cnt - 1 }
      let page := hScanFree h1.keys mask h1.cap (hash64 key &&& mask)
      let h2 : HIdx :=
        { h1 with keys := h1.keys.set page key, vals := h1.vals.set page val,
                  cnt := h1.cnt + 1 }
      hShift fuel h2 ((next + 1) &&& mask)
    else h

/-- The find loop of `pageIndexRemove` (ReMem.c 233-271): locate `base`,
clear it, then back-shift; the flag reports whether an entry was removed
(the C code decrements `gc.book.numPages` exactly then). -/
def hRemoveFind : Nat → HIdx → Nat → Nat → HIdx × Bool
  | 0, h, _, _ => (h, false)
  | fuel + 1, h, base, pos =>
    let mask := h.cap - 1
    if h.keys.getD pos 0 ≠ 0 then
      if h.keys.getD pos 0 = base then
        let h1 : HIdx :=
          { h with keys := h.keys.set pos 0, vals := h.vals.set pos 0, cnt := h.cnt - 1 }
        (hShift h1.cap h1 ((pos + 1) &&& mask), true)
      else hRemoveFind fuel h base ((pos + 1) &&& mask)
    else (h, false)

/-- `pageIndexRemove` (ReMem.c 225-273), without the `gc.book.numPages--`
(performed by the caller model on the returned flag). -/
def pageIndexRemove (h : HIdx) (base : Nat) : HIdx × Bool :=
  if h.cap = 0 then (h, false)
  else hRemoveFind h.cap h base (hash64 base &&& (h.cap - 1))

/-- `ALIGN_DOWN(x, a)` (ReMem.c 31-32) for the power-of-two alignments used. -/
def alignDown (x a : Nat) : Nat := x - x % a

/-- The probe loop of `pageIndexFindByAddr` (ReMem.c 290-296). -/
def hLookup (keys vals : List Nat) (mask base : Nat) : Nat → Nat → Option Nat
  | 0, _ => none
  | fuel + 1, pos =>
    if keys.getD pos 0 ≠ 0 then
      if keys.getD pos 0 = base then some (vals.getD pos 0)
      else hLookup keys vals mask base fuel ((pos + 1) &&& mask)
    else none

/-- `pageIndexFindByAddr` (ReMem.c 276-300): mask the address down to
`BUFF_SIZE` alignment and probe. -/
def pageIndexFindByAddr (h : HIdx) (p : Nat) : Option Nat :=
  if h.cap = 0 then none
  else
    let base := alignDown p BUFF_SIZE
    hLookup h.keys h.vals (h.cap - 1) base h.cap (hash64 base &&& (h.cap - 1))

-- ================================
-- Hash-table well-formedness
-- ================================

/-- Probe position at distance `j` from the home slot of key `k`. -/
def hPos (cap k j : Nat) : Nat := (hash64 k % cap + j) % cap

/-- `(k, v)` is stored in the table. -/
def hMem (h : HIdx) (k v : Nat) : Prop :=
  ∃ pos, pos < h.cap ∧ h.keys.getD pos 0 = k ∧ h.vals.getD pos 0 = v

/-- Number of occupied positions among the first `cap` slots of `keys`. -/
def occK (cap : Nat) (keys : List Nat) : Nat :=
  ((Finset.range cap).filter (fun p => keys.getD p 0 ≠ 0)).card

/-- Number of occupied slots. -/
def hOcc (h : HIdx) : Nat := occK h.cap h.keys

/-- Well-formedness of the open-addressing table: power-of-two capacity,
correct array lengths, an accurate and not-full occupancy count, distinct
nonzero keys, and the linear-probing invariant — every stored key sits at
the end of a fully-occupied probe path from its home slot. -/
structure HWF (h : HIdx) : Prop where
  klen : h.keys.length = h.cap
  vlen : h.vals.length = h.cap
  pow : ∃ m, h.cap = 2 ^ m
  cap64 : 64 ≤ h.cap
  cnteq : h.cnt = hOcc h
  cntlt : h.cnt < h.cap
  dist : ∀ p1 p2, p1 < h.cap → p2 < h.cap → h.keys.getD p1 0 ≠ 0 →
    h.keys.getD p1 0 = h.keys.getD p2 0 → p1 = p2
  path : ∀ pos, pos < h.cap → h.keys.getD pos 0 ≠ 0 →
    ∃ d, d < h.cap ∧ pos = hPos h.cap (h.keys.getD pos 0) d ∧
      ∀ j, j < d → h.keys.getD (hPos h.cap (h.keys.getD pos 0) j) 0 ≠ 0

-- ================================
-- Back-shift removal: geometry
-- ================================

/-- Position `t` steps past position `p` (cyclic). -/
def stepPos (cap p t : Nat) : Nat := (p + t) % cap

/-- Invariant of the back-shift walk of `pageIndexRemove`.  `h₀` is the
table before the removal started, `base` the key removed at position `P`,
`eD` the probe distance from `P` to the first originally-empty slot, and
`m` the walk's current offset past `P`.  All segment positions from `m`
up to `eD` still hold their original entries; every entry outside that
segment sits on a fully-occupied probe path that avoids the segment. -/
structure ShiftInv (h0 : HIdx) (base P eD m : Nat) (h : HIdx) : Prop where
  hcap : h.cap = h0.cap
  klen : h.keys.length = h0.cap
  vlen : h.vals.length = h0.cap
  cnt1 : h.cnt + 1 = h0.cnt
  cnte : h.cnt = occK h0.cap h.keys
  seg : ∀ t, m ≤ t → t < eD →
    h.keys.getD (stepPos h0.cap P t) 0 = h0.keys.getD (stepPos h0.cap P t) 0 ∧
    h.vals.getD (stepPos h0.cap P t) 0 = h0.vals.getD (stepPos h0.cap P t) 0
  eempty : h.keys.getD (stepPos h0.cap P eD) 0 = 0
  path : ∀ pos, pos < h0.cap →
    (∀ t, m ≤ t → t < eD → pos ≠ stepPos h0.cap P t) →
    h.keys.getD pos 0 ≠ 0 →
    ∃ d, d < h0.cap ∧ pos = hPos h0.cap (h.keys.getD pos 0) d ∧
      ∀ j, j < d → h.keys.getD (hPos h0.cap (h.keys.getD pos 0) j) 0 ≠ 0 ∧
        ∀ t, m ≤ t → t < eD →
          hPos h0.cap (h.keys.getD pos 0) j ≠ stepPos h0.cap P t
  dist : ∀ p1 p2, p1 < h0.cap → p2 < h0.cap → h.keys.getD p1 0 ≠ 0 →
    h.keys.getD p1 0 = h.keys.getD p2 0 → p1 = p2
  mem : ∀ k v, k ≠ 0 →
    ((∃ pos, pos < h0.cap ∧ h.keys.getD pos 0 = k ∧ h.vals.getD pos 0 = v) ↔
      (k ≠ base ∧ hMem h0 k v))

/-- A page-index mutation: insertion (with the occupancy-triggered growth
inside `pageIndexInsert`) or back-shifting removal. -/
inductive HOp where
  | ins (base v : Nat)
  | rem (base : Nat)

def applyHOp (h : HIdx) : HOp → HIdx
  | HOp.ins b v => pageIndexInsert h b v
  | HOp.rem b => (pageIndexRemove h b).1

def applyHOps (h : HIdx) (ops : List HOp) : HIdx := ops.foldl applyHOp h

/-- In the C program every inserted key is a nonzero `BUFF_SIZE`-aligned
page block address. -/
def legalHOp : HOp → Bool
  | HOp.ins b _ => decide (b ≠ 0) && decide (b % BUFF_SIZE = 0)
  | HOp.rem _ => true

/-- Association-list model of the index contents. -/
def modelOp (m : List (Nat × Nat)) : HOp → List (Nat × Nat)
  | HOp.ins b v => (b, v) :: m.filter (fun kv => decide (kv.1 ≠ b))
  | HOp.rem b => m.filter (fun kv => decide (kv.1 ≠ b))

def modelOps (m : List (Nat × Nat)) (ops : List HOp) : List (Nat × Nat) :=
  ops.foldl modelOp m

-- ================================
-- Pages, slots and freelist links
-- ================================

/-- Two's-complement decoding of the low 32 bits of a 64-bit word, as done
by reading an `int32_t` stored at a slot base (little-endian). -/
def dec32 (w : Nat) : Int :=
  if w % 2 ^ 32 < 2 ^ 31 then Int.ofNat (w % 2 ^ 32) else Int.ofNat (w % 2 ^ 32) - 2 ^ 32

/-- Two's-complement encoding of an `int32_t` into the low 32 bits. -/
def enc32 (x : Int) : Nat := (x % 2 ^ 32).toNat

/-- `*slotNextPtr(page, i)` read (ReMem.c 327-329): the freelist link stored
in the low 32 bits of the slot's first 64-bit word. -/
def slotLink (slots : List (List Nat)) (i : Nat) : Int :=
  dec32 ((slots.getD i []).getD 0 0)

/-- `*slotNextPtr(page, i) = x` write: replace the low 32 bits of the
slot's first word. -/
def slotNextWrite (slots : List (List Nat)) (i : Nat) (x : Int) : List (List Nat) :=
  let s := slots.getD i []
  slots.set i (s.set 0 (s.getD 0 0 / 2 ^ 32 * 2 ^ 32 + enc32 x))

/-- A GC page (ReMem.c 38-53).  `block` is the base address of the 1 MiB
block (an integer; the C pointer), the bit arrays are modelled one `Bool`
per slot (the C byte arrays never touch bits at index `≥ nslots`), and each
slot's payload is its `sizeClass / 8` 64-bit words. -/
structure Page where
  block : Nat
  sizeClass : Nat
  nslots : Nat
  inuseCount : Nat
  freeHead : Int
  inuseBits : List Bool
  markBits : List Bool
  slots : List (List Nat)

/-- `slotBase` (ReMem.c 321-323). -/
def slotBase (pg : Page) (i : Nat) : Nat := pg.block + i * pg.sizeClass

/-- Number of `true` bits among the first `n` entries. -/
def popcountTo (n : Nat) (bs : List Bool) : Nat :=
  ((Finset.range n).filter (fun i => bs.getD i false = true)).card

/-- The freelist chain: `fl` lists the free slots in chain order starting
at head `h`, each link read from the slot's stored `int32_t`, ending at
`-1`. -/
def freeChainB (nslots : Nat) (slots : List (List Nat)) : Int → List Nat → Bool
  | h, [] => h == -1
  | h, i :: rest =>
    h == Int.ofNat i && decide (i < nslots) && freeChainB nslots slots (slotLink slots i) rest

/-- The freelist-building loop shared by `pageInitForClass` (ReMem.c
392-395) and `pageResetForClass` (ReMem.c 425-428): write link `i + 1`
into slot `i` (`-1` into the last slot). -/
def relinkSlots (n : Nat) (slots : List (List Nat)) : List (List Nat) :=
  (List.range n).map (fun i =>
    (slots.getD i []).set 0 ((slots.getD i []).getD 0 0 / 2 ^ 32 * 2 ^ 32 +
      enc32 (if i + 1 < n then Int.ofNat (i + 1) else -1)))

/-- A fresh zeroed block broken into `n` slots of `sc` bytes with the
freelist links written (the `calloc`-backed arena path; the
`aligned_alloc` path leaves other words unspecified and no claim depends
on them). -/
def shapeSlots (sc n : Nat) : List (List Nat) :=
  relinkSlots n (List.replicate n (List.replicate (sc / 8) 0))

/-- Reinterpret the page's raw words as `n` slots of `wlen` words each,
as `pageResetForClass` does by changing `sizeClass` over the same block. -/
def chunkWords (ws : List Nat) (wlen n : Nat) : List (List Nat) :=
  (List.range n).map (fun i => (List.range wlen).map (fun j => ws.getD (i * wlen + j) 0))

/-- `pageInitForClass` (ReMem.c 349-399).  The metadata `malloc`/`calloc`
calls are assumed to succeed (their failures exit 52/54 and are not
reachable in the model); `raw` is the acquired block address with `0` for
`NULL`.  The alignment `assert` precedes the `NULL` check and aborts
(modelled as error 134); a `NULL` block exits 53 — with no retry. -/
def pageInitForClass (raw : Nat) (ci : Nat) : Except Nat Page :=
  if raw % BUFF_SIZE ≠ 0 then Except.error 134
  else if raw = 0 then Except.error 53
  else
    let sc := sizeClasses.getD ci 0
    let n := BUFF_SIZE / sc
    Except.ok { block := raw, sizeClass := sc, nslots := n, inuseCount := 0, freeHead := 0,
                inuseBits := List.replicate n false, markBits := List.replicate n false,
                slots := shapeSlots sc n }

/-- `pageResetForClass` (ReMem.c 403-430): same block, new class geometry,
zeroed bitmaps, freelist rebuilt in place over the old words. -/
def pageResetForClass (pg : Page) (ci : Nat) : Page :=
  let sc := sizeClasses.getD ci 0
  let n := BUFF_SIZE / sc
  { pg with sizeClass := sc, nslots := n, inuseCount := 0, freeHead := 0,
            inuseBits := List.replicate n false, markBits := List.replicate n false,
            slots := relinkSlots n (chunkWords pg.slots.join (sc / 8) n) }

/-- The slot-grab steps repeated in `allocFromClass` (ReMem.c 595-601,
620-623, 644-647): pop the freelist head, count and set its in-use bit,
return the slot base. -/
def pageBump (pg : Page) : Page × Nat :=
  let i := pg.freeHead.toNat
  ({ pg with freeHead := slotLink pg.slots i,
             inuseCount := pg.inuseCount + 1,
             inuseBits := pg.inuseBits.set i true },
   slotBase pg i)

/-- `freeSlot` (ReMem.c 805-814): push the slot onto the freelist, clear
its in-use bit, decrement the count (guarded against underflow). -/
def freeSlot (pg : Page) (i : Nat) : Page :=
  { pg with slots := slotNextWrite pg.slots i pg.freeHead,
            freeHead := Int.ofNat i,
            inuseBits := pg.inuseBits.set i false,
            inuseCount := if 0 < pg.inuseCount then pg.inuseCount - 1 else pg.inuseCount }

/-- One slot of the sweep loop (ReMem.c 827-839): free in-use unmarked
slots, clear the mark on marked ones. -/
def sweepSlot (pg : Page) (i : Nat) : Page :=
  let ib := pg.inuseBits.getD i false
  let mb := pg.markBits.getD i false
  if ib && !mb then freeSlot pg i
  else if mb then { pg with markBits := pg.markBits.set i false }
  else pg

/-- Sweep every slot of one page. -/
def sweepPage (pg : Page) : Page := (List.range pg.nslots).foldl sweepSlot pg

-- ================================
-- The GC state and its environment
-- ================================

/-- The collector state (ReMem.c 56-98): the book's per-class page lists
and empty-page cache, the page index, the root registry and the pressure
counters.  `numPages` mirrors `gc.book.numPages`. -/
structure GC where
  freeMemory : Bool
  classPages : List (List Page)
  emptyPages : List Page
  numPages : Nat
  idx : HIdx
  roots : List (Option Nat)
  bytesSinceLastGC : Nat
  lastLiveBytes : Nat

/-- The parts of an execution outside the GC state: the words the stack
scan sees, the client memory read through root addresses (`*slot`), and
the results of the raw block / arena acquisitions made during one public
call (`0` = `NULL`; `raw1`/`raw2` for the first and second page-block
acquisition, `lp1`/`lp2` for the first and second oversize arena
allocation). -/
structure Env where
  stackWords : List Nat
  deref : Nat → Nat
  raw1 : Nat
  raw2 : Nat
  lp1 : Nat
  lp2 : Nat

/-- All pages the collector still manages: every class list plus the
empty-page cache. -/
def pagesOf (g : GC) : List Page := g.classPages.flatten ++ g.emptyPages

def blocksOf (g : GC) : List Nat := (pagesOf g).map Page.block

/-- Fetch the page record with the given block address.  The C hash stores
the `Page*` itself; the model stores the page's identity (its block
address) and recovers the record from the book, which is exact because
managed pages have distinct blocks. -/
def findPage (g : GC) (b : Nat) : Option Page :=
  (pagesOf g).find? (fun pg => pg.block == b)

/-- Apply `f` to the managed page whose block is `b` (in place, as the C
code mutates through the `Page*`). -/
def pmap1 (b : Nat) (f : Page → Page) (pg : Page) : Page :=
  if pg.block = b then f pg else pg

def mapPage (g : GC) (b : Nat) (f : Page → Page) : GC :=
  { g with classPages := g.classPages.map (List.map (pmap1 b f)),
           emptyPages := g.emptyPages.map (pmap1 b f) }

/-- `findPageContaining` (ReMem.c 696-720): index lookup on the masked
address, then offset and slot-index bounds checks.  `p < block` makes the
unsigned offset wrap far past `BUFF_SIZE`, so it is rejected like an
oversized offset. -/
def findPageContaining (g : GC) (p : Nat) : Option (Nat × Nat) :=
  if p = 0 then none
  else
    match pageIndexFindByAddr g.idx p with
    | none => none
    | some b =>
      match findPage g b with
      | none => none
      | some pg =>
        if p < pg.block then none
        else
          let off := p - pg.block
          if BUFF_SIZE ≤ off then none
          else
            let i := off / pg.sizeClass
            if pg.nslots ≤ i then none else some (pg.block, i)

/-- The in-use bit of slot `bi` (a `(block, index)` pair). -/
def inuseAt (g : GC) (bi : Nat × Nat) : Bool :=
  match findPage g bi.1 with
  | some pg => pg.inuseBits.getD bi.2 false
  | none => false

/-- The mark bit of slot `bi`. -/
def markedAt (g : GC) (bi : Nat × Nat) : Bool :=
  match findPage g bi.1 with
  | some pg => pg.markBits.getD bi.2 false
  | none => false

/-- The payload words of slot `bi`. -/
def slotWords (g : GC) (bi : Nat × Nat) : List Nat :=
  match findPage g bi.1 with
  | some pg => pg.slots.getD bi.2 []
  | none => []

/-- `markPtr` (ReMem.c 764-779): find the containing page and slot, skip
unallocated or already-marked slots, otherwise set the mark and push the
slot on the worklist (`slotMark` + `wlPush`; the C worklist array pushes
and pops at the end, which the list models by its head). -/
def markPtr (g : GC) (wl : List (Nat × Nat)) (ptr : Nat) : GC × List (Nat × Nat) :=
  match findPageContaining g ptr with
  | none => (g, wl)
  | some bi =>
    if inuseAt g bi = false then (g, wl)
    else if markedAt g bi then (g, wl)
    else (mapPage g bi.1 (fun pg => { pg with markBits := pg.markBits.set bi.2 true }),
          bi :: wl)

/-- Mark from a list of candidate words (the stack scan of ReMem.c
658-677 and the payload scan of ReMem.c 782-800). -/
def markWords (s : GC × List (Nat × Nat)) (ws : List Nat) : GC × List (Nat × Nat) :=
  ws.foldl (fun s2 w => markPtr s2.1 s2.2 w) s

/-- `markFromExplicitRoots` (ReMem.c 680-692): mark `*slot` for every
registered, non-vacant root. -/
def markRoots (e : Env) (s : GC × List (Nat × Nat)) (roots : List (Option Nat)) :
    GC × List (Nat × Nat) :=
  roots.foldl (fun s2 r => match r with
    | none => s2
    | some a => markPtr s2.1 s2.2 (e.deref a)) s

/-- `traceWorklist` (ReMem.c 782-800), fuelled: pop a slot, scan its
`sizeClass / 8` payload words (the slot's word list) through `markPtr`.
The fuel passed by `gcCollect` is proven sufficient for well-formed
states. -/
def traceWorklist : Nat → GC → List (Nat × Nat) → GC
  | 0, g, _ => g
  | _ + 1, g, [] => g
  | fuel + 1, g, bi :: rest =>
    let ws := match findPage g bi.1 with
      | none => []
      | some pg => pg.slots.getD bi.2 []
    let s2 := markWords (g, rest) ws
    traceWorklist fuel s2.1 s2.2

def totalSlots (g : GC) : Nat := ((pagesOf g).map Page.nslots).sum

-- ================================
-- Sweeping
-- ================================

/-- The bookkeeping threaded through `sweepAllPages`: the empty-page
cache, the page index and `numPages` (`pageDestroyMeta`'s
`pageIndexRemove` decrements `numPages` when it removes an entry). -/
structure SweepSt where
  empties : List Page
  idx : HIdx
  numPages : Nat

/-- Sweep one page of a class list (ReMem.c 823-855): after the slot loop
an empty page is unlinked and either destroyed (`freeMemory`, removing it
from the index) or pushed onto the empty-page cache. -/
def sweepOnePage (fm : Bool) (st : SweepSt) (pg : Page) : Option Page × SweepSt :=
  let pg2 := sweepPage pg
  if pg2.inuseCount = 0 then
    if fm then
      let r := pageIndexRemove st.idx pg2.block
      (none, { st with idx := r.1, numPages := if r.2 then st.numPages - 1 else st.numPages })
    else
      (none, { st with empties := pg2 :: st.empties })
  else (some pg2, st)

def sweepList (fm : Bool) : SweepSt → List Page → List Page × SweepSt
  | st, [] => ([], st)
  | st, pg :: rest =>
    match sweepOnePage fm st pg with
    | (some pg2, st2) =>
      let r := sweepList fm st2 rest
      (pg2 :: r.1, r.2)
    | (none, st2) => sweepList fm st2 rest

def sweepClasses (fm : Bool) : SweepSt → List (List Page) → List (List Page) × SweepSt
  | st, [] => ([], st)
  | st, l :: ls =>
    let r1 := sweepList fm st l
    let r2 := sweepClasses fm r1.2 ls
    (r1.1 :: r2.1, r2.2)

/-- `sweepAllPages` (ReMem.c 819-857). -/
def sweepAllPages (g : GC) : GC :=
  let r := sweepClasses g.freeMemory ⟨g.emptyPages, g.idx, g.numPages⟩ g.classPages
  { g with classPages := r.1, emptyPages := r.2.empties, idx := r.2.idx,
           numPages := r.2.numPages }

/-- `recomputeLiveBytes` (ReMem.c 559-570): class lists only. -/
def recomputeLiveBytes (g : GC) : Nat :=
  (g.classPages.map (fun l => (l.map (fun pg => pg.inuseCount * pg.sizeClass)).sum)).sum

/-- `gcCollect` (ReMem.c 962-975): reset the worklist, scan the stack
words, mark from explicit roots, trace, sweep, then refresh the pressure
counters. -/
def gcCollect (e : Env) (g : GC) : GC :=
  let s1 := markWords (g, []) e.stackWords
  let s2 := markRoots e s1 s1.1.roots
  let g3 := traceWorklist (s2.2.length + 2 * totalSlots s2.1 + 1) s2.1 s2.2
  let g4 := sweepAllPages g3
  { g4 with lastLiveBytes := recomputeLiveBytes g4, bytesSinceLastGC := 0 }

-- ================================
-- Pressure check and allocation
-- ================================

/-- `maybeCollectOnPressure` (ReMem.c 573-581).  `growthFactor` is the
constant `1.5` set by `gcInit`; `(size_t)(baseline * 1.5)` equals
`3 * baseline / 2` for every baseline below `2^52`, which the model
adopts. -/
def maybeCollectOnPressure (e : Env) (g : GC) (n : Nat) : GC × Bool :=
  let baseline := if g.lastLiveBytes ≠ 0 then g.lastLiveBytes else BUFF_SIZE
  let threshold := 3 * baseline / 2
  if g.bytesSinceLastGC + n > threshold then
    ({ gcCollect e g with bytesSinceLastGC := 0 }, true)
  else (g, false)

/-- The existing-page scan of `allocFromClass` (ReMem.c 593-607): bump the
first page with a free slot, leaving the rest of the list unchanged. -/
def allocInList : List Page → Option (List Page × Nat)
  | [] => none
  | pg :: rest =>
    if pg.freeHead = -1 then
      match allocInList rest with
      | none => none
      | some r => some (pg :: r.1, r.2)
    else
      let r := pageBump pg
      some (r.1 :: rest, r.2)

/-- `allocFromClass` (ReMem.c 589-652): pressure check, then an existing
page, then a reused empty page, then a fresh page (which is inserted into
the page index and counted). -/
def allocFromClass (e : Env) (g : GC) (ci : Nat) (raw : Nat) : Except Nat (GC × Nat) :=
  let g0 := (maybeCollectOnPressure e g (sizeClasses.getD ci 0)).1
  let sc := sizeClasses.getD ci 0
  match allocInList (g0.classPages.getD ci []) with
  | some r =>
    Except.ok ({ g0 with classPages := g0.classPages.set ci r.1,
                         bytesSinceLastGC := g0.bytesSinceLastGC + sc }, r.2)
  | none =>
    match g0.emptyPages with
    | pg :: rest =>
      let r := pageBump (pageResetForClass pg ci)
      Except.ok ({ g0 with emptyPages := rest,
                           classPages := g0.classPages.set ci (r.1 :: g0.classPages.getD ci []),
                           bytesSinceLastGC := g0.bytesSinceLastGC + sc }, r.2)
    | [] =>
      match pageInitForClass raw ci with
      | Except.error k => Except.error k
      | Except.ok pg =>
        let r := pageBump pg
        Except.ok ({ g0 with classPages := g0.classPages.set ci (r.1 :: g0.classPages.getD ci []),
                             idx := pageIndexInsert g0.idx raw raw,
                             numPages := g0.numPages + 1,
                             bytesSinceLastGC := g0.bytesSinceLastGC + sc }, r.2)

/-- `gcAlloc` (ReMem.c 998-1034): oversize requests go to the arena with
one collect-and-retry (`lp1`, then `lp2`, then exit 70); class requests go
through `allocFromClass`, whose `NULL` result would trigger one
collect-and-retry (exit 71 after a second `NULL`). -/
def gcAlloc (e : Env) (g : GC) (size : Nat) : Except Nat (GC × Nat) :=
  if classForSize size < 0 then
    let g1 := (maybeCollectOnPressure e g size).1
    if e.lp1 = 0 then
      let g2 := gcCollect e g1
      if e.lp2 = 0 then Except.error 70
      else Except.ok ({ g2 with bytesSinceLastGC := g2.bytesSinceLastGC + size }, e.lp2)
    else Except.ok ({ g1 with bytesSinceLastGC := g1.bytesSinceLastGC + size }, e.lp1)
  else
    match allocFromClass e g (classForSize size).toNat e.raw1 with
    | Except.error k => Except.error k
    | Except.ok gp =>
      if gp.2 = 0 then
        let g2 := gcCollect e gp.1
        match allocFromClass e g2 (classForSize size).toNat e.raw2 with
        | Except.error k => Except.error k
        | Except.ok gp2 => if gp2.2 = 0 then Except.error 71 else Except.ok gp2
      else Except.ok gp

-- ================================
-- Public rooting and initialisation
-- ================================

/-- `gcRootVariable` (ReMem.c 978-982). -/
def gcRootVariable (g : GC) (a : Nat) : GC :=
  if a ≠ 0 then { g with roots := addRoot g.roots a } else g

/-- `gcUnrootVariable` (ReMem.c 985-990); the failure message changes no
state. -/
def gcUnrootVariable (g : GC) (a : Nat) : GC :=
  if a = 0 then g else { g with roots := (removeRoot g.roots a).1 }

/-- `gcInit` (ReMem.c 903-930).  Note `lastLiveBytes` starts at
`BUFF_SIZE` (the "sane baseline"). -/
def gcInit (fm : Bool) : GC :=
  { freeMemory := fm, classPages := List.replicate NUM_CLASSES [], emptyPages := [],
    numPages := 0, idx := pageIndexInit 128, roots := [],
    bytesSinceLastGC := 0, lastLiveBytes := BUFF_SIZE }

/-- Repeated collections. -/
def collectN (e : Env) : Nat → GC → GC
  | 0, g => g
  | n + 1, g => collectN e n (gcCollect e g)

-- ================================
-- Public operations and legality
-- ================================

/-- One public call, with the environment it runs in. -/
inductive GOp where
  | alloc (size : Nat) (e : Env)
  | collect (e : Env)
  | root (a : Nat)
  | unroot (a : Nat)

def applyGOp (g : GC) : GOp → Except Nat GC
  | GOp.alloc n e =>
    match gcAlloc e g n with
    | Except.ok gp => Except.ok gp.1
    | Except.error k => Except.error k
  | GOp.collect e => Except.ok (gcCollect e g)
  | GOp.root a => Except.ok (gcRootVariable g a)
  | GOp.unroot a => Except.ok (gcUnrootVariable g a)

def applyGOps : GC → List GOp → Except Nat GC
  | g, [] => Except.ok g
  | g, op :: ops =>
    match applyGOp g op with
    | Except.ok g2 => applyGOps g2 ops
    | Except.error k => Except.error k

/-- What the C runtime guarantees about an allocation's environment: a
fresh page block from `aligned_alloc`/the arena is `BUFF_SIZE`-aligned and
distinct from every block already managed. -/
def envOKb (g : GC) : GOp → Bool
  | GOp.alloc _ e =>
    decide (e.raw1 % BUFF_SIZE = 0) && !(blocksOf g).contains e.raw1
  | _ => true

def legalGOps : GC → List GOp → Bool
  | _, [] => true
  | g, op :: ops =>
    envOKb g op &&
      (match applyGOp g op with
       | Except.ok g2 => legalGOps g2 ops
       | Except.error _ => true)

-- ================================
-- Well-formedness invariants
-- ================================

/-- Well-formedness of one managed page: a nonzero aligned block, a real
size class, the derived slot count, exact array lengths, an exact in-use
count, and a duplicate-free freelist chain holding exactly the slots
whose in-use bit is clear. -/
structure PageWF (pg : Page) : Prop where
  blockNZ : pg.block ≠ 0
  blockAl : pg.block % BUFF_SIZE = 0
  scMem : pg.sizeClass ∈ sizeClasses
  nslotsEq : pg.nslots = BUFF_SIZE / pg.sizeClass
  ibLen : pg.inuseBits.length = pg.nslots
  mbLen : pg.markBits.length = pg.nslots
  slotsLen : pg.slots.length = pg.nslots
  slotLen : ∀ s ∈ pg.slots, s.length = pg.sizeClass / 8
  cntEq : pg.inuseCount = popcountTo pg.nslots pg.inuseBits
  chain : ∃ fl, freeChainB pg.nslots pg.slots pg.freeHead fl = true ∧ fl.Nodup ∧
    ∀ i, i < pg.nslots → (i ∈ fl ↔ pg.inuseBits.getD i false = false)

/-- Well-formedness of the collector state between public calls. -/
structure GCWF (g : GC) : Prop where
  cpLen : g.classPages.length = NUM_CLASSES
  pages : ∀ pg ∈ pagesOf g, PageWF pg
  classSC : ∀ c pg, pg ∈ g.classPages.getD c [] → pg.sizeClass = sizeClasses.getD c 0
  empties : ∀ pg ∈ g.emptyPages, pg.inuseCount = 0
  marks : ∀ pg ∈ pagesOf g, ∀ i, pg.markBits.getD i false = false
  distinct : (blocksOf g).Nodup
  hwf : HWF g.idx
  contents : ∀ k v, k ≠ 0 → (hMem g.idx k v ↔ (v = k ∧ k ∈ blocksOf g))

-- ================================
-- Reachability from the roots
-- ================================

/-- A slot is reachable when a registered, non-vacant root address holds
(through client memory, `e.deref`) a pointer resolving to an in-use slot,
or an already-reachable slot's payload word does. -/
inductive Reaches (e : Env) (g : GC) : Nat × Nat → Prop where
  | root (a : Nat) (bi : Nat × Nat) :
      some a ∈ g.roots → findPageContaining g (e.deref a) = some bi →
      inuseAt g bi = true → Reaches e g bi
  | step (bi bj : Nat × Nat) (w : Nat) :
      Reaches e g bi → w ∈ slotWords g bi →
      findPageContaining g w = some bj → inuseAt g bj = true → Reaches e g bj

-- ================================
-- Page-block OOM handling (C9)
-- ================================

/-- An environment whose first page-block acquisition fails while a retry
would have a block available. -/
def envRawFail : Env :=
  { stackWords := [], deref := fun _ => 0, raw1 := 0, raw2 := BUFF_SIZE, lp1 := 0, lp2 := 0 }

/-- An environment whose two oversize arena allocations return `NULL`
then a valid block. -/
def envLpRetry : Env :=
  { stackWords := [], deref := fun _ => 0, raw1 := 0, raw2 := 0, lp1 := 0, lp2 := 77 }

-- ================================
-- Sweeping one page
-- ================================

/-- The state of one page's sweep after the slots below `j` have been
processed: geometry and counts stay exact, unprocessed slots are
untouched, processed slots are freed or kept with marks cleared. -/
structure SweepInv (pg : Page) (j : Nat) (q : Page) : Prop where
  blk : q.block = pg.block
  scls : q.sizeClass = pg.sizeClass
  ns : q.nslots = pg.nslots
  ibLen : q.inuseBits.length = pg.nslots
  mbLen : q.markBits.length = pg.nslots
  slotsLen : q.slots.length = pg.nslots
  slotLen : ∀ s ∈ q.slots, s.length = pg.sizeClass / 8
  hi : ∀ i, j ≤ i → q.inuseBits.getD i false = pg.inuseBits.getD i false ∧
    q.markBits.getD i false = pg.markBits.getD i false ∧
    q.slots.getD i [] = pg.slots.getD i []
  lo : ∀ i, i < j → q.markBits.getD i false = false ∧
    q.inuseBits.getD i false = (pg.inuseBits.getD i false && pg.markBits.getD i false) ∧
    (pg.inuseBits.getD i false = true → pg.markBits.getD i false = true →
      q.slots.getD i [] = pg.slots.getD i [])
  cnt : q.inuseCount = popcountTo pg.nslots q.inuseBits
  chain : ∃ fl, freeChainB pg.nslots q.slots q.freeHead fl = true ∧ fl.Nodup ∧
    ∀ i, i < pg.nslots → (i ∈ fl ↔ q.inuseBits.getD i false = false)

/-- The page built by a successful `pageInitForClass`. -/
def freshPage (raw ci : Nat) : Page :=
  { block := raw, sizeClass := sizeClasses.getD ci 0,
    nslots := BUFF_SIZE / sizeClasses.getD ci 0, inuseCount := 0, freeHead := 0,
    inuseBits := List.replicate (BUFF_SIZE / sizeClasses.getD ci 0) false,
    markBits := List.replicate (BUFF_SIZE / sizeClasses.getD ci 0) false,
    slots := shapeSlots (sizeClasses.getD ci 0) (BUFF_SIZE / sizeClasses.getD ci 0) }

-- ================================
-- Mark phase: state-change algebra
-- ================================

/-- Apply `F` to every managed page. -/
def gcMap (g : GC) (F : Page → Page) : GC :=
  { g with classPages := g.classPages.map (List.map F), emptyPages := g.emptyPages.map F }

/-- `q` is `pg` with possibly more mark bits set and nothing else changed. -/
structure MarkOnly (pg q : Page) : Prop where
  blk : q.block = pg.block
  scls : q.sizeClass = pg.sizeClass
  ns : q.nslots = pg.nslots
  cnt : q.inuseCount = pg.inuseCount
  fh : q.freeHead = pg.freeHead
  ib : q.inuseBits = pg.inuseBits
  sl : q.slots = pg.slots
  mbLen : q.markBits.length = pg.markBits.length
  mono : ∀ i, pg.markBits.getD i false = true → q.markBits.getD i false = true

def markedCount (g : GC) : Nat :=
  ((pagesOf g).map (fun pg => popcountTo pg.nslots pg.markBits)).sum

/-- Set the mark bit `i` (the body of `slotMark`, ReMem.c 750-760). -/
def smark (i : Nat) : Page → Page :=
  fun pg => { pg with markBits := pg.markBits.set i true }

-- ================================
-- The whole mark phase
-- ================================

/-- The sweep and pressure-refresh tail of `gcCollect`. -/
def collectCore (g3 : GC) : GC :=
  { sweepAllPages g3 with
      lastLiveBytes := recomputeLiveBytes (sweepAllPages g3),
      bytesSinceLastGC := 0 }

/-- The marking state after the stack scan and the explicit-roots scan. -/
def markState (e : Env) (g : GC) : GC × List (Nat × Nat) :=
  markRoots e (markWords (g, []) e.stackWords) (markWords (g, []) e.stackWords).1.roots

/-- The kept pages of one swept class list, in order. -/
def sweptKeep (l : List Page) : List Page :=
  (l.map sweepPage).filter (fun q => decide (q.inuseCount ≠ 0))

/-- The emptied pages of one swept class list, in walk order. -/
def sweptEmpt (l : List Page) : List Page :=
  (l.map sweepPage).filter (fun q => decide (q.inuseCount = 0))

/-- The state after the pressure check at the head of `allocFromClass`. -/
def pressured (e : Env) (g : GC) (ci : Nat) : GC :=
  (maybeCollectOnPressure e g (sizeClasses.getD ci 0)).1

-- ================================
-- Concrete witness runs
-- ================================

/-- A minimal environment: one aligned fresh block at `BUFF_SIZE`, an
empty stack scan, and client address 10 holding the first allocation's
pointer. -/
def envW : Env :=
  { stackWords := [], deref := fun a => if a = 10 then BUFF_SIZE else 0,
    raw1 := BUFF_SIZE, raw2 := 0, lp1 := 0, lp2 := 0 }

/-- One class-14 allocation (a 4-slot page) followed by rooting
address 10. -/
def opsW : List GOp := [GOp.alloc 262144 envW, GOp.root 10]

/-- The state after running `opsW` from `gcInit false`. -/
def gW : GC :=
  match applyGOps (gcInit false) opsW with
  | Except.ok g => g
  | Except.error _ => gcInit false

/-- The state returned by a single class-14 allocation on a fresh
`freeMemory` collector. -/
def gA : GC :=
  match gcAlloc envW (gcInit true) 262144 with
  | Except.ok gp => gp.1
  | Except.error _ => gcInit true

/-- The pointer returned by that allocation. -/
def pA : Nat :=
  match gcAlloc envW (gcInit true) 262144 with
  | Except.ok gp => gp.2
  | Except.error _ => 0

theorem NUM_CLASSES_eq : NUM_CLASSES = 15 := rfl

theorem classForSizeAux_spec (size : Nat) :
    ∀ (l : List Nat) (i : Nat),
      (∀ r : Nat, classForSizeAux size i l = (r : Int) →
        i ≤ r ∧ r - i < l.length ∧ size ≤ l.getD (r - i) 0 ∧
        ∀ j, j < r - i → l.getD j 0 < size) ∧
      (classForSizeAux size i l = -1 →
        ∀ j, j < l.length → l.getD j 0 < size) := by
  intro l
  induction l with
  | nil =>
    intro i
    constructor
    · intro r hr
      exact absurd hr (by simp [classForSizeAux])
    · intro _ j hj
      simp at hj
  | cons c rest ih =>
    intro i
    by_cases hle : size ≤ c
    · constructor
      · intro r hr
        simp only [classForSizeAux, if_pos hle] at hr
        have : i = r := by exact_mod_cast hr
        subst this
        simp only [Nat.sub_self]
        exact ⟨le_refl _, by simp, by simpa using hle, fun j hj => by omega⟩
      · intro hr
        simp only [classForSizeAux, if_pos hle] at hr
        exact absurd hr (by omega)
    · constructor
      · intro r hr
        simp only [classForSizeAux, if_neg hle] at hr
        obtain ⟨h1, h2, h3, h4⟩ := (ih (i + 1)).1 r hr
        have hri : r - i = (r - (i + 1)) + 1 := by omega
        refine ⟨by omega, ?_, ?_, ?_⟩
        · simp only [List.length_cons]
          omega
        · rw [hri]
          simpa using h3
        · intro j hj
          cases j with
          | zero =>
            simp only [List.getD_cons_zero]
            omega
          | succ j' =>
            simp only [List.getD_cons_succ]
            exact h4 j' (by omega)
      · intro hr
        simp only [classForSizeAux, if_neg hle] at hr
        intro j hj
        cases j with
        | zero =>
          simp only [List.getD_cons_zero]
          omega
        | succ j' =>
          simp only [List.getD_cons_succ]
          exact (ih (i + 1)).2 hr j' (by simpa using hj)

theorem classForSizeAux_cases (size : Nat) :
    ∀ (l : List Nat) (i : Nat),
      classForSizeAux size i l = -1 ∨ ∃ r : Nat, classForSizeAux size i l = (r : Int) := by
  intro l
  induction l with
  | nil => intro i; exact Or.inl rfl
  | cons c rest ih =>
    intro i
    by_cases hle : size ≤ c
    · exact Or.inr ⟨i, by simp [classForSizeAux, if_pos hle]⟩
    · simpa only [classForSizeAux, if_neg hle] using ih (i + 1)

/-- C4: `classForSize` returns the smallest size-class index whose slot size
is at least the requested size `n`, and the sentinel `-1` (oversize) exactly
when `n` exceeds the largest class (262144); in particular requests of
exactly 16, 32, ..., 262144 bytes land in classes 0 through 14, and a
request of 262145 bytes is oversize (bypassing the page system, see
`gcAlloc`). -/
theorem classForSize_smallest_fit (n : Nat) :
    (∀ r : Nat, classForSize n = (r : Int) →
      r < NUM_CLASSES ∧ n ≤ sizeClasses.getD r 0 ∧
      ∀ j, j < r → sizeClasses.getD j 0 < n) ∧
    (classForSize n = -1 ↔ 262144 < n) ∧
    (∀ k, k < NUM_CLASSES → classForSize (sizeClasses.getD k 0) = (k : Int)) ∧
    classForSize 262145 = -1 := by
  refine ⟨?_, ⟨?_, ?_⟩, ?_, by decide⟩
  · intro r hr
    obtain ⟨_, h2, h3, h4⟩ := (classForSizeAux_spec n sizeClasses 0).1 r hr
    simp only [Nat.sub_zero] at h2 h3 h4
    exact ⟨h2, h3, h4⟩
  · intro h
    have h14 := (classForSizeAux_spec n sizeClasses 0).2 h 14 (by decide)
    simpa using h14
  · intro hgt
    rcases classForSizeAux_cases n sizeClasses 0 with h | ⟨r, hr⟩
    · exact h
    · obtain ⟨_, h2, h3, _⟩ := (classForSizeAux_spec n sizeClasses 0).1 r hr
      simp only [Nat.sub_zero] at h2 h3
      have hle : sizeClasses.getD r 0 ≤ 262144 := by
        have hr15 : r < 15 := by simpa [NUM_CLASSES_eq] using h2
        interval_cases r <;> decide
      omega
  · intro k hk
    have hk15 : k < 15 := by simpa [NUM_CLASSES_eq] using hk
    interval_cases k <;> decide

theorem findVacantOrSelf_set_self {r : List (Option Nat)} {x : Nat} {i : Nat}
    (h : findVacantOrSelf r x = some i) :
    findVacantOrSelf (r.set i (some x)) x = some i := by
  induction r generalizing i with
  | nil => simp [findVacantOrSelf] at h
  | cons e rest ih =>
    by_cases he : e = none ∨ e = some x
    · simp [findVacantOrSelf, he] at h
      subst h
      simp [findVacantOrSelf]
    · simp only [findVacantOrSelf, if_neg he] at h
      rcases Option.map_eq_some'.mp h with ⟨j, hj, hji⟩
      subst hji
      simp only [List.set_cons_succ, findVacantOrSelf, if_neg he, ih hj, Option.map_some']

theorem findVacantOrSelf_append_none {r : List (Option Nat)} {x : Nat}
    (h : findVacantOrSelf r x = none) :
    findVacantOrSelf (r ++ [some x]) x = some r.length := by
  induction r with
  | nil => simp [findVacantOrSelf]
  | cons e rest ih =>
    by_cases he : e = none ∨ e = some x
    · simp [findVacantOrSelf, he] at h
    · simp only [findVacantOrSelf, if_neg he, Option.map_eq_none'] at h
      simp [findVacantOrSelf, if_neg he, ih h]

theorem set_append_singleton_self (l : List (Option Nat)) (v : Option Nat) :
    (l ++ [v]).set l.length v = l ++ [v] := by
  induction l with
  | nil => simp
  | cons e rest ih => simp [ih]

theorem set_getD_self {l : List (Option Nat)} {i : Nat} {x : Nat}
    (h : l.getD i none = some x) : l.set i (some x) = l := by
  induction l generalizing i with
  | nil => simp
  | cons e rest ih =>
    cases i with
    | zero => simp_all
    | succ j =>
      simp only [List.getD_cons_succ] at h
      simp [ih h]

/-- C8 counterexample: from the reachable registry state `[vacant, 5]`
(produced by `root 1; root 5; unroot 1`), a further `root 5` is not a
no-op: the scan finds the vacancy first and installs a duplicate copy
of `5`, changing the registry state. -/
theorem addRoot_present_not_noop :
    addRoot [none, some 5] 5 = [some 5, some 5] ∧
    addRoot [none, some 5] 5 ≠ [none, some 5] := by decide

/-- C8 (amended): `root x; root x` from any registry state behaves
identically to a single `root x` on registry contents; and a further
`root x` when `x` is already present is a no-op precisely when no vacancy
precedes the first occurrence of `x` (i.e. the first vacant-or-equal
entry found by the scan already holds `x`); a vacancy preceding `x`
instead receives a duplicate copy of `x` (see the counterexample). -/
theorem addRoot_idempotent_amended :
    (∀ (r : List (Option Nat)) (x : Nat), addRoot (addRoot r x) x = addRoot r x) ∧
    (∀ (r : List (Option Nat)) (x : Nat) (i : Nat),
      findVacantOrSelf r x = some i → r.getD i none = some x →
      addRoot r x = r) := by
  constructor
  · intro r x
    by_cases hr : r.isEmpty
    · have : r = [] := by cases r <;> simp_all
      subst this
      simp [addRoot, findVacantOrSelf]
    · simp only [addRoot, if_neg hr]
      cases hfind : findVacantOrSelf r x with
      | some i =>
        have hne : (r.set i (some x)).isEmpty = false := by
          cases r <;> simp_all [List.set]
        simp only [addRoot, hne, Bool.false_eq_true, if_false,
          findVacantOrSelf_set_self hfind, List.set_set]
      | none =>
        have hne : (r ++ [some x]).isEmpty = false := by simp
        simp only [addRoot, hne, Bool.false_eq_true, if_false,
          findVacantOrSelf_append_none hfind, set_append_singleton_self]
  · intro r x i hfind hget
    have hne : r.isEmpty = false := by
      cases r
      · simp [findVacantOrSelf] at hfind
      · simp
    simp only [addRoot, hne, Bool.false_eq_true, if_false, hfind,
      set_getD_self hget]

-- ================================
-- List and modular helpers
-- ================================

theorem getD_set_eq {α : Type} {l : List α} {i : Nat} {v d : α} (h : i < l.length) :
    (l.set i v).getD i d = v := by
  induction l generalizing i with
  | nil => simp at h
  | cons e rest ih =>
    cases i with
    | zero => simp
    | succ j => simpa using ih (by simpa using h)

theorem getD_set_ne {α : Type} {l : List α} {i j : Nat} {v d : α} (h : i ≠ j) :
    (l.set i v).getD j d = l.getD j d := by
  induction l generalizing i j with
  | nil => simp
  | cons e rest ih =>
    cases i with
    | zero => cases j with
      | zero => exact absurd rfl h
      | succ j' => simp
    | succ i' => cases j with
      | zero => simp
      | succ j' => simpa using ih (by omega)

theorem and_mask_eq_mod {cap : Nat} (hpow : ∃ m, cap = 2 ^ m) (x : Nat) :
    x &&& (cap - 1) = x % cap := by
  obtain ⟨m, rfl⟩ := hpow
  exact Nat.and_pow_two_sub_one_eq_mod x m

theorem mod_two_cases {cap x : Nat} (hc : 0 < cap) (h : x < 2 * cap) :
    x % cap = if x < cap then x else x - cap := by
  by_cases hx : x < cap
  · simp [Nat.mod_eq_of_lt hx, hx]
  · rw [if_neg hx, Nat.mod_eq_sub_mod (by omega), Nat.mod_eq_of_lt (by omega)]

theorem hPos_lt {cap : Nat} (hc : 0 < cap) (k j : Nat) : hPos cap k j < cap :=
  Nat.mod_lt _ hc

theorem hPos_step {cap : Nat} (hpow : ∃ m, cap = 2 ^ m) (k j : Nat) :
    (hPos cap k j + 1) &&& (cap - 1) = hPos cap k (j + 1) := by
  rw [and_mask_eq_mod hpow]
  simp only [hPos]
  rw [Nat.mod_add_mod, Nat.add_assoc]

theorem hPos_inj {cap k : Nat} (hc : 0 < cap) {t t' : Nat}
    (ht : t < cap) (ht' : t' < cap) (h : hPos cap k t = hPos cap k t') : t = t' := by
  have hh : hash64 k % cap < cap := Nat.mod_lt _ hc
  simp only [hPos] at h
  generalize hA : hash64 k % cap = a at h hh
  have h1 : (a + t) % cap = if a + t < cap then a + t else a + t - cap :=
    mod_two_cases hc (by omega)
  have h2 : (a + t') % cap = if a + t' < cap then a + t' else a + t' - cap :=
    mod_two_cases hc (by omega)
  rw [h1, h2] at h
  split_ifs at h <;> omega

theorem hPos_surj {cap k : Nat} (hc : 0 < cap) (pos : Nat) (hpos : pos < cap) :
    ∃ t, t < cap ∧ pos = hPos cap k t := by
  have hh : hash64 k % cap < cap := Nat.mod_lt _ hc
  simp only [hPos]
  generalize hA : hash64 k % cap = a at hh ⊢
  refine ⟨(cap + pos - a) % cap, Nat.mod_lt _ hc, ?_⟩
  have hx : (cap + pos - a) % cap =
      if cap + pos - a < cap then cap + pos - a else cap + pos - a - cap :=
    mod_two_cases hc (by omega)
  rw [hx]
  split_ifs with hlt
  · rw [show a + (cap + pos - a) = cap + pos by omega,
      Nat.add_mod_left, Nat.mod_eq_of_lt hpos]
  · rw [show a + (cap + pos - a - cap) = pos by omega,
      Nat.mod_eq_of_lt hpos]

-- ================================
-- Occupancy accounting
-- ================================

theorem getD_replicate_zero (n i : Nat) : (List.replicate n (0 : Nat)).getD i 0 = 0 := by
  induction n generalizing i with
  | zero => simp
  | succ n ih =>
    cases i with
    | zero => simp [List.replicate]
    | succ j => simpa [List.replicate] using ih j

theorem occK_replicate_zero (c n : Nat) : occK c (List.replicate n 0) = 0 := by
  unfold occK
  rw [Finset.card_eq_zero, Finset.filter_eq_empty_iff]
  intro x _
  simp [getD_replicate_zero]

theorem occK_le (cap : Nat) (keys : List Nat) : occK cap keys ≤ cap := by
  calc occK cap keys ≤ (Finset.range cap).card := Finset.card_filter_le _ _
  _ = cap := Finset.card_range cap

theorem lt_length_of_getD_ne {keys : List Nat} {pos : Nat} (h : keys.getD pos 0 ≠ 0) :
    pos < keys.length := by
  by_contra hge
  rw [List.getD_eq_default _ _ (by omega)] at h
  exact h rfl

theorem occK_exists_empty {cap : Nat} {keys : List Nat} (h : occK cap keys < cap) :
    ∃ e, e < cap ∧ keys.getD e 0 = 0 := by
  by_contra hno
  push_neg at hno
  have hsub : Finset.range cap ⊆ (Finset.range cap).filter (fun p => keys.getD p 0 ≠ 0) := by
    intro x hx
    exact Finset.mem_filter.mpr ⟨hx, hno x (Finset.mem_range.mp hx)⟩
  have hc := Finset.card_le_card hsub
  rw [Finset.card_range] at hc
  unfold occK at h
  omega

theorem occK_set_fresh {cap : Nat} {keys : List Nat} {pos k : Nat}
    (hpos : pos < cap) (hlen : keys.length = cap)
    (hempty : keys.getD pos 0 = 0) (hk : k ≠ 0) :
    occK cap (keys.set pos k) = occK cap keys + 1 := by
  unfold occK
  have hset : (Finset.range cap).filter (fun p => (keys.set pos k).getD p 0 ≠ 0) =
      insert pos ((Finset.range cap).filter (fun p => keys.getD p 0 ≠ 0)) := by
    ext x
    simp only [Finset.mem_filter, Finset.mem_insert, Finset.mem_range]
    by_cases hx : x = pos
    · subst hx
      rw [getD_set_eq (by omega : x < keys.length)]
      constructor
      · intro _
        exact Or.inl rfl
      · intro _
        exact ⟨hpos, hk⟩
    · rw [getD_set_ne (fun h => hx h.symm)]
      constructor
      · intro hmem
        exact Or.inr hmem
      · intro hmem
        rcases hmem with hmem | hmem
        · exact absurd hmem hx
        · exact hmem
  rw [hset, Finset.card_insert_of_not_mem]
  intro hmem
  exact (Finset.mem_filter.mp hmem).2 hempty

theorem occK_set_clear {cap : Nat} {keys : List Nat} {pos : Nat}
    (hpos : pos < cap) (hlen : keys.length = cap)
    (hocc : keys.getD pos 0 ≠ 0) :
    occK cap (keys.set pos 0) = occK cap keys - 1 := by
  unfold occK
  have hset : (Finset.range cap).filter (fun p => (keys.set pos 0).getD p 0 ≠ 0) =
      ((Finset.range cap).filter (fun p => keys.getD p 0 ≠ 0)).erase pos := by
    ext x
    simp only [Finset.mem_filter, Finset.mem_erase, Finset.mem_range]
    by_cases hx : x = pos
    · subst hx
      rw [getD_set_eq (by omega : x < keys.length)]
      constructor
      · intro hmem
        exact absurd rfl hmem.2
      · intro hmem
        exact absurd rfl hmem.1
    · rw [getD_set_ne (fun h => hx h.symm)]
      tauto
  rw [hset, Finset.card_erase_of_mem
    (Finset.mem_filter.mpr ⟨Finset.mem_range.mpr hpos, hocc⟩)]

theorem occK_set_keep {cap : Nat} {keys : List Nat} {pos k : Nat}
    (hocc : keys.getD pos 0 ≠ 0) (hk : k ≠ 0) :
    occK cap (keys.set pos k) = occK cap keys := by
  have hxlen : pos < keys.length := lt_length_of_getD_ne hocc
  unfold occK
  congr 1
  ext x
  simp only [Finset.mem_filter, Finset.mem_range]
  by_cases hx : x = pos
  · subst hx
    rw [getD_set_eq hxlen]
    constructor
    · intro hmem
      exact ⟨hmem.1, hocc⟩
    · intro hmem
      exact ⟨hmem.1, hk⟩
  · rw [getD_set_ne (fun h => hx h.symm)]

-- ================================
-- roundPow2 / pageIndexInit
-- ================================

theorem roundPow2Aux_pow {m : Nat} :
    ∀ fuel j, 2 ^ j ≤ 2 ^ m → 2 ^ m ≤ 2 ^ j * 2 ^ fuel →
      roundPow2Aux (2 ^ m) fuel (2 ^ j) = 2 ^ m := by
  intro fuel
  induction fuel with
  | zero =>
    intro j h1 h2
    simp only [roundPow2Aux]
    simp only [pow_zero, mul_one] at h2
    omega
  | succ f ih =>
    intro j h1 h2
    simp only [roundPow2Aux]
    by_cases hlt : 2 ^ j < 2 ^ m
    · rw [if_pos hlt]
      have hjm : j < m := (Nat.pow_lt_pow_iff_right (by omega)).mp hlt
      have h2j : 2 * 2 ^ j = 2 ^ (j + 1) := by ring
      rw [h2j]
      refine ih (j + 1) (Nat.pow_le_pow_right (by omega) (by omega)) ?_
      calc 2 ^ m ≤ 2 ^ j * 2 ^ (f + 1) := h2
      _ = 2 ^ (j + 1) * 2 ^ f := by ring
    · rw [if_neg hlt]
      omega

theorem roundPow2_pow (m : Nat) : roundPow2 (2 ^ m) = 2 ^ m := by
  unfold roundPow2
  have h1 : (2 : Nat) ^ 0 ≤ 2 ^ m := Nat.pow_le_pow_right (by omega) (by omega)
  have h2 : 2 ^ m ≤ 2 ^ 0 * 2 ^ (2 ^ m) := by
    simp only [pow_zero, one_mul]
    exact Nat.le_of_lt (Nat.lt_two_pow (2 ^ m))
  simpa using roundPow2Aux_pow (2 ^ m) 0 h1 h2

theorem pageIndexInit_eq {m : Nat} (h64 : 64 ≤ 2 ^ m) :
    pageIndexInit (2 ^ m) =
      ⟨List.replicate (2 ^ m) 0, List.replicate (2 ^ m) 0, 2 ^ m, 0⟩ := by
  simp only [pageIndexInit, if_neg (by omega : ¬ 2 ^ m < 64), roundPow2_pow]

theorem HWF_replicate_zero {c : Nat} (hpow : ∃ m, c = 2 ^ m) (h64 : 64 ≤ c) :
    HWF ⟨List.replicate c 0, List.replicate c 0, c, 0⟩ := by
  obtain ⟨m, rfl⟩ := hpow
  refine ⟨by simp, by simp, ⟨m, rfl⟩, h64, ?_, ?_, ?_, ?_⟩
  · simp [hOcc, occK_replicate_zero]
  · exact Nat.pos_of_ne_zero (by positivity)
  · intro p1 p2 _ _ h1 _
    exact absurd (getD_replicate_zero _ p1) h1
  · intro pos _ hne
    exact absurd (getD_replicate_zero _ pos) hne

-- ================================
-- Probe-scan trajectories
-- ================================

theorem hScanFree_spec {cap : Nat} (hpow : ∃ m, cap = 2 ^ m) (keys : List Nat) (k : Nat)
    {d : Nat} (hstop : keys.getD (hPos cap k d) 0 = 0)
    (hrun : ∀ j, j < d → keys.getD (hPos cap k j) 0 ≠ 0) :
    ∀ fuel t, t ≤ d → d - t < fuel →
      hScanFree keys (cap - 1) fuel (hPos cap k t) = hPos cap k d := by
  intro fuel
  induction fuel with
  | zero => intro t _ h; omega
  | succ f ih =>
    intro t ht hf
    simp only [hScanFree]
    by_cases htd : t = d
    · subst htd
      rw [if_neg (by rw [hstop]; exact fun hne => hne rfl)]
    · have htlt : t < d := by omega
      rw [if_pos (hrun t htlt), hPos_step hpow]
      exact ih (t + 1) (by omega) (by omega)

theorem hScanIns_spec {cap : Nat} (hpow : ∃ m, cap = 2 ^ m) (keys : List Nat) (base : Nat)
    {d : Nat}
    (hstop : keys.getD (hPos cap base d) 0 = 0 ∨ keys.getD (hPos cap base d) 0 = base)
    (hrun : ∀ j, j < d → keys.getD (hPos cap base j) 0 ≠ 0 ∧
      keys.getD (hPos cap base j) 0 ≠ base) :
    ∀ fuel t, t ≤ d → d - t < fuel →
      hScanIns keys (cap - 1) base fuel (hPos cap base t) = hPos cap base d := by
  intro fuel
  induction fuel with
  | zero => intro t _ h; omega
  | succ f ih =>
    intro t ht hf
    simp only [hScanIns]
    by_cases htd : t = d
    · subst htd
      rw [if_neg]
      rcases hstop with h | h
      · intro hcon
        exact hcon.1 h
      · intro hcon
        exact hcon.2 h
    · have htlt : t < d := by omega
      rw [if_pos ⟨(hrun t htlt).1, (hrun t htlt).2⟩, hPos_step hpow]
      exact ih (t + 1) (by omega) (by omega)

theorem hLookup_found {cap : Nat} (hpow : ∃ m, cap = 2 ^ m)
    (keys vals : List Nat) (base : Nat) {d : Nat}
    (hfound : keys.getD (hPos cap base d) 0 = base) (hbase : base ≠ 0)
    (hrun : ∀ j, j < d → keys.getD (hPos cap base j) 0 ≠ 0 ∧
      keys.getD (hPos cap base j) 0 ≠ base) :
    ∀ fuel t, t ≤ d → d - t < fuel →
      hLookup keys vals (cap - 1) base fuel (hPos cap base t) =
        some (vals.getD (hPos cap base d) 0) := by
  intro fuel
  induction fuel with
  | zero => intro t _ h; omega
  | succ f ih =>
    intro t ht hf
    simp only [hLookup]
    by_cases htd : t = d
    · subst htd
      rw [if_pos (by rw [hfound]; exact hbase), if_pos hfound]
    · have htlt : t < d := by omega
      rw [if_pos (hrun t htlt).1, if_neg (hrun t htlt).2, hPos_step hpow]
      exact ih (t + 1) (by omega) (by omega)

theorem hLookup_empty {cap : Nat} (hpow : ∃ m, cap = 2 ^ m)
    (keys vals : List Nat) (base : Nat) {d : Nat}
    (hempty : keys.getD (hPos cap base d) 0 = 0)
    (hrun : ∀ j, j < d → keys.getD (hPos cap base j) 0 ≠ 0 ∧
      keys.getD (hPos cap base j) 0 ≠ base) :
    ∀ fuel t, t ≤ d → d - t < fuel →
      hLookup keys vals (cap - 1) base fuel (hPos cap base t) = none := by
  intro fuel
  induction fuel with
  | zero => intro t _ h; omega
  | succ f ih =>
    intro t ht hf
    simp only [hLookup]
    by_cases htd : t = d
    · subst htd
      rw [if_neg (by rw [hempty]; exact fun hne => hne rfl)]
    · have htlt : t < d := by omega
      rw [if_pos (hrun t htlt).1, if_neg (hrun t htlt).2, hPos_step hpow]
      exact ih (t + 1) (by omega) (by omega)

/-- Minimal first-empty probe distance for key `k`: exists whenever the
table has an empty slot. -/
theorem exists_min_empty {cap : Nat} {keys : List Nat} (k : Nat) (hc : 0 < cap)
    (hex : ∃ e, e < cap ∧ keys.getD e 0 = 0) :
    ∃ d, d < cap ∧ keys.getD (hPos cap k d) 0 = 0 ∧
      ∀ j, j < d → keys.getD (hPos cap k j) 0 ≠ 0 := by
  obtain ⟨e, he, hke⟩ := hex
  obtain ⟨t, ht, hte⟩ := hPos_surj (k := k) hc e he
  have hP : ∃ j, keys.getD (hPos cap k j) 0 = 0 := ⟨t, by rw [← hte]; exact hke⟩
  classical
  refine ⟨Nat.find hP, ?_, Nat.find_spec hP, fun j hj => Nat.find_min hP hj⟩
  calc Nat.find hP ≤ t := Nat.find_min' hP (by rw [← hte]; exact hke)
  _ < cap := ht

/-- A stored key is found by the insert/lookup scans at exactly its probe
distance: the probe prefix is fully occupied by other keys. -/
theorem stored_key_probe {h : HIdx} (W : HWF h) {q : Nat} (hq : q < h.cap)
    (hkey : h.keys.getD q 0 ≠ 0) :
    ∃ d, d < h.cap ∧ q = hPos h.cap (h.keys.getD q 0) d ∧
      h.keys.getD (hPos h.cap (h.keys.getD q 0) d) 0 = h.keys.getD q 0 ∧
      ∀ j, j < d → h.keys.getD (hPos h.cap (h.keys.getD q 0) j) 0 ≠ 0 ∧
        h.keys.getD (hPos h.cap (h.keys.getD q 0) j) 0 ≠ h.keys.getD q 0 := by
  have hc : 0 < h.cap := by
    obtain ⟨m, hm⟩ := W.pow
    rw [hm]
    positivity
  obtain ⟨d, hd, hqd, hrun⟩ := W.path q hq hkey
  refine ⟨d, hd, hqd, by rw [← hqd], ?_⟩
  intro j hj
  refine ⟨hrun j hj, ?_⟩
  intro heq
  have hjpos : hPos h.cap (h.keys.getD q 0) j < h.cap := hPos_lt hc _ _
  have heqq := W.dist (hPos h.cap (h.keys.getD q 0) j) q hjpos hq (hrun j hj) heq
  have : j = d := hPos_inj hc (by omega : j < h.cap) hd (heqq.trans hqd)
  omega

-- ================================
-- Insert & grow preserve HWF
-- ================================

theorem HWF_cap_pos {h : HIdx} (W : HWF h) : 0 < h.cap := by
  have := W.cap64
  omega

/-- Placing a fresh key at the first empty slot of its probe path
preserves well-formedness. -/
theorem HWF_place {h : HIdx} (W : HWF h) {k v d : Nat}
    (hk : k ≠ 0) (hd : d < h.cap)
    (hempty : h.keys.getD (hPos h.cap k d) 0 = 0)
    (hrun : ∀ j, j < d → h.keys.getD (hPos h.cap k j) 0 ≠ 0)
    (hfresh : ∀ pos, pos < h.cap → h.keys.getD pos 0 ≠ k)
    (hroom : h.cnt + 1 < h.cap) :
    HWF { h with keys := h.keys.set (hPos h.cap k d) k,
                 vals := h.vals.set (hPos h.cap k d) v, cnt := h.cnt + 1 } := by
  have hc : 0 < h.cap := HWF_cap_pos W
  have hP : hPos h.cap k d < h.cap := hPos_lt hc _ _
  have hPlen : hPos h.cap k d < h.keys.length := by rw [W.klen]; exact hP
  refine ⟨?_, ?_, W.pow, W.cap64, ?_, hroom, ?_, ?_⟩
  · simpa using W.klen
  · simpa using W.vlen
  · show h.cnt + 1 = occK h.cap (h.keys.set (hPos h.cap k d) k)
    rw [occK_set_fresh hP W.klen hempty hk]
    have hce : h.cnt = occK h.cap h.keys := W.cnteq
    omega
  · intro p1 p2 hp1 hp2 hne heq
    by_cases h1 : p1 = hPos h.cap k d <;> by_cases h2 : p2 = hPos h.cap k d
    · rw [h1, h2]
    · rw [h1, getD_set_eq hPlen] at heq
      rw [getD_set_ne (fun hx => h2 hx.symm)] at heq
      exact absurd heq.symm (hfresh p2 hp2)
    · rw [h2, getD_set_eq hPlen] at heq
      rw [getD_set_ne (fun hx => h1 hx.symm)] at heq hne
      exact absurd heq (hfresh p1 hp1)
    · rw [getD_set_ne (fun hx => h1 hx.symm)] at heq hne
      rw [getD_set_ne (fun hx => h2 hx.symm)] at heq
      exact W.dist p1 p2 hp1 hp2 hne heq
  · intro pos hpos hne
    by_cases hP1 : pos = hPos h.cap k d
    · subst hP1
      rw [getD_set_eq hPlen] at hne ⊢
      refine ⟨d, hd, rfl, ?_⟩
      intro j hj
      have hjne : hPos h.cap k j ≠ hPos h.cap k d := by
        intro hx
        have := hPos_inj hc (by omega : j < h.cap) hd hx
        omega
      rw [getD_set_ne (fun hx => hjne hx.symm)]
      exact hrun j hj
    · rw [getD_set_ne (fun hx => hP1 hx.symm)] at hne ⊢
      obtain ⟨d', hd', hpd', hrun'⟩ := W.path pos hpos hne
      refine ⟨d', hd', hpd', ?_⟩
      intro j hj
      by_cases hjP : hPos h.cap (h.keys.getD pos 0) j = hPos h.cap k d
      · rw [hjP, getD_set_eq hPlen]
        exact hk
      · rw [getD_set_ne (fun hx => hjP hx.symm)]
        exact hrun' j hj

theorem hMem_place {h : HIdx} (W : HWF h) {k v d : Nat}
    (hd : d < h.cap)
    (hempty : h.keys.getD (hPos h.cap k d) 0 = 0) :
    ∀ k' v', k' ≠ 0 →
      (hMem { h with keys := h.keys.set (hPos h.cap k d) k,
                     vals := h.vals.set (hPos h.cap k d) v, cnt := h.cnt + 1 } k' v' ↔
        ((k' = k ∧ v' = v) ∨ hMem h k' v')) := by
  have hc : 0 < h.cap := HWF_cap_pos W
  have hP : hPos h.cap k d < h.cap := hPos_lt hc _ _
  have hPk : hPos h.cap k d < h.keys.length := by rw [W.klen]; exact hP
  have hPv : hPos h.cap k d < h.vals.length := by rw [W.vlen]; exact hP
  intro k' v' hk'
  constructor
  · rintro ⟨pos, hpos, hkey, hval⟩
    by_cases hx : pos = hPos h.cap k d
    · subst hx
      rw [getD_set_eq hPk] at hkey
      rw [getD_set_eq hPv] at hval
      exact Or.inl ⟨hkey.symm, hval.symm⟩
    · rw [getD_set_ne (fun hy => hx hy.symm)] at hkey
      rw [getD_set_ne (fun hy => hx hy.symm)] at hval
      exact Or.inr ⟨pos, hpos, hkey, hval⟩
  · rintro (⟨hk1, hv1⟩ | ⟨pos, hpos, hkey, hval⟩)
    · subst hk1
      subst hv1
      exact ⟨_, hP, getD_set_eq hPk, getD_set_eq hPv⟩
    · refine ⟨pos, hpos, ?_, ?_⟩
      · have hx : pos ≠ hPos h.cap k d := by
          intro hy
          rw [hy, hempty] at hkey
          exact hk' hkey.symm
        rw [getD_set_ne (fun hy => hx hy.symm)]
        exact hkey
      · have hx : pos ≠ hPos h.cap k d := by
          intro hy
          rw [hy, hempty] at hkey
          exact hk' hkey.symm
        rw [getD_set_ne (fun hy => hx hy.symm)]
        exact hval

/-- `hReinsert` under well-formedness: it places the key at the first
empty slot of its probe path. -/
theorem hReinsert_spec {h : HIdx} (W : HWF h) (k v : Nat) :
    ∃ d, d < h.cap ∧ h.keys.getD (hPos h.cap k d) 0 = 0 ∧
      (∀ j, j < d → h.keys.getD (hPos h.cap k j) 0 ≠ 0) ∧
      hReinsert h k v = { h with keys := h.keys.set (hPos h.cap k d) k,
                                 vals := h.vals.set (hPos h.cap k d) v,
                                 cnt := h.cnt + 1 } := by
  have hc : 0 < h.cap := HWF_cap_pos W
  have hocc : occK h.cap h.keys < h.cap := by
    have hce : h.cnt = occK h.cap h.keys := W.cnteq
    have := W.cntlt
    omega
  obtain ⟨d, hd, hstop, hrun⟩ := exists_min_empty k hc (occK_exists_empty hocc)
  refine ⟨d, hd, hstop, hrun, ?_⟩
  have hstart : hash64 k &&& (h.cap - 1) = hPos h.cap k 0 := by
    rw [and_mask_eq_mod W.pow]
    simp [hPos]
  simp only [hReinsert, hstart,
    hScanFree_spec W.pow h.keys k hstop hrun h.cap 0 (by omega) (by omega)]

theorem occK_cons (n k : Nat) (ks : List Nat) :
    occK (n + 1) (k :: ks) = (if k ≠ 0 then 1 else 0) + occK n ks := by
  unfold occK
  rw [Finset.card_filter, Finset.card_filter, Finset.sum_range_succ']
  simp only [List.getD_cons_succ, List.getD_cons_zero]
  omega

theorem zip_mem_of {keys vals : List Nat} {kv : Nat × Nat} (h : kv ∈ keys.zip vals) :
    ∃ i, i < keys.length ∧ i < vals.length ∧
      keys.getD i 0 = kv.1 ∧ vals.getD i 0 = kv.2 := by
  induction keys generalizing vals with
  | nil => simp at h
  | cons k ks ih =>
    cases vals with
    | nil => simp at h
    | cons v vs =>
      rw [List.zip_cons_cons, List.mem_cons] at h
      rcases h with h | h
      · refine ⟨0, by simp, by simp, ?_, ?_⟩
        · rw [List.getD_cons_zero, h]
        · rw [List.getD_cons_zero, h]
      · obtain ⟨i, h1, h2, h3, h4⟩ := ih h
        exact ⟨i + 1, by simpa using h1, by simpa using h2, by simpa using h3,
          by simpa using h4⟩

theorem zip_mem_intro {keys vals : List Nat} {i : Nat}
    (h1 : i < keys.length) (h2 : i < vals.length) :
    (keys.getD i 0, vals.getD i 0) ∈ keys.zip vals := by
  induction keys generalizing vals i with
  | nil => simp at h1
  | cons k ks ih =>
    cases vals with
    | nil => simp at h2
    | cons v vs =>
      cases i with
      | zero => simp
      | succ j =>
        rw [List.zip_cons_cons, List.getD_cons_succ, List.getD_cons_succ]
        exact List.mem_cons_of_mem _ (ih (by simpa using h1) (by simpa using h2))

theorem pairwise_distinct_zip {keys : List Nat} :
    ∀ (vals : List Nat),
      (∀ i j, i < j → j < keys.length → keys.getD i 0 ≠ 0 →
        keys.getD i 0 ≠ keys.getD j 0) →
      (keys.zip vals).Pairwise (fun a b => a.1 ≠ 0 → a.1 ≠ b.1) := by
  induction keys with
  | nil => intro vals _; simp
  | cons k ks ih =>
    intro vals hd
    cases vals with
    | nil => simp
    | cons v vs =>
      rw [List.zip_cons_cons, List.pairwise_cons]
      constructor
      · intro b hb hk0
        obtain ⟨i, hi1, _, hi3, _⟩ := zip_mem_of hb
        have := hd 0 (i + 1) (by omega) (by simpa using hi1)
          (by simpa using hk0)
        simp only [List.getD_cons_zero, List.getD_cons_succ] at this
        rw [← hi3]
        exact this
      · refine ih vs ?_
        intro i j hij hj hi0
        have := hd (i + 1) (j + 1) (by omega) (by simpa using hj)
          (by simpa using hi0)
        simpa using this

theorem countP_zip_eq_occK {keys : List Nat} :
    ∀ (vals : List Nat), vals.length = keys.length →
      (keys.zip vals).countP (fun kv => decide (kv.1 ≠ 0)) = occK keys.length keys := by
  induction keys with
  | nil =>
    intro vals _
    simp [occK]
  | cons k ks ih =>
    intro vals hlen
    cases vals with
    | nil => simp at hlen
    | cons v vs =>
      rw [List.zip_cons_cons, List.countP_cons, ih vs (by simpa using hlen),
        List.length_cons, occK_cons]
      by_cases hk : k = 0
      · subst hk
        simp
      · simp [hk]
        omega

theorem set_getD_self_nat {l : List Nat} {i : Nat} (h : i < l.length) :
    l.set i (l.getD i 0) = l := by
  induction l generalizing i with
  | nil => simp
  | cons e rest ih =>
    cases i with
    | zero => simp
    | succ j =>
      rw [List.getD_cons_succ, List.set_cons_succ, ih (by simpa using h)]

/-- The re-insertion fold of `pageIndexGrow`, for any prefix of pending
entries: preserves well-formedness and accumulates contents. -/
theorem growFold_spec :
    ∀ (ps : List (Nat × Nat)) (acc : HIdx), HWF acc →
      (∀ kv, kv ∈ ps → kv.1 ≠ 0 → ∀ pos, pos < acc.cap → acc.keys.getD pos 0 ≠ kv.1) →
      ps.Pairwise (fun a b => a.1 ≠ 0 → a.1 ≠ b.1) →
      acc.cnt + ps.countP (fun kv => decide (kv.1 ≠ 0)) < acc.cap →
      ∀ res, res = ps.foldl
          (fun a kv => if kv.1 ≠ 0 then hReinsert a kv.1 kv.2 else a) acc →
        HWF res ∧ res.cap = acc.cap ∧
        res.cnt = acc.cnt + ps.countP (fun kv => decide (kv.1 ≠ 0)) ∧
        (∀ k v, k ≠ 0 → (hMem res k v ↔ hMem acc k v ∨ (k, v) ∈ ps)) := by
  intro ps
  induction ps with
  | nil =>
    intro acc W _ _ _ res hres
    subst hres
    refine ⟨W, rfl, by simp, ?_⟩
    intro k v _
    simp
  | cons kv rest ih =>
    intro acc W hdisj hpw hroom res hres
    rw [List.pairwise_cons] at hpw
    by_cases hk0 : kv.1 = 0
    · rw [List.foldl_cons, if_neg (by rw [hk0]; exact fun hc => hc rfl)] at hres
      have hcount : (kv :: rest).countP (fun kv => decide (kv.1 ≠ 0)) =
          rest.countP (fun kv => decide (kv.1 ≠ 0)) := by
        rw [List.countP_cons]
        simp [hk0]
      obtain ⟨hW, hcap, hcnt, hmem⟩ := ih acc W
        (fun kv2 h2 => hdisj kv2 (List.mem_cons_of_mem _ h2)) hpw.2
        (by rw [hcount] at hroom; exact hroom) res hres
      refine ⟨hW, hcap, by rw [hcount]; exact hcnt, ?_⟩
      intro k v hk
      rw [hmem k v hk, List.mem_cons]
      constructor
      · rintro (h | h)
        · exact Or.inl h
        · exact Or.inr (Or.inr h)
      · rintro (h | h | h)
        · exact Or.inl h
        · exfalso
          have hkk : k = kv.1 := by rw [← h]
          exact hk (hkk.trans hk0)
        · exact Or.inr h
    · rw [List.foldl_cons, if_pos hk0] at hres
      obtain ⟨d, hd, hstop, hrun, heq⟩ := hReinsert_spec W kv.1 kv.2
      have hcount : (kv :: rest).countP (fun kv => decide (kv.1 ≠ 0)) =
          rest.countP (fun kv => decide (kv.1 ≠ 0)) + 1 := by
        rw [List.countP_cons]
        simp [hk0]
      have hroom1 : acc.cnt + 1 < acc.cap := by
        rw [hcount] at hroom
        omega
      have hfresh : ∀ pos, pos < acc.cap → acc.keys.getD pos 0 ≠ kv.1 :=
        hdisj kv (List.mem_cons_self _ _) hk0
      have hWa : HWF (hReinsert acc kv.1 kv.2) := by
        rw [heq]
        exact HWF_place W hk0 hd hstop hrun hfresh hroom1
      have hmema : ∀ k v, k ≠ 0 → (hMem (hReinsert acc kv.1 kv.2) k v ↔
          ((k = kv.1 ∧ v = kv.2) ∨ hMem acc k v)) := by
        intro k v hk
        rw [heq]
        exact hMem_place W hd hstop k v hk
      have hcapa : (hReinsert acc kv.1 kv.2).cap = acc.cap := by rw [heq]
      have hcnta : (hReinsert acc kv.1 kv.2).cnt = acc.cnt + 1 := by rw [heq]
      have hdisja : ∀ kv2, kv2 ∈ rest → kv2.1 ≠ 0 →
          ∀ pos, pos < (hReinsert acc kv.1 kv.2).cap →
            (hReinsert acc kv.1 kv.2).keys.getD pos 0 ≠ kv2.1 := by
        intro kv2 h2 hk2 pos hpos
        rw [hcapa] at hpos
        rw [heq]
        show (acc.keys.set (hPos acc.cap kv.1 d) kv.1).getD pos 0 ≠ kv2.1
        by_cases hx : pos = hPos acc.cap kv.1 d
        · subst hx
          rw [getD_set_eq (by rw [W.klen]; exact hpos)]
          exact fun hcon => (hpw.1 kv2 h2 hk0) hcon
        · rw [getD_set_ne (fun hy => hx hy.symm)]
          exact hdisj kv2 (List.mem_cons_of_mem _ h2) hk2 pos hpos
      have hrooma : (hReinsert acc kv.1 kv.2).cnt +
          rest.countP (fun kv => decide (kv.1 ≠ 0)) < (hReinsert acc kv.1 kv.2).cap := by
        rw [hcapa, hcnta]
        rw [hcount] at hroom
        omega
      obtain ⟨hW, hcap, hcnt, hmem⟩ := ih (hReinsert acc kv.1 kv.2) hWa hdisja hpw.2
        hrooma res hres
      refine ⟨hW, by rw [hcap, hcapa], by rw [hcnt, hcnta, hcount]; omega, ?_⟩
      intro k v hk
      rw [hmem k v hk, hmema k v hk, List.mem_cons]
      constructor
      · rintro ((⟨h1, h2⟩ | h) | h)
        · refine Or.inr (Or.inl ?_)
          rw [h1, h2]
        · exact Or.inl h
        · exact Or.inr (Or.inr h)
      · rintro (h | h | h)
        · exact Or.inl (Or.inr h)
        · exact Or.inl (Or.inl ⟨by rw [← h], by rw [← h]⟩)
        · exact Or.inr h

/-- `pageIndexGrow` preserves well-formedness, doubles the capacity and
preserves contents and count. -/
theorem pageIndexGrow_spec {h : HIdx} (W : HWF h) :
    HWF (pageIndexGrow h) ∧ (pageIndexGrow h).cap = 2 * h.cap ∧
    (pageIndexGrow h).cnt = h.cnt ∧
    (∀ k v, k ≠ 0 → (hMem (pageIndexGrow h) k v ↔ hMem h k v)) := by
  obtain ⟨m, hm⟩ := W.pow
  have hc64 := W.cap64
  have harg : (if h.cap ≠ 0 then h.cap * 2 else 128) = 2 ^ (m + 1) := by
    rw [if_pos (by omega)]
    rw [hm]
    ring
  have h64b : 64 ≤ 2 ^ (m + 1) := by
    calc (64 : Nat) ≤ h.cap := hc64
    _ = 2 ^ m := hm
    _ ≤ 2 ^ (m + 1) := Nat.pow_le_pow_right (by omega) (by omega)
  have hinit : pageIndexInit (if h.cap ≠ 0 then h.cap * 2 else 128) =
      ⟨List.replicate (2 ^ (m + 1)) 0, List.replicate (2 ^ (m + 1)) 0, 2 ^ (m + 1), 0⟩ := by
    rw [harg]
    exact pageIndexInit_eq h64b
  have hW2 : HWF (⟨List.replicate (2 ^ (m + 1)) 0, List.replicate (2 ^ (m + 1)) 0,
      2 ^ (m + 1), 0⟩ : HIdx) := HWF_replicate_zero ⟨m + 1, rfl⟩ h64b
  have hlens : h.vals.length = h.keys.length := by rw [W.klen, W.vlen]
  have hcountP : (h.keys.zip h.vals).countP (fun kv => decide (kv.1 ≠ 0)) = h.cnt := by
    rw [countP_zip_eq_occK h.vals hlens, W.klen]
    have hce : h.cnt = occK h.cap h.keys := W.cnteq
    omega
  have hres : pageIndexGrow h = (h.keys.zip h.vals).foldl
      (fun a kv => if kv.1 ≠ 0 then hReinsert a kv.1 kv.2 else a)
      ⟨List.replicate (2 ^ (m + 1)) 0, List.replicate (2 ^ (m + 1)) 0, 2 ^ (m + 1), 0⟩ := by
    simp only [pageIndexGrow, hinit]
  obtain ⟨hW, hcap, hcnt, hmem⟩ := growFold_spec (h.keys.zip h.vals) _ hW2
    (by
      intro kv _ _ pos _
      show (List.replicate (2 ^ (m + 1)) 0).getD pos 0 ≠ kv.1
      rw [getD_replicate_zero]
      omega)
    (pairwise_distinct_zip h.vals (by
      intro i j hij hj hi0
      intro heq
      have hij2 := W.dist i j (by rw [← W.klen]; omega) (by rw [← W.klen]; exact hj)
        hi0 heq
      omega))
    (by
      show 0 + _ < 2 ^ (m + 1)
      rw [hcountP]
      have := W.cntlt
      calc 0 + h.cnt = h.cnt := by omega
      _ < h.cap := this
      _ = 2 ^ m := hm
      _ < 2 ^ (m + 1) := by
          have : (2:Nat) ^ m > 0 := by positivity
          calc (2:Nat) ^ m < 2 ^ m + 2 ^ m := by omega
          _ = 2 ^ (m + 1) := by ring)
    _ hres
  have hmemz : ∀ k v, k ≠ 0 →
      ¬ hMem (⟨List.replicate (2 ^ (m + 1)) 0, List.replicate (2 ^ (m + 1)) 0,
        2 ^ (m + 1), 0⟩ : HIdx) k v := by
    rintro k v hk ⟨pos, _, hkey, _⟩
    rw [getD_replicate_zero] at hkey
    exact hk hkey.symm
  refine ⟨hW, ?_, ?_, ?_⟩
  · rw [hcap]
    show (2:Nat) ^ (m + 1) = 2 * h.cap
    rw [hm]
    ring
  · rw [hcnt, hcountP]
    show 0 + h.cnt = h.cnt
    omega
  · intro k v hk
    rw [hmem k v hk]
    constructor
    · rintro (habs | hmem2)
      · exact absurd habs (hmemz k v hk)
      · obtain ⟨i, hi1, hi2, hkey, hval⟩ := zip_mem_of hmem2
        exact ⟨i, by rw [← W.klen]; exact hi1, hkey, hval⟩
    · rintro ⟨pos, hpos, hkey, hval⟩
      refine Or.inr ?_
      have := zip_mem_intro (i := pos) (by rw [W.klen]; exact hpos)
        (by rw [W.vlen]; exact hpos)
      rw [hkey, hval] at this
      exact this

/-- The probe-and-store tail of `pageIndexInsert`, for a table with room:
preserves well-formedness; contents gain (or update) the binding for `base`. -/
theorem insert_scan_spec {g : HIdx} (W : HWF g) (base v : Nat) (hbase : base ≠ 0)
    (hroom : g.cnt + 1 < g.cap) :
    ∀ res : HIdx,
      res = (let mask := g.cap - 1
             let pos := hScanIns g.keys mask base g.cap (hash64 base &&& mask)
             let h3 := if g.keys.getD pos 0 = 0 then { g with cnt := g.cnt + 1 } else g
             { h3 with keys := h3.keys.set pos base, vals := h3.vals.set pos v }) →
      HWF res ∧ res.cap = g.cap ∧
      (∀ k' v', k' ≠ 0 → (hMem res k' v' ↔
        ((k' = base ∧ v' = v) ∨ (k' ≠ base ∧ hMem g k' v')))) := by
  have hc : 0 < g.cap := HWF_cap_pos W
  have hstart : hash64 base &&& (g.cap - 1) = hPos g.cap base 0 := by
    rw [and_mask_eq_mod W.pow]
    simp [hPos]
  intro res hres
  by_cases hin : ∃ q, q < g.cap ∧ g.keys.getD q 0 = base
  · -- base already present: value update at its slot
    obtain ⟨q, hq, hkq⟩ := hin
    have hkne : g.keys.getD q 0 ≠ 0 := by rw [hkq]; exact hbase
    obtain ⟨d, hd, hqd, hqq, hrun⟩ := stored_key_probe W hq hkne
    rw [hkq] at hqd hqq hrun
    have hscan : hScanIns g.keys (g.cap - 1) base g.cap (hash64 base &&& (g.cap - 1)) =
        hPos g.cap base d := by
      rw [hstart]
      exact hScanIns_spec W.pow g.keys base (Or.inr hqq) hrun g.cap 0 (by omega) (by omega)
    have hkeyd : g.keys.getD (hPos g.cap base d) 0 = base := hqq
    simp only [hscan] at hres
    rw [if_neg (by rw [hkeyd]; exact hbase)] at hres
    have hqlen : hPos g.cap base d < g.keys.length := by
      rw [W.klen]
      exact hPos_lt hc _ _
    have hsetself : g.keys.set (hPos g.cap base d) base = g.keys := by
      have := set_getD_self_nat hqlen
      rw [hkeyd] at this
      exact this
    rw [hsetself] at hres
    have hkeysres : res.keys = g.keys := by rw [hres]
    have hvalsres : res.vals = g.vals.set (hPos g.cap base d) v := by rw [hres]
    have hcapres : res.cap = g.cap := by rw [hres]
    have hcntres : res.cnt = g.cnt := by rw [hres]
    refine ⟨?_, hcapres, ?_⟩
    · refine ⟨?_, ?_, ?_, ?_, ?_, ?_, ?_, ?_⟩
      · rw [hkeysres, hcapres]; exact W.klen
      · rw [hvalsres, hcapres]; simpa using W.vlen
      · rw [hcapres]; exact W.pow
      · rw [hcapres]; exact W.cap64
      · show res.cnt = occK res.cap res.keys
        rw [hcntres, hcapres, hkeysres]
        exact W.cnteq
      · rw [hcntres, hcapres]; exact W.cntlt
      · rw [hkeysres, hcapres]; exact W.dist
      · rw [hkeysres, hcapres]; exact W.path
    · intro k' v' hk'
      constructor
      · rintro ⟨pos, hpos, hkey, hval⟩
        rw [hcapres] at hpos
        rw [hkeysres] at hkey
        rw [hvalsres] at hval
        by_cases hx : pos = hPos g.cap base d
        · subst hx
          rw [getD_set_eq (by rw [W.vlen]; exact hPos_lt hc _ _)] at hval
          rw [hkeyd] at hkey
          exact Or.inl ⟨hkey.symm, hval.symm⟩
        · rw [getD_set_ne (fun hy => hx hy.symm)] at hval
          refine Or.inr ⟨?_, pos, hpos, hkey, hval⟩
          intro hkb
          rw [hkb] at hkey
          have := W.dist pos (hPos g.cap base d) hpos (hPos_lt hc _ _)
            (by rw [hkey]; exact hbase) (by rw [hkey, hkeyd])
          exact hx this
      · rintro (⟨hk1, hv1⟩ | ⟨hkb, pos, hpos, hkey, hval⟩)
        · refine ⟨hPos g.cap base d, ?_, ?_, ?_⟩
          · rw [hcapres]; exact hPos_lt hc _ _
          · rw [hkeysres, hkeyd]; exact hk1.symm
          · rw [hvalsres, getD_set_eq (by rw [W.vlen]; exact hPos_lt hc _ _)]
            exact hv1.symm
        · refine ⟨pos, ?_, ?_, ?_⟩
          · rw [hcapres]; exact hpos
          · rw [hkeysres]; exact hkey
          · rw [hvalsres]
            have hx : pos ≠ hPos g.cap base d := by
              intro hy
              rw [hy, hkeyd] at hkey
              exact hkb hkey.symm
            rw [getD_set_ne (fun hy => hx hy.symm)]
            exact hval
  · -- base absent: fresh insert at the first empty slot of its probe path
    push_neg at hin
    have hocc : occK g.cap g.keys < g.cap := by
      have hce : g.cnt = occK g.cap g.keys := W.cnteq
      have := W.cntlt
      omega
    obtain ⟨d, hd, hstop, hrun0⟩ := exists_min_empty base hc (occK_exists_empty hocc)
    have hrun : ∀ j, j < d → g.keys.getD (hPos g.cap base j) 0 ≠ 0 ∧
        g.keys.getD (hPos g.cap base j) 0 ≠ base := by
      intro j hj
      refine ⟨hrun0 j hj, ?_⟩
      exact hin (hPos g.cap base j) (hPos_lt hc _ _)
    have hscan : hScanIns g.keys (g.cap - 1) base g.cap (hash64 base &&& (g.cap - 1)) =
        hPos g.cap base d := by
      rw [hstart]
      exact hScanIns_spec W.pow g.keys base (Or.inl hstop) hrun g.cap 0 (by omega) (by omega)
    simp only [hscan] at hres
    rw [if_pos hstop] at hres
    have hfresh : ∀ pos, pos < g.cap → g.keys.getD pos 0 ≠ base := hin
    have hres2 : res = { g with keys := g.keys.set (hPos g.cap base d) base,
                                 vals := g.vals.set (hPos g.cap base d) v,
                                 cnt := g.cnt + 1 } := hres
    refine ⟨?_, by rw [hres2], ?_⟩
    · rw [hres2]
      exact HWF_place W hbase hd hstop hrun0 hfresh hroom
    · intro k' v' hk'
      rw [hres2]
      rw [hMem_place W hd hstop k' v' hk']
      constructor
      · rintro (⟨hk1, hv1⟩ | hmem2)
        · exact Or.inl ⟨hk1, hv1⟩
        · refine Or.inr ⟨?_, hmem2⟩
          intro hkb
          obtain ⟨pos, hpos, hkey, _⟩ := hmem2
          rw [hkb] at hkey
          exact hfresh pos hpos hkey
      · rintro (⟨hk1, hv1⟩ | ⟨_, hmem2⟩)
        · exact Or.inl ⟨hk1, hv1⟩
        · exact Or.inr hmem2

/-- `pageIndexInsert` preserves well-formedness; contents gain (or update)
the binding for `base`, and the capacity does not shrink. -/
theorem pageIndexInsert_spec {h : HIdx} (W : HWF h) (base v : Nat) (hbase : base ≠ 0) :
    HWF (pageIndexInsert h base v) ∧
    (∀ k' v', k' ≠ 0 → (hMem (pageIndexInsert h base v) k' v' ↔
      ((k' = base ∧ v' = v) ∨ (k' ≠ base ∧ hMem h k' v')))) := by
  have hc64 := W.cap64
  have hc0 : ¬ h.cap = 0 := by omega
  by_cases hg : (h.cnt + 1) * 10 ≥ h.cap * 7
  · obtain ⟨hWg, hcapg, hcntg, hmemg⟩ := pageIndexGrow_spec W
    have hroomg : (pageIndexGrow h).cnt + 1 < (pageIndexGrow h).cap := by
      rw [hcapg, hcntg]
      have := W.cntlt
      omega
    have hres : pageIndexInsert h base v =
        (let mask := (pageIndexGrow h).cap - 1
         let pos := hScanIns (pageIndexGrow h).keys mask base (pageIndexGrow h).cap
           (hash64 base &&& mask)
         let h3 := if (pageIndexGrow h).keys.getD pos 0 = 0 then
           { (pageIndexGrow h) with cnt := (pageIndexGrow h).cnt + 1 } else pageIndexGrow h
         { h3 with keys := h3.keys.set pos base, vals := h3.vals.set pos v }) := by
      simp only [pageIndexInsert, if_neg hc0, if_pos hg]
    obtain ⟨hW, _, hmem⟩ := insert_scan_spec hWg base v hbase hroomg _ hres
    refine ⟨hW, ?_⟩
    intro k' v' hk'
    rw [hmem k' v' hk']
    constructor
    · rintro (hl | ⟨hne, hr⟩)
      · exact Or.inl hl
      · exact Or.inr ⟨hne, (hmemg k' v' hk').mp hr⟩
    · rintro (hl | ⟨hne, hr⟩)
      · exact Or.inl hl
      · exact Or.inr ⟨hne, (hmemg k' v' hk').mpr hr⟩
  · have hroom : h.cnt + 1 < h.cap := by
      have h7 : (h.cnt + 1) * 10 < h.cap * 7 := by omega
      nlinarith
    have hres : pageIndexInsert h base v =
        (let mask := h.cap - 1
         let pos := hScanIns h.keys mask base h.cap (hash64 base &&& mask)
         let h3 := if h.keys.getD pos 0 = 0 then { h with cnt := h.cnt + 1 } else h
         { h3 with keys := h3.keys.set pos base, vals := h3.vals.set pos v }) := by
      simp only [pageIndexInsert, if_neg hc0, if_neg hg]
    obtain ⟨hW, _, hmem⟩ := insert_scan_spec W base v hbase hroom _ hres
    exact ⟨hW, hmem⟩

theorem stepPos_lt {cap : Nat} (hc : 0 < cap) (p t : Nat) : stepPos cap p t < cap :=
  Nat.mod_lt _ hc

theorem stepPos_zero {cap p : Nat} (hp : p < cap) : stepPos cap p 0 = p := by
  simp only [stepPos, Nat.add_zero]
  exact Nat.mod_eq_of_lt hp

theorem stepPos_succ_mask {cap : Nat} (hpow : ∃ m, cap = 2 ^ m) (p t : Nat) :
    (stepPos cap p t + 1) &&& (cap - 1) = stepPos cap p (t + 1) := by
  rw [and_mask_eq_mod hpow]
  simp only [stepPos]
  rw [Nat.mod_add_mod, Nat.add_assoc]

theorem stepPos_add (cap p s t : Nat) :
    stepPos cap (stepPos cap p s) t = stepPos cap p (s + t) := by
  simp only [stepPos]
  rw [Nat.mod_add_mod, Nat.add_assoc]

theorem stepPos_inj {cap p : Nat} (hc : 0 < cap) {t t' : Nat}
    (ht : t < cap) (ht' : t' < cap) (h : stepPos cap p t = stepPos cap p t') : t = t' := by
  have hh : p % cap < cap := Nat.mod_lt _ hc
  simp only [stepPos] at h
  rw [← Nat.mod_add_mod, ← Nat.mod_add_mod p cap t'] at h
  generalize hA : p % cap = a at h hh
  have h1 : (a + t) % cap = if a + t < cap then a + t else a + t - cap :=
    mod_two_cases hc (by omega)
  have h2 : (a + t') % cap = if a + t' < cap then a + t' else a + t' - cap :=
    mod_two_cases hc (by omega)
  rw [h1, h2] at h
  split_ifs at h <;> omega

theorem stepPos_surj {cap p : Nat} (hc : 0 < cap) (pos : Nat) (hpos : pos < cap) :
    ∃ t, t < cap ∧ pos = stepPos cap p t := by
  have hh : p % cap < cap := Nat.mod_lt _ hc
  refine ⟨(cap + pos - p % cap) % cap, Nat.mod_lt _ hc, ?_⟩
  simp only [stepPos]
  rw [← Nat.mod_add_mod]
  generalize hA : p % cap = a at hh
  have hx : (cap + pos - a) % cap =
      if cap + pos - a < cap then cap + pos - a else cap + pos - a - cap :=
    mod_two_cases hc (by omega)
  rw [hx]
  split_ifs with hlt
  · rw [show a + (cap + pos - a) = cap + pos by omega,
      Nat.add_mod_left, Nat.mod_eq_of_lt hpos]
  · rw [show a + (cap + pos - a - cap) = pos by omega,
      Nat.mod_eq_of_lt hpos]

theorem hPos_stepPos (cap key j s : Nat) :
    hPos cap key (j + s) = stepPos cap (hPos cap key j) s := by
  simp only [hPos, stepPos]
  conv_rhs => rw [Nat.mod_add_mod]
  rw [Nat.add_assoc]

/-- A fully-occupied probe path cannot cross the empty slot at `eD` steps
past `P`: if a path position lands in the cyclic segment `[P, P+eD)`, the
path endpoint also lies in that segment, at a later offset. -/
theorem probe_path_in_seg {cap : Nat} (hc : 0 < cap) {keys0 : List Nat} {P eD : Nat}
    (hEempty : keys0.getD (stepPos cap P eD) 0 = 0)
    {key d pos : Nat} (hpd : pos = hPos cap key d)
    (hposocc : keys0.getD pos 0 ≠ 0)
    (hrun0 : ∀ j, j < d → keys0.getD (hPos cap key j) 0 ≠ 0) :
    ∀ j, j ≤ d → ∀ t, t < eD → hPos cap key j = stepPos cap P t →
      t + (d - j) < eD ∧ stepPos cap P (t + (d - j)) = pos := by
  intro j hj t ht hcol
  have hline : ∀ s, hPos cap key (j + s) = stepPos cap P (t + s) := by
    intro s
    rw [hPos_stepPos, hcol, stepPos_add]
  by_cases hcross : t + (d - j) < eD
  · refine ⟨hcross, ?_⟩
    have := hline (d - j)
    rw [show j + (d - j) = d by omega] at this
    rw [← this, ← hpd]
  · exfalso
    have hs0 : t + (eD - t) = eD := by omega
    have hEpos := hline (eD - t)
    rw [hs0] at hEpos
    by_cases hend : j + (eD - t) = d
    · rw [hend, ← hpd] at hEpos
      rw [hEpos] at hposocc
      exact hposocc hEempty
    · have hlt : j + (eD - t) < d := by omega
      have := hrun0 (j + (eD - t)) hlt
      rw [hEpos] at this
      exact this hEempty

theorem occK_pos {cap : Nat} {keys : List Nat} {r : Nat} (hr : r < cap)
    (hocc : keys.getD r 0 ≠ 0) : 1 ≤ occK cap keys := by
  have hmem : r ∈ (Finset.range cap).filter (fun p => keys.getD p 0 ≠ 0) :=
    Finset.mem_filter.mpr ⟨Finset.mem_range.mpr hr, hocc⟩
  have := Finset.card_pos.mpr ⟨r, hmem⟩
  unfold occK
  omega

theorem hShift_inv (h0 : HIdx) (W0 : HWF h0) (base P eD : Nat)
    (hP : P < h0.cap) (hbaseP : h0.keys.getD P 0 = base) (hbne : base ≠ 0)
    (heD : eD < h0.cap) (h1eD : 1 ≤ eD)
    (hEempty0 : h0.keys.getD (stepPos h0.cap P eD) 0 = 0)
    (hseg0 : ∀ t, 1 ≤ t → t < eD → h0.keys.getD (stepPos h0.cap P t) 0 ≠ 0) :
    ∀ fuel m h, 1 ≤ m → m ≤ eD → eD - m < fuel →
      ShiftInv h0 base P eD m h →
      ShiftInv h0 base P eD eD (hShift fuel h (stepPos h0.cap P m)) := by
  have hc : 0 < h0.cap := HWF_cap_pos W0
  intro fuel
  induction fuel with
  | zero =>
    intro m h _ _ hlt
    omega
  | succ f ih =>
    intro m h hm1 hmeD hfuel inv
    by_cases hmE : m = eD
    · subst hmE
      simp only [hShift]
      rw [if_neg (by rw [inv.eempty]; exact fun hne => hne rfl)]
      exact inv
    · have hmlt : m < eD := by omega
      have hseg_m := inv.seg m (le_refl m) hmlt
      have hκ0 : h0.keys.getD (stepPos h0.cap P m) 0 ≠ 0 := hseg0 m hm1 hmlt
      have hκh : h.keys.getD (stepPos h0.cap P m) 0 ≠ 0 := by
        rw [hseg_m.1]
        exact hκ0
      have hr_lt : stepPos h0.cap P m < h0.cap := stepPos_lt hc _ _
      simp only [hShift]
      rw [if_pos hκh]
      set r := stepPos h0.cap P m with hrdef
      set κ := h.keys.getD r 0 with hκdef
      set vκ := h.vals.getD r 0 with hvκdef
      have hrklen : r < h.keys.length := by rw [inv.klen]; exact hr_lt
      have hrvlen : r < h.vals.length := by rw [inv.vlen]; exact hr_lt
      have h1r0 : (h.keys.set r 0).getD r 0 = 0 := getD_set_eq hrklen
      have hocc1 : occK h0.cap (h.keys.set r 0) = h.cnt - 1 := by
        rw [occK_set_clear hr_lt inv.klen hκh, ← inv.cnte]
      have hcntpos : 1 ≤ h.cnt := by
        rw [inv.cnte]
        exact occK_pos hr_lt hκh
      have hocc1lt : occK h0.cap (h.keys.set r 0) < h0.cap := by
        have h1 := inv.cnt1
        have h2 := W0.cntlt
        omega
      have hκeq : κ = h0.keys.getD r 0 := hseg_m.1
      obtain ⟨dr, hdr, hrpd, hrun0⟩ := W0.path r hr_lt (by rw [← hκeq]; exact hκh)
      rw [← hκeq] at hrpd hrun0
      obtain ⟨tl, htl, hstop1, hrun1⟩ :=
        exists_min_empty κ hc (occK_exists_empty hocc1lt)
      have htldr : tl ≤ dr := by
        by_contra hgt
        have := hrun1 dr (by omega)
        rw [← hrpd] at this
        exact this h1r0
      set T := hPos h0.cap κ tl with hTdef
      have hT_lt : T < h0.cap := hPos_lt hc _ _
      have hstart : hash64 κ &&& (h0.cap - 1) = hPos h0.cap κ 0 := by
        rw [and_mask_eq_mod W0.pow]
        simp [hPos]
      have hscan : hScanFree (h.keys.set r 0) (h.cap - 1) h.cap
          (hash64 κ &&& (h.cap - 1)) = T := by
        rw [inv.hcap, hstart]
        exact hScanFree_spec W0.pow (h.keys.set r 0) κ hstop1 hrun1 h0.cap 0
          (by omega) (by omega)
      have hAv := probe_path_in_seg hc hEempty0 hrpd hκ0 hrun0
      have avoidK : ∀ j, j ≤ dr → ∀ t, m + 1 ≤ t → t < eD →
          hPos h0.cap κ j ≠ stepPos h0.cap P t := by
        intro j hj t ht1 ht2 hcol
        obtain ⟨hlt2, hstep⟩ := hAv j hj t ht2 hcol
        rw [hrdef] at hstep
        have := stepPos_inj hc (by omega : t + (dr - j) < h0.cap)
          (by omega : m < h0.cap) hstep
        omega
      have hTr : tl = dr → T = r := by
        intro hteq
        rw [hTdef, hteq, ← hrpd]
      have hTnotE : T ≠ stepPos h0.cap P eD := by
        by_cases hteq : tl = dr
        · rw [hTr hteq, hrdef]
          intro hcol
          have := stepPos_inj hc (by omega : m < h0.cap) (by omega : eD < h0.cap) hcol
          omega
        · intro hcol
          have := hrun0 tl (by omega)
          rw [← hTdef, hcol] at this
          exact this hEempty0
      have hrnotE : r ≠ stepPos h0.cap P eD := by
        rw [hrdef]
        intro hcol
        have := stepPos_inj hc (by omega : m < h0.cap) (by omega : eD < h0.cap) hcol
        omega
      have hTnotSeg : ∀ t, m + 1 ≤ t → t < eD → T ≠ stepPos h0.cap P t :=
        fun t ht1 ht2 => avoidK tl htldr t ht1 ht2
      have hTklen1 : T < (h.keys.set r 0).length := by
        rw [List.length_set, inv.klen]
        exact hT_lt
      have hTvlen1 : T < (h.vals.set r 0).length := by
        rw [List.length_set, inv.vlen]
        exact hT_lt
      set h2 : HIdx := { h with keys := (h.keys.set r 0).set T κ,
                                vals := (h.vals.set r 0).set T vκ,
                                cnt := h.cnt - 1 + 1 } with h2def
      have h2keys : h2.keys = (h.keys.set r 0).set T κ := rfl
      have h2vals : h2.vals = (h.vals.set r 0).set T vκ := rfl
      have h2cap : h2.cap = h0.cap := inv.hcap
      have h2cnt : h2.cnt = h.cnt := by
        show h.cnt - 1 + 1 = h.cnt
        omega
      have h2T : h2.keys.getD T 0 = κ := getD_set_eq hTklen1
      have h2Tv : h2.vals.getD T 0 = vκ := getD_set_eq hTvlen1
      have h2other : ∀ pos, pos ≠ T → pos ≠ r →
          h2.keys.getD pos 0 = h.keys.getD pos 0 := by
        intro pos hpT hpr
        rw [h2keys, getD_set_ne (fun hy => hpT hy.symm),
          getD_set_ne (fun hy => hpr hy.symm)]
      have h2otherv : ∀ pos, pos ≠ T → pos ≠ r →
          h2.vals.getD pos 0 = h.vals.getD pos 0 := by
        intro pos hpT hpr
        rw [h2vals, getD_set_ne (fun hy => hpT hy.symm),
          getD_set_ne (fun hy => hpr hy.symm)]
      have h2r : r ≠ T → h2.keys.getD r 0 = 0 := by
        intro hrT
        rw [h2keys, getD_set_ne (fun hy => hrT hy.symm)]
        exact h1r0
      have inv2 : ShiftInv h0 base P eD (m + 1) h2 := by
        refine ⟨h2cap, ?_, ?_, ?_, ?_, ?_, ?_, ?_, ?_, ?_⟩
        · rw [h2keys, List.length_set, List.length_set]
          exact inv.klen
        · rw [h2vals, List.length_set, List.length_set]
          exact inv.vlen
        · rw [h2cnt]
          exact inv.cnt1
        · rw [h2cnt, h2keys,
            occK_set_fresh hT_lt (by rw [List.length_set]; exact inv.klen) hstop1 hκh,
            hocc1]
          omega
        · intro t ht1 ht2
          have hperp : stepPos h0.cap P t ≠ T := fun hy => hTnotSeg t ht1 ht2 hy.symm
          have hperpr : stepPos h0.cap P t ≠ r := by
            rw [hrdef]
            intro hcol
            have := stepPos_inj hc (by omega : t < h0.cap) (by omega : m < h0.cap) hcol
            omega
          rw [h2other _ hperp hperpr, h2otherv _ hperp hperpr]
          exact inv.seg t (by omega) ht2
        · have hEperp : stepPos h0.cap P eD ≠ T := fun hy => hTnotE hy.symm
          have hEperpr : stepPos h0.cap P eD ≠ r := fun hy => hrnotE hy.symm
          rw [h2other _ hEperp hEperpr]
          exact inv.eempty
        · intro pos hpos havoid hocc
          by_cases hposT : pos = T
          · subst hposT
            rw [h2T]
            refine ⟨tl, by omega, hTdef, ?_⟩
            intro j hj
            have hjne : hPos h0.cap κ j ≠ T := by
              rw [hTdef]
              intro hy
              have := hPos_inj hc (by omega : j < h0.cap) (by omega : tl < h0.cap) hy
              omega
            constructor
            · rw [h2keys, getD_set_ne (fun hy => hjne hy.symm)]
              exact hrun1 j hj
            · exact fun t ht1 ht2 => avoidK j (by omega) t ht1 ht2
          · have hposr : pos ≠ r := by
              intro hy
              subst hy
              rw [h2r hposT] at hocc
              exact hocc rfl
            rw [h2other pos hposT hposr] at hocc ⊢
            have havoid0 : ∀ t, m ≤ t → t < eD → pos ≠ stepPos h0.cap P t := by
              intro t ht1 ht2
              rcases Nat.eq_or_lt_of_le ht1 with hteq | htlt
              · rw [← hteq, ← hrdef]
                exact hposr
              · exact havoid t htlt ht2
            obtain ⟨d, hd, hpd, hrun⟩ := inv.path pos hpos havoid0 hocc
            refine ⟨d, hd, hpd, ?_⟩
            intro j hj
            obtain ⟨hjocc, hjav⟩ := hrun j hj
            have hjr : hPos h0.cap (h.keys.getD pos 0) j ≠ r := by
              rw [hrdef]
              exact hjav m (le_refl m) hmlt
            constructor
            · by_cases hjT : hPos h0.cap (h.keys.getD pos 0) j = T
              · rw [hjT, h2T]
                exact hκh
              · rw [h2other _ hjT hjr]
                exact hjocc
            · exact fun t ht1 ht2 => hjav t (by omega) ht2
        · intro p1 p2 hp1 hp2 hne heq
          by_cases hx1 : p1 = T <;> by_cases hx2 : p2 = T
          · rw [hx1, hx2]
          · exfalso
            rw [hx1, h2T] at heq
            by_cases hp2r : p2 = r
            · subst hp2r
              rw [h2r (fun hz => hx2 hz)] at heq
              exact hκh heq
            · rw [h2other p2 hx2 hp2r] at heq
              have hp2ne : h.keys.getD p2 0 ≠ 0 := by
                rw [← heq]
                exact hκh
              have := inv.dist p2 r hp2 hr_lt hp2ne (heq.symm.trans hκdef)
              exact hp2r this
          · exfalso
            rw [hx2, h2T] at heq
            by_cases hp1r : p1 = r
            · subst hp1r
              rw [h2r (fun hz => hx1 hz)] at hne
              exact hne rfl
            · rw [h2other p1 hx1 hp1r] at heq hne
              have := inv.dist p1 r hp1 hr_lt hne (heq.trans hκdef)
              exact hp1r this
          · have hp1r : p1 ≠ r := by
              intro hy
              subst hy
              rw [h2r hx1] at hne
              exact hne rfl
            have hp2r : p2 ≠ r := by
              intro hy
              subst hy
              rw [h2other p1 hx1 hp1r] at hne heq
              rw [h2r hx2] at heq
              exact hne heq
            rw [h2other p1 hx1 hp1r] at hne heq
            rw [h2other p2 hx2 hp2r] at heq
            exact inv.dist p1 p2 hp1 hp2 hne heq
        · intro k v hk
          constructor
          · rintro ⟨pos, hpos, hkey, hval⟩
            by_cases hposT : pos = T
            · subst hposT
              rw [h2T] at hkey
              rw [h2Tv] at hval
              refine (inv.mem k v hk).mp ⟨r, hr_lt, ?_, ?_⟩
              · rw [← hkey, hκdef]
              · rw [← hval, hvκdef]
            · have hposr : pos ≠ r := by
                intro hy
                subst hy
                rw [h2r hposT] at hkey
                exact hk hkey.symm
              rw [h2other pos hposT hposr] at hkey
              rw [h2otherv pos hposT hposr] at hval
              exact (inv.mem k v hk).mp ⟨pos, hpos, hkey, hval⟩
          · intro hrhs
            obtain ⟨pos, hpos, hkey, hval⟩ := (inv.mem k v hk).mpr hrhs
            by_cases hposr : pos = r
            · subst hposr
              refine ⟨T, hT_lt, ?_, ?_⟩
              · rw [h2T, hκdef, hkey]
              · rw [h2Tv, hvκdef, hval]
            · have hposT : pos ≠ T := by
                intro hy
                have hne0 : (h.keys.set r 0).getD pos 0 ≠ 0 := by
                  rw [getD_set_ne (fun hy2 => hposr hy2.symm), hkey]
                  exact hk
                rw [hy] at hne0
                exact hne0 hstop1
              refine ⟨pos, hpos, ?_, ?_⟩
              · rw [h2other pos hposT hposr]
                exact hkey
              · rw [h2otherv pos hposT hposr]
                exact hval
      have hnext : (r + 1) &&& (h.cap - 1) = stepPos h0.cap P (m + 1) := by
        rw [inv.hcap, hrdef]
        exact stepPos_succ_mask W0.pow P m
      rw [hscan, hnext]
      exact ih (m + 1) h2 (by omega) (by omega) (by omega) inv2

theorem hRemoveFind_step {h : HIdx} {base : Nat} {dP : Nat}
    (hpow : ∃ m, h.cap = 2 ^ m)
    (hfound : h.keys.getD (hPos h.cap base dP) 0 = base) (hbase : base ≠ 0)
    (hrun : ∀ j, j < dP → h.keys.getD (hPos h.cap base j) 0 ≠ 0 ∧
      h.keys.getD (hPos h.cap base j) 0 ≠ base) :
    ∀ fuel t, t ≤ dP → dP - t < fuel →
      hRemoveFind fuel h base (hPos h.cap base t) =
        (hShift h.cap
          { h with keys := h.keys.set (hPos h.cap base dP) 0,
                   vals := h.vals.set (hPos h.cap base dP) 0,
                   cnt := h.cnt - 1 }
          ((hPos h.cap base dP + 1) &&& (h.cap - 1)), true) := by
  intro fuel
  induction fuel with
  | zero => intro t _ hlt; omega
  | succ f ih =>
    intro t ht hf
    simp only [hRemoveFind]
    by_cases htd : t = dP
    · subst htd
      rw [if_pos (by rw [hfound]; exact hbase), if_pos hfound]
    · have htlt : t < dP := by omega
      rw [if_pos (hrun t htlt).1, if_neg (hrun t htlt).2, hPos_step hpow]
      exact ih (t + 1) (by omega) (by omega)

theorem hRemoveFind_absent {h : HIdx} {base : Nat} {d : Nat}
    (hpow : ∃ m, h.cap = 2 ^ m)
    (hempty : h.keys.getD (hPos h.cap base d) 0 = 0)
    (hrun : ∀ j, j < d → h.keys.getD (hPos h.cap base j) 0 ≠ 0 ∧
      h.keys.getD (hPos h.cap base j) 0 ≠ base) :
    ∀ fuel t, t ≤ d → d - t < fuel →
      hRemoveFind fuel h base (hPos h.cap base t) = (h, false) := by
  intro fuel
  induction fuel with
  | zero => intro t _ hlt; omega
  | succ f ih =>
    intro t ht hf
    simp only [hRemoveFind]
    by_cases htd : t = d
    · subst htd
      rw [if_neg (by rw [hempty]; exact fun hne => hne rfl)]
    · have htlt : t < d := by omega
      rw [if_pos (hrun t htlt).1, if_neg (hrun t htlt).2, hPos_step hpow]
      exact ih (t + 1) (by omega) (by omega)

/-- `pageIndexRemove` preserves well-formedness and removes exactly the
binding of `base`; the flag is true iff `base` was stored. -/
theorem pageIndexRemove_spec {h : HIdx} (W : HWF h) (base : Nat) :
    HWF (pageIndexRemove h base).1 ∧
    (pageIndexRemove h base).1.cap = h.cap ∧
    (∀ k v, k ≠ 0 → (hMem (pageIndexRemove h base).1 k v ↔
      (k ≠ base ∧ hMem h k v))) ∧
    ((pageIndexRemove h base).2 = true ↔
      (base ≠ 0 ∧ ∃ q, q < h.cap ∧ h.keys.getD q 0 = base)) := by
  have hc : 0 < h.cap := HWF_cap_pos W
  have hc0 : ¬ h.cap = 0 := by omega
  have hstart : hash64 base &&& (h.cap - 1) = hPos h.cap base 0 := by
    rw [and_mask_eq_mod W.pow]
    simp [hPos]
  have hocc : occK h.cap h.keys < h.cap := by
    have hce : h.cnt = occK h.cap h.keys := W.cnteq
    have := W.cntlt
    omega
  by_cases hb0 : base = 0
  · -- removing key 0: the guard `keys[pos] != 0` stops at the first empty slot
    subst hb0
    obtain ⟨d, hd, hstop, hrun0⟩ := exists_min_empty 0 hc (occK_exists_empty hocc)
    have hrun : ∀ j, j < d → h.keys.getD (hPos h.cap 0 j) 0 ≠ 0 ∧
        h.keys.getD (hPos h.cap 0 j) 0 ≠ 0 := by
      intro j hj
      exact ⟨hrun0 j hj, hrun0 j hj⟩
    have hres : pageIndexRemove h 0 = (h, false) := by
      unfold pageIndexRemove
      rw [if_neg hc0, hstart]
      exact hRemoveFind_absent W.pow hstop hrun h.cap 0 (by omega) (by omega)
    rw [hres]
    refine ⟨W, rfl, ?_, ?_⟩
    · intro k v hk
      exact ⟨fun hmem => ⟨hk, hmem⟩, fun hmem => hmem.2⟩
    · constructor
      · intro hfalse
        exact absurd hfalse (by simp)
      · rintro ⟨hne, _⟩
        exact absurd rfl hne
  · by_cases hin : ∃ q, q < h.cap ∧ h.keys.getD q 0 = base
    · -- base present: locate, clear, back-shift
      obtain ⟨q, hq, hkq⟩ := hin
      have hbase : base ≠ 0 := hb0
      have hkne : h.keys.getD q 0 ≠ 0 := by rw [hkq]; exact hbase
      obtain ⟨dP, hdP, hqd, hqq, hrunP⟩ := stored_key_probe W hq hkne
      rw [hkq] at hqd hqq hrunP
      set P := hPos h.cap base dP with hPdef
      have hPlt : P < h.cap := hPos_lt hc _ _
      have hkeyP : h.keys.getD P 0 = base := hqq
      have hPklen : P < h.keys.length := by rw [W.klen]; exact hPlt
      have hPvlen : P < h.vals.length := by rw [W.vlen]; exact hPlt
      set hcl : HIdx := { h with keys := h.keys.set P 0, vals := h.vals.set P 0,
                                 cnt := h.cnt - 1 } with hcldef
      have hclkeys : hcl.keys = h.keys.set P 0 := rfl
      have hclvals : hcl.vals = h.vals.set P 0 := rfl
      -- the first empty offset past P
      have hexE : ∃ t, h.keys.getD (stepPos h.cap P (t + 1)) 0 = 0 := by
        obtain ⟨e, he, hke⟩ := occK_exists_empty hocc
        obtain ⟨s, hs, hse⟩ := stepPos_surj (p := P) hc e he
        have hs0 : s ≠ 0 := by
          intro hz
          rw [hz, stepPos_zero hPlt] at hse
          rw [← hse] at hkeyP
          rw [hkeyP] at hke
          exact hbase hke
        refine ⟨s - 1, ?_⟩
        rw [show s - 1 + 1 = s by omega, ← hse]
        exact hke
      classical
      set eD := Nat.find hexE + 1 with heDdef
      have hEempty0 : h.keys.getD (stepPos h.cap P eD) 0 = 0 := Nat.find_spec hexE
      have h1eD : 1 ≤ eD := by omega
      have heD : eD < h.cap := by
        obtain ⟨e, he, hke⟩ := occK_exists_empty hocc
        obtain ⟨s, hs, hse⟩ := stepPos_surj (p := P) hc e he
        have hs0 : s ≠ 0 := by
          intro hz
          rw [hz, stepPos_zero hPlt] at hse
          rw [← hse] at hkeyP
          rw [hkeyP] at hke
          exact hbase hke
        have hfind : Nat.find hexE ≤ s - 1 :=
          Nat.find_min' hexE (by rw [show s - 1 + 1 = s by omega, ← hse]; exact hke)
        omega
      have hseg0 : ∀ t, 1 ≤ t → t < eD → h.keys.getD (stepPos h.cap P t) 0 ≠ 0 := by
        intro t ht1 ht2
        have hmin := Nat.find_min hexE (m := t - 1) (by omega)
        rw [show t - 1 + 1 = t by omega] at hmin
        exact hmin
      -- the removal result
      have hres : pageIndexRemove h base =
          (hShift h.cap hcl ((P + 1) &&& (h.cap - 1)), true) := by
        unfold pageIndexRemove
        rw [if_neg hc0, hstart]
        exact hRemoveFind_step W.pow hkeyP hbase hrunP h.cap 0 (by omega) (by omega)
      have hcnt1 : 1 ≤ h.cnt := by
        have hce : h.cnt = occK h.cap h.keys := W.cnteq
        have := occK_pos hPlt (by rw [hkeyP]; exact hbase)
        omega
      have hPne : ∀ t, 1 ≤ t → t < h.cap → stepPos h.cap P t ≠ P := by
        intro t ht1 ht2 hcol
        have hcol2 : stepPos h.cap P t = stepPos h.cap P 0 := by
          rw [stepPos_zero hPlt]
          exact hcol
        have := stepPos_inj hc ht2 (by omega : 0 < h.cap) hcol2
        omega
      -- the invariant at the start of the walk
      have hinv1 : ShiftInv h base P eD 1 hcl := by
        refine ⟨rfl, ?_, ?_, ?_, ?_, ?_, ?_, ?_, ?_, ?_⟩
        · rw [hclkeys, List.length_set]; exact W.klen
        · rw [hclvals, List.length_set]; exact W.vlen
        · show h.cnt - 1 + 1 = h.cnt
          omega
        · show h.cnt - 1 = occK h.cap hcl.keys
          rw [hclkeys, occK_set_clear hPlt W.klen (by rw [hkeyP]; exact hbase)]
          have hce : h.cnt = occK h.cap h.keys := W.cnteq
          omega
        · intro t ht1 ht2
          have hne : stepPos h.cap P t ≠ P := hPne t ht1 (by omega)
          rw [hclkeys, hclvals, getD_set_ne (fun hy => hne hy.symm),
            getD_set_ne (fun hy => hne hy.symm)]
          exact ⟨rfl, rfl⟩
        · rw [hclkeys, getD_set_ne (fun hy => (hPne eD h1eD heD) hy.symm)]
          exact hEempty0
        · intro pos hpos havoid hoccp
          rw [hclkeys] at hoccp ⊢
          have hposP : pos ≠ P := by
            intro hy
            subst hy
            rw [getD_set_eq hPklen] at hoccp
            exact hoccp rfl
          rw [getD_set_ne (fun hy => hposP hy.symm)] at hoccp ⊢
          obtain ⟨d, hd, hpd, hrun⟩ := W.path pos hpos hoccp
          have hAv := probe_path_in_seg hc hEempty0 hpd hoccp hrun
          refine ⟨d, hd, hpd, ?_⟩
          intro j hj
          have hnotseg : ∀ t, t < eD →
              hPos h.cap (h.keys.getD pos 0) j ≠ stepPos h.cap P t := by
            intro t ht2 hcol
            obtain ⟨hlt2, hstep⟩ := hAv j (by omega) t ht2 hcol
            exact havoid (t + (d - j)) (by omega) hlt2 hstep.symm
          constructor
          · have hjP : hPos h.cap (h.keys.getD pos 0) j ≠ P := by
              rw [show P = stepPos h.cap P 0 from (stepPos_zero hPlt).symm]
              exact hnotseg 0 (by omega)
            rw [getD_set_ne (fun hy => hjP hy.symm)]
            exact hrun j hj
          · exact fun t ht1 ht2 => hnotseg t ht2
        · intro p1 p2 hp1 hp2 hne heq
          rw [hclkeys] at hne heq
          have hne1 : p1 ≠ P := by
            intro hy
            subst hy
            rw [getD_set_eq hPklen] at hne
            exact hne rfl
          rw [getD_set_ne (fun hy => hne1 hy.symm)] at hne heq
          by_cases hne2 : p2 = P
          · exfalso
            subst hne2
            rw [getD_set_eq hPklen] at heq
            exact hne heq
          · rw [getD_set_ne (fun hy => hne2 hy.symm)] at heq
            exact W.dist p1 p2 hp1 hp2 hne heq
        · intro k v hk
          constructor
          · rintro ⟨pos, hpos, hkey, hval⟩
            rw [hclkeys] at hkey
            rw [hclvals] at hval
            have hposP : pos ≠ P := by
              intro hy
              subst hy
              rw [getD_set_eq hPklen] at hkey
              exact hk hkey.symm
            rw [getD_set_ne (fun hy => hposP hy.symm)] at hkey
            rw [getD_set_ne (fun hy => hposP hy.symm)] at hval
            refine ⟨?_, pos, hpos, hkey, hval⟩
            intro hkb
            rw [hkb] at hkey
            have := W.dist pos P hpos hPlt (by rw [hkey]; exact hbase)
              (by rw [hkey, hkeyP])
            exact hposP this
          · rintro ⟨hkb, pos, hpos, hkey, hval⟩
            have hposP : pos ≠ P := by
              intro hy
              subst hy
              rw [hkeyP] at hkey
              exact hkb hkey.symm
            refine ⟨pos, hpos, ?_, ?_⟩
            · rw [hclkeys, getD_set_ne (fun hy => hposP hy.symm)]
              exact hkey
            · rw [hclvals, getD_set_ne (fun hy => hposP hy.symm)]
              exact hval
      -- run the walk
      have hnext1 : (P + 1) &&& (h.cap - 1) = stepPos h.cap P 1 := by
        rw [show P + 1 = stepPos h.cap P 0 + 1 from by rw [stepPos_zero hPlt]]
        exact stepPos_succ_mask W.pow P 0
      have hSI := hShift_inv h W base P eD hPlt hkeyP hbase heD h1eD hEempty0 hseg0
        h.cap 1 hcl (le_refl 1) h1eD (by omega) hinv1
      rw [hnext1] at hres
      rw [hres]
      have hficap : (hShift h.cap hcl (stepPos h.cap P 1)).cap = h.cap := hSI.hcap
      refine ⟨?_, hficap, ?_, ?_⟩
      · refine ⟨?_, ?_, ?_, ?_, ?_, ?_, ?_, ?_⟩
        · rw [hficap]; exact hSI.klen
        · rw [hficap]; exact hSI.vlen
        · rw [hficap]; exact W.pow
        · rw [hficap]; exact W.cap64
        · show _ = occK _ _
          rw [hficap]
          exact hSI.cnte
        · show (hShift h.cap hcl (stepPos h.cap P 1)).cnt < _
          rw [hficap]
          have h1 := hSI.cnt1
          have h2 : h.cnt < h.cap := W.cntlt
          omega
        · intro p1 p2 hp1 hp2
          rw [hficap] at hp1 hp2
          exact hSI.dist p1 p2 hp1 hp2
        · intro pos hpos hocc2
          rw [hficap] at hpos ⊢
          obtain ⟨d, hd, hpd, hrun⟩ := hSI.path pos hpos
            (fun t ht1 ht2 => absurd (Nat.lt_of_le_of_lt ht1 ht2) (lt_irrefl eD)) hocc2
          exact ⟨d, hd, hpd, fun j hj => (hrun j hj).1⟩
      · intro k v hk
        unfold hMem
        rw [hficap]
        exact hSI.mem k v hk
      · constructor
        · intro _
          exact ⟨hbase, q, hq, hkq⟩
        · intro _
          rfl
    · -- base absent: the probe hits an empty slot and nothing changes
      push_neg at hin
      obtain ⟨d, hd, hstop, hrun0⟩ := exists_min_empty base hc (occK_exists_empty hocc)
      have hrun : ∀ j, j < d → h.keys.getD (hPos h.cap base j) 0 ≠ 0 ∧
          h.keys.getD (hPos h.cap base j) 0 ≠ base := by
        intro j hj
        exact ⟨hrun0 j hj, hin (hPos h.cap base j) (hPos_lt hc _ _)⟩
      have hres : pageIndexRemove h base = (h, false) := by
        unfold pageIndexRemove
        rw [if_neg hc0, hstart]
        exact hRemoveFind_absent W.pow hstop hrun h.cap 0 (by omega) (by omega)
      rw [hres]
      refine ⟨W, rfl, ?_, ?_⟩
      · intro k v hk
        constructor
        · intro hmem
          refine ⟨?_, hmem⟩
          intro hkb
          obtain ⟨pos, hpos, hkey, _⟩ := hmem
          rw [hkb] at hkey
          exact hin pos hpos hkey
        · exact fun hmem => hmem.2
      · constructor
        · intro hfalse
          exact absurd hfalse (by simp)
        · rintro ⟨_, q, hq, hkq⟩
          exact absurd hkq (hin q hq)

-- ================================
-- Interior-pointer lookup correctness (C7)
-- ================================

theorem alignDown_block {k p : Nat} (hal : k % BUFF_SIZE = 0) (h1 : k ≤ p)
    (h2 : p < k + BUFF_SIZE) : alignDown p BUFF_SIZE = k := by
  simp only [alignDown, BUFF_SIZE] at *
  omega

/-- A stored block is found by `pageIndexFindByAddr` from any interior
address that masks down to it. -/
theorem pageIndexFindByAddr_mem {h : HIdx} (W : HWF h) {k v p : Nat}
    (hal : alignDown p BUFF_SIZE = k) (hk0 : k ≠ 0) (hm : hMem h k v) :
    pageIndexFindByAddr h p = some v := by
  have hc : 0 < h.cap := HWF_cap_pos W
  obtain ⟨q, hq, hkq, hvq⟩ := hm
  have hkne : h.keys.getD q 0 ≠ 0 := by rw [hkq]; exact hk0
  obtain ⟨d, hd, hqd, hfound, hrun⟩ := stored_key_probe W hq hkne
  rw [hkq] at hqd hfound hrun
  have hstep : pageIndexFindByAddr h p =
      hLookup h.keys h.vals (h.cap - 1) k h.cap (hash64 k &&& (h.cap - 1)) := by
    show (if h.cap = 0 then none
      else hLookup h.keys h.vals (h.cap - 1) (alignDown p BUFF_SIZE) h.cap
        (hash64 (alignDown p BUFF_SIZE) &&& (h.cap - 1))) = _
    rw [hal, if_neg (by omega)]
  have hstart : hash64 k &&& (h.cap - 1) = hPos h.cap k 0 := by
    rw [and_mask_eq_mod W.pow]
    simp [hPos]
  have hlk := hLookup_found W.pow h.keys h.vals k hfound hk0 hrun h.cap 0
    (Nat.zero_le d) (by omega)
  have hv2 : h.vals.getD (hPos h.cap k d) 0 = v := by rw [← hqd]; exact hvq
  rw [hstep, hstart, hlk, hv2]

theorem modelOps_legal (ops : List HOp) :
    ∀ (m : List (Nat × Nat)), (∀ op ∈ ops, legalHOp op = true) →
    (∀ kv ∈ m, kv.1 ≠ 0 ∧ kv.1 % BUFF_SIZE = 0) →
    ∀ kv ∈ modelOps m ops, kv.1 ≠ 0 ∧ kv.1 % BUFF_SIZE = 0 := by
  induction ops with
  | nil => intro m _ hm kv hkv; exact hm kv hkv
  | cons op ops ih =>
    intro m hleg hm kv hkv
    have hlegs : ∀ o ∈ ops, legalHOp o = true :=
      fun o ho => hleg o (List.mem_cons_of_mem op ho)
    have hstep : ∀ kv2 ∈ modelOp m op, kv2.1 ≠ 0 ∧ kv2.1 % BUFF_SIZE = 0 := by
      cases op with
      | ins b v =>
        have hlo := hleg _ (List.mem_cons_self _ _)
        simp only [legalHOp, Bool.and_eq_true, decide_eq_true_eq] at hlo
        intro kv2 hkv2
        simp only [modelOp, List.mem_cons, List.mem_filter] at hkv2
        rcases hkv2 with h | h
        · rw [h]; exact hlo
        · exact hm kv2 h.1
      | rem b =>
        intro kv2 hkv2
        simp only [modelOp, List.mem_filter] at hkv2
        exact hm kv2 hkv2.1
    exact ih (modelOp m op) hlegs hstep kv hkv

/-- Applying any legal op sequence preserves well-formedness and the
association-list model tracks the stored contents exactly. -/
theorem applyHOps_spec (ops : List HOp) :
    ∀ (h : HIdx) (m : List (Nat × Nat)), (∀ op ∈ ops, legalHOp op = true) →
    HWF h → (∀ k v, k ≠ 0 → (hMem h k v ↔ (k, v) ∈ m)) →
    HWF (applyHOps h ops) ∧
    (∀ k v, k ≠ 0 → (hMem (applyHOps h ops) k v ↔ (k, v) ∈ modelOps m ops)) := by
  induction ops with
  | nil =>
    intro h m _ W hcorr
    exact ⟨W, hcorr⟩
  | cons op ops ih =>
    intro h m hleg W hcorr
    have hlegs : ∀ o ∈ ops, legalHOp o = true :=
      fun o ho => hleg o (List.mem_cons_of_mem op ho)
    cases op with
    | ins b v =>
      have hlo := hleg _ (List.mem_cons_self _ _)
      simp only [legalHOp, Bool.and_eq_true, decide_eq_true_eq] at hlo
      obtain ⟨W2, hmem2⟩ := pageIndexInsert_spec W b v hlo.1
      refine ih (pageIndexInsert h b v) (modelOp m (HOp.ins b v)) hlegs W2 ?_
      intro k v' hk
      rw [hmem2 k v' hk, hcorr k v' hk]
      simp only [modelOp, List.mem_cons, List.mem_filter, decide_eq_true_eq,
        Prod.mk.injEq]
      tauto
    | rem b =>
      obtain ⟨W2, -, hmem2, -⟩ := pageIndexRemove_spec W b
      refine ih (pageIndexRemove h b).1 (modelOp m (HOp.rem b)) hlegs W2 ?_
      intro k v' hk
      rw [hmem2 k v' hk, hcorr k v' hk]
      simp only [modelOp, List.mem_filter, decide_eq_true_eq]
      tauto

theorem hMem_init_nil {c k v : Nat} (hk : k ≠ 0) : ¬ hMem (pageIndexInit c) k v := by
  rintro ⟨pos, hpos, hkey, -⟩
  have hz : (pageIndexInit c).keys.getD pos 0 = 0 := getD_replicate_zero _ pos
  exact hk (hkey.symm.trans hz)

theorem HWF_init128 : HWF (pageIndexInit 128) := by
  have he : pageIndexInit 128 = ⟨List.replicate 128 0, List.replicate 128 0, 128, 0⟩ := rfl
  rw [he]
  exact HWF_replicate_zero ⟨7, rfl⟩ (by omega)

/-- C7: starting from the page index as initialised by `gcInit`
(`pageIndexInit 128`) and applying any sequence of page-index insertions
(with the occupancy-triggered capacity growth inside them) and
back-shifting removals, for every live page — a block address `b` inserted
with page identity `v` and not removed since, as recorded by the
association-list model — and every address `p` with
`b ≤ p < b + BUFF_SIZE`, the interior-pointer lookup
`pageIndexFindByAddr` returns exactly that page. -/
theorem pageIndexFindByAddr_correct (ops : List HOp)
    (hleg : ∀ op ∈ ops, legalHOp op = true)
    (b v p : Nat) (hlive : (b, v) ∈ modelOps [] ops)
    (h1 : b ≤ p) (h2 : p < b + BUFF_SIZE) :
    pageIndexFindByAddr (applyHOps (pageIndexInit 128) ops) p = some v := by
  obtain ⟨W, hmem⟩ := applyHOps_spec ops (pageIndexInit 128) [] hleg HWF_init128
    (fun k v' hk => ⟨fun hm => absurd hm (hMem_init_nil hk),
      fun hm => absurd hm (List.not_mem_nil _)⟩)
  have hbprop : b ≠ 0 ∧ b % BUFF_SIZE = 0 :=
    modelOps_legal ops [] hleg (fun kv hkv => absurd hkv (List.not_mem_nil _))
      (b, v) hlive
  have hal : alignDown p BUFF_SIZE = b := alignDown_block hbprop.2 h1 h2
  exact pageIndexFindByAddr_mem W hal hbprop.1 ((hmem b v hbprop.1).mpr hlive)

/-- Concrete instance of the C7 theorem: insert the block at address
`BUFF_SIZE` with page identity 7, then look up an interior address. -/
theorem pageIndexFindByAddr_correct_witness :
    (∀ op ∈ [HOp.ins BUFF_SIZE 7], legalHOp op = true) ∧
    (BUFF_SIZE, 7) ∈ modelOps [] [HOp.ins BUFF_SIZE 7] ∧
    BUFF_SIZE ≤ BUFF_SIZE + 5 ∧ BUFF_SIZE + 5 < BUFF_SIZE + BUFF_SIZE ∧
    pageIndexFindByAddr (applyHOps (pageIndexInit 128) [HOp.ins BUFF_SIZE 7])
      (BUFF_SIZE + 5) = some 7 := by
  have hleg : ∀ op ∈ [HOp.ins BUFF_SIZE 7], legalHOp op = true := by
    intro op hop
    rw [List.mem_singleton] at hop
    rw [hop]
    decide
  have hlive : (BUFF_SIZE, 7) ∈ modelOps [] [HOp.ins BUFF_SIZE 7] := by decide
  exact ⟨hleg, hlive, by decide, by decide,
    pageIndexFindByAddr_correct [HOp.ins BUFF_SIZE 7] hleg BUFF_SIZE 7
      (BUFF_SIZE + 5) hlive (by decide) (by decide)⟩

-- ================================
-- Pressure trigger (C3)
-- ================================

/-- C3: before an allocation of `n` bytes, a collection is triggered iff
`bytesSinceLastGC + n > baseline * growthFactor` where `growthFactor` is
`1.5` and `baseline` is `lastLiveBytes` when nonzero and `PAGE_SIZE`
(`BUFF_SIZE`, 1 MiB) otherwise — stated integrally: the trigger fires iff
`2 * (bytesSinceLastGC + n) > 3 * baseline`, which is exactly
`bytesSinceLastGC + n > baseline * 1.5`.  When it fires,
`bytesSinceLastGC` is reset to 0.  After `gcInit`, `lastLiveBytes` is
`BUFF_SIZE`, so the baseline on the very first allocation equals
`PAGE_SIZE`. -/
theorem pressure_trigger_iff (e : Env) (g : GC) (n : Nat) :
    (((maybeCollectOnPressure e g n).2 = true) ↔
      2 * (g.bytesSinceLastGC + n) >
        3 * (if g.lastLiveBytes ≠ 0 then g.lastLiveBytes else BUFF_SIZE)) ∧
    ((maybeCollectOnPressure e g n).1.bytesSinceLastGC =
      if 2 * (g.bytesSinceLastGC + n) >
          3 * (if g.lastLiveBytes ≠ 0 then g.lastLiveBytes else BUFF_SIZE)
        then 0 else g.bytesSinceLastGC) ∧
    (∀ fm, (gcInit fm).lastLiveBytes = BUFF_SIZE) := by
  generalize hb : (if g.lastLiveBytes ≠ 0 then g.lastLiveBytes else BUFF_SIZE) = b
  have hc : maybeCollectOnPressure e g n =
      if g.bytesSinceLastGC + n > 3 * b / 2
      then ({ gcCollect e g with bytesSinceLastGC := 0 }, true)
      else (g, false) := by
    rw [← hb]
    rfl
  by_cases h : g.bytesSinceLastGC + n > 3 * b / 2
  · rw [hc, if_pos h]
    refine ⟨⟨fun _ => by omega, fun _ => rfl⟩, ?_, fun fm => rfl⟩
    rw [if_pos (by omega)]
  · rw [hc, if_neg h]
    refine ⟨⟨fun hh => absurd hh Bool.false_ne_true, fun hh => absurd hh (by omega)⟩,
      ?_, fun fm => rfl⟩
    rw [if_neg (by omega)]

/-- C9 counterexample: on the class path a failed page-block acquisition
is fatal immediately — `pageInitForClass` exits 53 with no forced
collection and no retry, even though a second acquisition (`raw2`) would
succeed.  `gcAlloc`'s retry around `allocFromClass` never runs, because
`allocFromClass` can only return a slot base or exit. -/
theorem pageBlock_oom_fatal_no_retry :
    gcAlloc envRawFail (gcInit true) 16 = Except.error 53 ∧ envRawFail.raw2 ≠ 0 :=
  ⟨rfl, by decide⟩

/-- C9 (amended): the collect-and-retry-once policy does hold for the
oversize arena path of `gcAlloc`: when the first arena allocation fails
(`lp1 = 0`), a forced collection runs and the allocation is retried
exactly once (`lp2`); only the second failure is fatal (exit 70).  For
class-sized requests a failed page-block acquisition is immediately
fatal (exit 53) inside `pageInitForClass`. -/
theorem gcAlloc_oversize_retry_once (e : Env) (g : GC) (n : Nat)
    (hn : classForSize n < 0) (h1 : e.lp1 = 0) :
    (e.lp2 = 0 → gcAlloc e g n = Except.error 70) ∧
    (e.lp2 ≠ 0 → gcAlloc e g n =
      Except.ok ({ gcCollect e (maybeCollectOnPressure e g n).1 with
        bytesSinceLastGC :=
          (gcCollect e (maybeCollectOnPressure e g n).1).bytesSinceLastGC + n }, e.lp2)) := by
  constructor
  · intro h2
    unfold gcAlloc
    rw [if_pos hn, if_pos h1, if_pos h2]
  · intro h2
    unfold gcAlloc
    rw [if_pos hn, if_pos h1, if_neg h2]

/-- Concrete instance of the amended C9 theorem: an oversize request whose
first arena allocation fails is retried once after a collection and
succeeds. -/
theorem gcAlloc_oversize_retry_once_witness :
    classForSize 262145 < 0 ∧ envLpRetry.lp1 = 0 ∧ envLpRetry.lp2 ≠ 0 ∧
    gcAlloc envLpRetry (gcInit true) 262145 =
      Except.ok
        ({ gcCollect envLpRetry (maybeCollectOnPressure envLpRetry (gcInit true) 262145).1 with
          bytesSinceLastGC :=
            (gcCollect envLpRetry
              (maybeCollectOnPressure envLpRetry (gcInit true) 262145).1).bytesSinceLastGC +
              262145 }, 77) :=
  ⟨by decide, rfl, by decide,
    (gcAlloc_oversize_retry_once envLpRetry (gcInit true) 262145 (by decide) rfl).2
      (by decide)⟩

-- ================================
-- Bit-count and int32 codec lemmas
-- ================================

theorem getD_replicate_false (n i : Nat) :
    (List.replicate n false).getD i false = false := by
  by_cases h : i < n
  · rw [List.getD_eq_getElem _ _ (by simpa using h), List.getElem_replicate]
  · rw [List.getD_eq_default _ _ (by simpa using h)]

theorem popcountTo_le (n : Nat) (bs : List Bool) : popcountTo n bs ≤ n := by
  unfold popcountTo
  calc ((Finset.range n).filter (fun i => bs.getD i false = true)).card
      ≤ (Finset.range n).card := Finset.card_filter_le _ _
  _ = n := Finset.card_range n

theorem popcountTo_pos {n : Nat} {bs : List Bool} {i : Nat} (hi : i < n)
    (hb : bs.getD i false = true) : 0 < popcountTo n bs := by
  unfold popcountTo
  refine Finset.card_pos.mpr ⟨i, ?_⟩
  simp only [Finset.mem_filter, Finset.mem_range]
  exact ⟨hi, hb⟩

theorem popcountTo_replicate_false (n m : Nat) :
    popcountTo n (List.replicate m false) = 0 := by
  unfold popcountTo
  rw [Finset.card_eq_zero]
  refine Finset.filter_eq_empty_iff.mpr ?_
  intro i _
  rw [getD_replicate_false]
  exact Bool.false_ne_true

theorem popcountTo_congr {n : Nat} {bs bs' : List Bool}
    (h : ∀ i, i < n → bs.getD i false = bs'.getD i false) :
    popcountTo n bs = popcountTo n bs' := by
  unfold popcountTo
  congr 1
  refine Finset.filter_congr ?_
  intro i hi
  rw [h i (Finset.mem_range.mp hi)]

theorem popcountTo_set_true {n : Nat} {bs : List Bool} {i : Nat} (hi : i < n)
    (hil : i < bs.length) (hb : bs.getD i false = false) :
    popcountTo n (bs.set i true) = popcountTo n bs + 1 := by
  unfold popcountTo
  have hins : (Finset.range n).filter (fun j => (bs.set i true).getD j false = true) =
      insert i ((Finset.range n).filter (fun j => bs.getD j false = true)) := by
    ext j
    simp only [Finset.mem_filter, Finset.mem_range, Finset.mem_insert]
    by_cases hj : j = i
    · subst hj
      rw [getD_set_eq hil]
      simp [hi]
    · rw [getD_set_ne (Ne.symm hj)]
      constructor
      · rintro ⟨h1, h2⟩; exact Or.inr ⟨h1, h2⟩
      · rintro (h1 | ⟨h1, h2⟩)
        · exact absurd h1 hj
        · exact ⟨h1, h2⟩
  rw [hins, Finset.card_insert_of_not_mem]
  simp only [Finset.mem_filter, Finset.mem_range, not_and]
  intro _
  rw [hb]
  exact Bool.false_ne_true

theorem popcountTo_set_false {n : Nat} {bs : List Bool} {i : Nat} (hi : i < n)
    (hil : i < bs.length) (hb : bs.getD i false = true) :
    popcountTo n bs = popcountTo n (bs.set i false) + 1 := by
  unfold popcountTo
  have hins : (Finset.range n).filter (fun j => bs.getD j false = true) =
      insert i ((Finset.range n).filter (fun j => (bs.set i false).getD j false = true)) := by
    ext j
    simp only [Finset.mem_filter, Finset.mem_range, Finset.mem_insert]
    by_cases hj : j = i
    · subst hj
      constructor
      · intro _; exact Or.inl rfl
      · intro _; exact ⟨hi, hb⟩
    · rw [getD_set_ne (Ne.symm hj)]
      constructor
      · rintro ⟨h1, h2⟩; exact Or.inr ⟨h1, h2⟩
      · rintro (h1 | ⟨h1, h2⟩)
        · exact absurd h1 hj
        · exact ⟨h1, h2⟩
  rw [hins, Finset.card_insert_of_not_mem]
  simp only [Finset.mem_filter, Finset.mem_range, not_and]
  intro hin
  rw [getD_set_eq hil]
  exact Bool.false_ne_true

theorem dec32_enc32 {x : Int} (h1 : -(2 ^ 31) ≤ x) (h2 : x < 2 ^ 31) :
    dec32 (enc32 x) = x := by
  unfold dec32 enc32
  have eI32 : (2 : Int) ^ 32 = 4294967296 := by norm_num
  have eI31 : (2 : Int) ^ 31 = 2147483648 := by norm_num
  have eN32 : (2 : Nat) ^ 32 = 4294967296 := by norm_num
  have eN31 : (2 : Nat) ^ 31 = 2147483648 := by norm_num
  rw [eI31] at h1 h2
  rw [eI32, eN32, eN31]
  have hmod : (0 : Int) ≤ x % 4294967296 ∧ x % 4294967296 < 4294967296 := by
    constructor
    · exact Int.emod_nonneg x (by norm_num)
    · exact Int.emod_lt_of_pos x (by norm_num)
  simp only [Int.ofNat_eq_natCast]
  split <;> omega

theorem dec32_mul_add (a w : Nat) : dec32 (a * 2 ^ 32 + w) = dec32 w := by
  unfold dec32
  rw [Nat.mul_comm a (2 ^ 32), Nat.mul_add_mod]

-- ================================
-- Freelist-chain lemmas
-- ================================

theorem slotLink_write_self {slots : List (List Nat)} {i : Nat} {x : Int}
    (hlen : 0 < (slots.getD i []).length) (hil : i < slots.length)
    (h1 : -(2 ^ 31) ≤ x) (h2 : x < 2 ^ 31) :
    slotLink (slotNextWrite slots i x) i = x := by
  unfold slotLink slotNextWrite
  rw [getD_set_eq hil, getD_set_eq hlen]
  rw [dec32_mul_add]
  exact dec32_enc32 h1 h2

theorem slotLink_write_ne {slots : List (List Nat)} {i j : Nat} {x : Int} (h : i ≠ j) :
    slotLink (slotNextWrite slots i x) j = slotLink slots j := by
  unfold slotLink slotNextWrite
  rw [getD_set_ne h]

theorem freeChainB_congr {n : Nat} {slots slots' : List (List Nat)} :
    ∀ {fl : List Nat} {h : Int}, (∀ j ∈ fl, slotLink slots' j = slotLink slots j) →
    freeChainB n slots' h fl = freeChainB n slots h fl := by
  intro fl
  induction fl with
  | nil => intro h _; rfl
  | cons i rest ih =>
    intro h hagree
    show (h == Int.ofNat i && decide (i < n) && freeChainB n slots' (slotLink slots' i) rest) =
      (h == Int.ofNat i && decide (i < n) && freeChainB n slots (slotLink slots i) rest)
    rw [hagree i (List.mem_cons_self i rest),
      ih (fun j hj => hagree j (List.mem_cons_of_mem i hj))]

theorem getD_map_range {α : Type} (f : Nat → α) (n i : Nat) (d : α) :
    ((List.range n).map f).getD i d = if i < n then f i else d := by
  by_cases h : i < n
  · rw [if_pos h, List.getD_eq_getElem _ _ (by simpa using h)]
    simp
  · rw [if_neg h, List.getD_eq_default _ _ (by simpa using h)]

/-- The freshly linked freelist is a valid chain over `range' k (n-k)`. -/
theorem freeChain_range' {slots : List (List Nat)} {n : Nat}
    (hlink : ∀ i, i < n → slotLink slots i = if i + 1 < n then Int.ofNat (i + 1) else -1) :
    ∀ m k, k + m = n →
      freeChainB n slots (if k < n then Int.ofNat k else -1) (List.range' k m) = true := by
  intro m
  induction m with
  | zero =>
    intro k hk
    rw [if_neg (by omega)]
    rfl
  | succ m ih =>
    intro k hk
    have hkn : k < n := by omega
    rw [if_pos hkn]
    show (Int.ofNat k == Int.ofNat k && decide (k < n) &&
      freeChainB n slots (slotLink slots k) (List.range' (k + 1) m)) = true
    rw [hlink k hkn]
    have hih := ih (k + 1) (by omega)
    by_cases h2 : k + 1 < n
    · rw [if_pos h2] at hih ⊢
      simp only [hih, hkn]
      simp
    · rw [if_neg h2] at hih ⊢
      simp only [hih, hkn]
      simp

-- ================================
-- Page-operation specifications
-- ================================

theorem getD_replicate {α : Type} {n i : Nat} (a d : α) (hi : i < n) :
    (List.replicate n a).getD i d = a := by
  rw [List.getD_eq_getElem _ _ (by simpa using hi), List.getElem_replicate]

theorem getD_mem_of_lt {α : Type} {l : List α} {i : Nat} (d : α) (hi : i < l.length) :
    l.getD i d ∈ l := by
  rw [List.getD_eq_getElem _ _ hi]
  exact List.getElem_mem hi

theorem PageWF_facts {pg : Page} (W : PageWF pg) :
    0 < pg.nslots ∧ pg.nslots ≤ 65536 ∧ 2 ≤ pg.sizeClass / 8 ∧ 16 ≤ pg.sizeClass := by
  have h := W.scMem
  have hn := W.nslotsEq
  simp only [sizeClasses, List.mem_cons, List.not_mem_nil, or_false] at h
  rcases h with h | h | h | h | h | h | h | h | h | h | h | h | h | h | h <;>
    (rw [hn, h]; decide)

theorem chainHead_range {n : Nat} {slots : List (List Nat)} {h : Int} {fl : List Nat}
    (hch : freeChainB n slots h fl = true) :
    h = -1 ∨ ∃ x, h = Int.ofNat x ∧ x < n := by
  cases fl with
  | nil => exact Or.inl (beq_iff_eq.mp hch)
  | cons i rest =>
    right
    simp only [freeChainB, Bool.and_eq_true, beq_iff_eq, decide_eq_true_eq] at hch
    exact ⟨i, hch.1.1, hch.1.2⟩

/-- Popping the freelist head: the grabbed slot is in range with a clear
in-use bit, and the result is well-formed with that bit set. -/
theorem pageBump_spec {pg : Page} (W : PageWF pg) (hfh : pg.freeHead ≠ -1) :
    ∃ i, i < pg.nslots ∧ pg.freeHead = Int.ofNat i ∧
      pg.inuseBits.getD i false = false ∧
      pageBump pg = ({ pg with freeHead := slotLink pg.slots i,
                               inuseCount := pg.inuseCount + 1,
                               inuseBits := pg.inuseBits.set i true },
                     pg.block + i * pg.sizeClass) ∧
      PageWF (pageBump pg).1 := by
  obtain ⟨fl, hch, hnd, hmem⟩ := W.chain
  cases fl with
  | nil => exact absurd (beq_iff_eq.mp hch) hfh
  | cons i rest =>
    simp only [freeChainB, Bool.and_eq_true, beq_iff_eq, decide_eq_true_eq] at hch
    obtain ⟨⟨hhd, hin⟩, hrest⟩ := hch
    have hbit : pg.inuseBits.getD i false = false :=
      (hmem i hin).mp (List.mem_cons_self i rest)
    have hil : i < pg.inuseBits.length := by rw [W.ibLen]; exact hin
    have heq : pageBump pg =
        ({ pg with freeHead := slotLink pg.slots i,
                   inuseCount := pg.inuseCount + 1,
                   inuseBits := pg.inuseBits.set i true },
         pg.block + i * pg.sizeClass) := by
      unfold pageBump slotBase
      rw [hhd]
      simp only [Int.ofNat_eq_natCast, Int.toNat_natCast]
    refine ⟨i, hin, hhd, hbit, heq, ?_⟩
    rw [heq]
    refine ⟨W.blockNZ, W.blockAl, W.scMem, W.nslotsEq, ?_, W.mbLen, W.slotsLen, W.slotLen,
      ?_, ?_⟩
    · show (pg.inuseBits.set i true).length = pg.nslots
      rw [List.length_set]; exact W.ibLen
    · show pg.inuseCount + 1 = popcountTo pg.nslots (pg.inuseBits.set i true)
      rw [popcountTo_set_true hin hil hbit, W.cntEq]
    · refine ⟨rest, hrest, hnd.of_cons, ?_⟩
      intro j hj
      show j ∈ rest ↔ (pg.inuseBits.set i true).getD j false = false
      by_cases hji : j = i
      · rw [hji, getD_set_eq hil]
        constructor
        · intro hjr
          exact absurd hjr (List.nodup_cons.mp hnd).1
        · intro hfalse
          exact absurd hfalse (by simp)
      · rw [getD_set_ne (Ne.symm hji), ← hmem j hj]
        constructor
        · exact fun hr => List.mem_cons_of_mem i hr
        · intro hr
          rcases List.mem_cons.mp hr with h | h
          · exact absurd h hji
          · exact h

/-- Freeing an in-use slot: well-formedness is preserved; only slot `i`'s
payload word changes. -/
theorem freeSlot_spec {pg : Page} (W : PageWF pg) {i : Nat} (hi : i < pg.nslots)
    (hb : pg.inuseBits.getD i false = true) :
    PageWF (freeSlot pg i) ∧
    (∀ j, j ≠ i → (freeSlot pg i).slots.getD j [] = pg.slots.getD j []) := by
  obtain ⟨hn0, hn65, hw2, hsc16⟩ := PageWF_facts W
  obtain ⟨fl, hch, hnd, hmem⟩ := W.chain
  have hnotin : i ∉ fl := by
    intro hin
    rw [(hmem i hi).mp hin] at hb
    exact Bool.false_ne_true hb
  have hil : i < pg.inuseBits.length := by rw [W.ibLen]; exact hi
  have hisl : i < pg.slots.length := by rw [W.slotsLen]; exact hi
  have hslen : 0 < (pg.slots.getD i []).length := by
    rw [W.slotLen (pg.slots.getD i []) (getD_mem_of_lt [] hisl)]
    omega
  have hrange : -(2 ^ 31) ≤ pg.freeHead ∧ pg.freeHead < 2 ^ 31 := by
    rcases chainHead_range hch with h | ⟨x, hx, hxn⟩
    · rw [h]; constructor <;> norm_num
    · rw [hx]
      simp only [Int.ofNat_eq_natCast]
      have h31 : (2 : Int) ^ 31 = 2147483648 := by norm_num
      rw [h31]
      have hx65 : x ≤ 65536 := by omega
      constructor <;> omega
  have hcnt0 : 0 < pg.inuseCount := by
    rw [W.cntEq]
    exact popcountTo_pos hi hb
  have hsne : ∀ j, j ≠ i → (freeSlot pg i).slots.getD j [] = pg.slots.getD j [] := by
    intro j hj
    show (slotNextWrite pg.slots i pg.freeHead).getD j [] = pg.slots.getD j []
    unfold slotNextWrite
    exact getD_set_ne (Ne.symm hj)
  refine ⟨⟨W.blockNZ, W.blockAl, W.scMem, W.nslotsEq, ?_, W.mbLen, ?_, ?_, ?_, ?_⟩, hsne⟩
  · show (pg.inuseBits.set i false).length = pg.nslots
    rw [List.length_set]; exact W.ibLen
  · show (slotNextWrite pg.slots i pg.freeHead).length = pg.nslots
    unfold slotNextWrite
    rw [List.length_set]; exact W.slotsLen
  · intro s hs
    rcases List.mem_or_eq_of_mem_set hs with h | h
    · exact W.slotLen s h
    · rw [h, List.length_set]
      exact W.slotLen _ (getD_mem_of_lt [] hisl)
  · show (if 0 < pg.inuseCount then pg.inuseCount - 1 else pg.inuseCount) =
      popcountTo pg.nslots (pg.inuseBits.set i false)
    rw [if_pos hcnt0]
    have := popcountTo_set_false hi hil hb
    rw [W.cntEq] at *
    omega
  · refine ⟨i :: fl, ?_, List.nodup_cons.mpr ⟨hnotin, hnd⟩, ?_⟩
    · show (Int.ofNat i == Int.ofNat i && decide (i < pg.nslots) &&
        freeChainB pg.nslots (slotNextWrite pg.slots i pg.freeHead)
          (slotLink (slotNextWrite pg.slots i pg.freeHead) i) fl) = true
      rw [slotLink_write_self hslen hisl hrange.1 hrange.2]
      rw [freeChainB_congr (fun j hj => slotLink_write_ne
        (fun hij => hnotin (by rw [hij]; exact hj)))]
      simp [hch, hi]
    · intro j hj
      show j ∈ i :: fl ↔ (pg.inuseBits.set i false).getD j false = false
      by_cases hji : j = i
      · rw [hji, getD_set_eq hil]
        exact ⟨fun _ => rfl, fun _ => List.mem_cons_self i fl⟩
      · rw [getD_set_ne (Ne.symm hji), ← hmem j hj]
        constructor
        · intro hr
          rcases List.mem_cons.mp hr with h | h
          · exact absurd h hji
          · exact h
        · exact fun hr => List.mem_cons_of_mem i hr

theorem SweepInv_PageWF {pg q : Page} {j : Nat} (W : PageWF pg) (I : SweepInv pg j q) :
    PageWF q := by
  refine ⟨?_, ?_, ?_, ?_, ?_, ?_, ?_, ?_, ?_, ?_⟩
  · rw [I.blk]; exact W.blockNZ
  · rw [I.blk]; exact W.blockAl
  · rw [I.scls]; exact W.scMem
  · rw [I.ns, I.scls]; exact W.nslotsEq
  · rw [I.ns]; exact I.ibLen
  · rw [I.ns]; exact I.mbLen
  · rw [I.ns]; exact I.slotsLen
  · rw [I.scls]; exact I.slotLen
  · rw [I.ns]; exact I.cnt
  · rw [I.ns]
    exact I.chain

theorem sweepSlot_inv {pg : Page} (W : PageWF pg) {j : Nat} {q : Page}
    (hj : j < pg.nslots) (I : SweepInv pg j q) : SweepInv pg (j + 1) (sweepSlot q j) := by
  have Wq : PageWF q := SweepInv_PageWF W I
  obtain ⟨hib, hmb, hsl⟩ := I.hi j (le_refl j)
  have hsw : sweepSlot q j =
      (if q.inuseBits.getD j false && !(q.markBits.getD j false) then freeSlot q j
       else if q.markBits.getD j false then { q with markBits := q.markBits.set j false }
       else q) := rfl
  by_cases hm : q.markBits.getD j false = true
  · -- the slot is marked: clear the mark, keep everything else
    have hq2 : sweepSlot q j = { q with markBits := q.markBits.set j false } := by
      rw [hsw, hm]
      simp
    rw [hq2]
    refine ⟨I.blk, I.scls, I.ns, I.ibLen, ?_, I.slotsLen, I.slotLen, ?_, ?_, I.cnt, ?_⟩
    · show (q.markBits.set j false).length = pg.nslots
      rw [List.length_set]; exact I.mbLen
    · intro i hji
      have hne : j ≠ i := by omega
      obtain ⟨h1, h2, h3⟩ := I.hi i (by omega)
      exact ⟨h1, by rw [getD_set_ne hne]; exact h2, h3⟩
    · intro i hij
      by_cases hje : i = j
      · subst hje
        have hjl : i < q.markBits.length := by rw [I.mbLen]; exact hj
        refine ⟨by rw [getD_set_eq hjl], ?_, ?_⟩
        · rw [hib, ← hmb, hm]
          cases pg.inuseBits.getD i false <;> rfl
        · intro _ _
          exact hsl
      · obtain ⟨h1, h2, h3⟩ := I.lo i (by omega)
        exact ⟨by rw [getD_set_ne (fun h => hje h.symm)]; exact h1, h2, h3⟩
    · exact I.chain
  · have hm0 : q.markBits.getD j false = false := by
      cases hq : q.markBits.getD j false
      · rfl
      · exact absurd hq hm
    by_cases hb : q.inuseBits.getD j false = true
    · -- in use and unmarked: free the slot
      have hq2 : sweepSlot q j = freeSlot q j := by
        rw [hsw, hb, hm0]
        simp
      have hjq : j < q.nslots := by rw [I.ns]; exact hj
      obtain ⟨Wf, hfs⟩ := freeSlot_spec Wq hjq hb
      have hjl : j < q.inuseBits.length := by rw [I.ibLen]; exact hj
      rw [hq2]
      refine ⟨I.blk, I.scls, I.ns, ?_, I.mbLen, ?_, ?_, ?_, ?_, ?_, ?_⟩
      · show (q.inuseBits.set j false).length = pg.nslots
        rw [List.length_set]; exact I.ibLen
      · show (slotNextWrite q.slots j q.freeHead).length = pg.nslots
        unfold slotNextWrite
        rw [List.length_set]; exact I.slotsLen
      · intro s hs
        rcases List.mem_or_eq_of_mem_set hs with h | h
        · exact I.slotLen s h
        · rw [h, List.length_set]
          exact I.slotLen _ (getD_mem_of_lt [] (by rw [I.slotsLen]; exact hj))
      · intro i hji
        have hne : j ≠ i := by omega
        obtain ⟨h1, h2, h3⟩ := I.hi i (by omega)
        refine ⟨?_, h2, ?_⟩
        · show (q.inuseBits.set j false).getD i false = pg.inuseBits.getD i false
          rw [getD_set_ne hne]
          exact h1
        · rw [hfs i (fun h => hne h.symm)]
          exact h3
      · intro i hij
        by_cases hje : i = j
        · rw [hje]
          refine ⟨hm0, ?_, ?_⟩
          · show (q.inuseBits.set j false).getD j false =
              (pg.inuseBits.getD j false && pg.markBits.getD j false)
            rw [getD_set_eq hjl, ← hmb, hm0]
            cases pg.inuseBits.getD j false <;> rfl
          · intro hpi hpm
            rw [← hmb] at hpm
            exact absurd hpm hm
        · obtain ⟨h1, h2, h3⟩ := I.lo i (by omega)
          refine ⟨h1, ?_, ?_⟩
          · show (q.inuseBits.set j false).getD i false = _
            rw [getD_set_ne (fun h => hje h.symm)]
            exact h2
          · intro hpi hpm
            rw [hfs i hje]
            exact h3 hpi hpm
      · show (if 0 < q.inuseCount then q.inuseCount - 1 else q.inuseCount) =
          popcountTo pg.nslots (q.inuseBits.set j false)
        have hpos : 0 < q.inuseCount := by
          rw [I.cnt]
          exact popcountTo_pos hj hb
        rw [if_pos hpos]
        have := popcountTo_set_false hj hjl hb
        rw [I.cnt] at *
        omega
      · have hWfc := Wf.chain
        rw [show (freeSlot q j).nslots = pg.nslots from I.ns] at hWfc
        exact hWfc
    · -- not in use (mark already clear): nothing happens
      have hb0 : q.inuseBits.getD j false = false := by
        cases hq : q.inuseBits.getD j false
        · rfl
        · exact absurd hq hb
      have hq2 : sweepSlot q j = q := by
        rw [hsw, hb0, hm0]
        simp
      rw [hq2]
      refine ⟨I.blk, I.scls, I.ns, I.ibLen, I.mbLen, I.slotsLen, I.slotLen, ?_, ?_,
        I.cnt, I.chain⟩
      · intro i hji
        exact I.hi i (by omega)
      · intro i hij
        by_cases hje : i = j
        · rw [hje]
          refine ⟨hm0, ?_, ?_⟩
          · rw [hb0, ← hib, hb0]
            rfl
          · intro hpi _
            rw [← hib] at hpi
            exact absurd hpi hb
        · exact I.lo i (by omega)

theorem sweepAux {pg : Page} (W : PageWF pg) :
    ∀ m j q, j + m = pg.nslots → SweepInv pg j q →
      SweepInv pg pg.nslots ((List.range' j m).foldl sweepSlot q) := by
  intro m
  induction m with
  | zero =>
    intro j q hj I
    have hje : j = pg.nslots := by omega
    subst hje
    exact I
  | succ m ih =>
    intro j q hj I
    show SweepInv pg pg.nslots ((List.range' (j + 1) m).foldl sweepSlot (sweepSlot q j))
    exact ih (j + 1) _ (by omega) (sweepSlot_inv W (by omega) I)

theorem sweepPage_spec {pg : Page} (W : PageWF pg) :
    SweepInv pg pg.nslots (sweepPage pg) := by
  have h0 : SweepInv pg 0 pg :=
    ⟨rfl, rfl, rfl, W.ibLen, W.mbLen, W.slotsLen, W.slotLen,
      fun i _ => ⟨rfl, rfl, rfl⟩, fun i hi => absurd hi (Nat.not_lt_zero i),
      W.cntEq, W.chain⟩
  have hres := sweepAux W pg.nslots 0 pg (by omega) h0
  rw [sweepPage, List.range_eq_range']
  exact hres

/-- After a page sweep every mark bit is clear. -/
theorem sweepPage_marks {pg : Page} (W : PageWF pg) (i : Nat) :
    (sweepPage pg).markBits.getD i false = false := by
  have I := sweepPage_spec W
  by_cases hi : i < pg.nslots
  · exact (I.lo i hi).1
  · rw [List.getD_eq_default]
    rw [I.mbLen]
    omega

-- ================================
-- Fresh and reset pages
-- ================================

theorem sizeClass_nfacts {sc : Nat} (h : sc ∈ sizeClasses) :
    0 < BUFF_SIZE / sc ∧ BUFF_SIZE / sc ≤ 65536 ∧ 2 ≤ sc / 8 := by
  simp only [sizeClasses, List.mem_cons, List.not_mem_nil, or_false] at h
  rcases h with h | h | h | h | h | h | h | h | h | h | h | h | h | h | h <;>
    (rw [h]; decide)

theorem relinkSlots_getD {n : Nat} {slots : List (List Nat)} (i : Nat) :
    (relinkSlots n slots).getD i [] =
      if i < n then
        (slots.getD i []).set 0 ((slots.getD i []).getD 0 0 / 2 ^ 32 * 2 ^ 32 +
          enc32 (if i + 1 < n then Int.ofNat (i + 1) else -1))
      else [] := by
  unfold relinkSlots
  exact getD_map_range _ n i []

theorem relinkSlots_link {n : Nat} {slots : List (List Nat)} {i : Nat} (hi : i < n)
    (hn : n ≤ 65536) (hlen : 0 < (slots.getD i []).length) :
    slotLink (relinkSlots n slots) i = if i + 1 < n then Int.ofNat (i + 1) else -1 := by
  unfold slotLink
  rw [relinkSlots_getD i, if_pos hi, getD_set_eq hlen, dec32_mul_add]
  by_cases h2 : i + 1 < n
  · rw [if_pos h2]
    have h31 : (2 : Int) ^ 31 = 2147483648 := by norm_num
    refine dec32_enc32 ?_ ?_ <;>
      (simp only [Int.ofNat_eq_natCast]; rw [h31]; omega)
  · rw [if_neg h2]
    exact dec32_enc32 (by norm_num) (by norm_num)

/-- A freshly relinked page body is well-formed (shared by
`pageInitForClass` and `pageResetForClass`). -/
theorem shaped_PageWF {blk sc n : Nat} (slots0 : List (List Nat))
    (hblk : blk ≠ 0) (hal : blk % BUFF_SIZE = 0) (hsc : sc ∈ sizeClasses)
    (hn : n = BUFF_SIZE / sc)
    (hlen : ∀ i, i < n → (slots0.getD i []).length = sc / 8)
    (hslen : slots0.length = n) :
    PageWF { block := blk, sizeClass := sc, nslots := n, inuseCount := 0, freeHead := 0,
             inuseBits := List.replicate n false, markBits := List.replicate n false,
             slots := relinkSlots n slots0 } := by
  obtain ⟨hn0, hn65, hw2⟩ := sizeClass_nfacts hsc
  rw [← hn] at hn0 hn65
  have hlen0 : ∀ i, i < n → 0 < (slots0.getD i []).length := by
    intro i hi
    rw [hlen i hi]
    omega
  refine ⟨hblk, hal, hsc, hn, ?_, ?_, ?_, ?_, ?_, ?_⟩
  · exact List.length_replicate n false
  · exact List.length_replicate n false
  · show (relinkSlots n slots0).length = n
    unfold relinkSlots
    rw [List.length_map, List.length_range]
  · intro s hs
    show s.length = sc / 8
    unfold relinkSlots at hs
    obtain ⟨i, hir, hsi⟩ := List.mem_map.mp hs
    have hi : i < n := List.mem_range.mp hir
    rw [← hsi, List.length_set]
    exact hlen i hi
  · exact (popcountTo_replicate_false n n).symm
  · refine ⟨List.range n, ?_, List.nodup_range n, ?_⟩
    · have hch := freeChain_range'
        (fun i hi => relinkSlots_link hi hn65 (hlen0 i hi)) n 0 (by omega)
      rw [if_pos hn0] at hch
      rw [List.range_eq_range']
      exact hch
    · intro i hi
      rw [getD_replicate_false]
      exact ⟨fun _ => rfl, fun _ => List.mem_range.mpr hi⟩

theorem pageInitForClass_eq {raw ci : Nat} (hal : raw % BUFF_SIZE = 0) (hnz : raw ≠ 0) :
    pageInitForClass raw ci = Except.ok (freshPage raw ci) := by
  unfold pageInitForClass freshPage
  rw [if_neg (fun h => h hal), if_neg hnz]

theorem freshPage_WF {raw ci : Nat} (hci : ci < NUM_CLASSES)
    (hal : raw % BUFF_SIZE = 0) (hnz : raw ≠ 0) : PageWF (freshPage raw ci) := by
  have hsc : sizeClasses.getD ci 0 ∈ sizeClasses := getD_mem_of_lt 0 hci
  obtain ⟨hn0, hn65, hw2⟩ := sizeClass_nfacts hsc
  exact shaped_PageWF _ hnz hal hsc rfl
    (fun i hi => by
      rw [getD_replicate _ _ hi, List.length_replicate])
    (List.length_replicate _ _)

theorem pageResetForClass_WF {pg : Page} (hnz : pg.block ≠ 0)
    (hal : pg.block % BUFF_SIZE = 0) {ci : Nat} (hci : ci < NUM_CLASSES) :
    PageWF (pageResetForClass pg ci) := by
  have hsc : sizeClasses.getD ci 0 ∈ sizeClasses := getD_mem_of_lt 0 hci
  obtain ⟨hn0, hn65, hw2⟩ := sizeClass_nfacts hsc
  exact shaped_PageWF _ hnz hal hsc rfl
    (fun i hi => by
      unfold chunkWords
      rw [getD_map_range, if_pos hi, List.length_map, List.length_range])
    (by unfold chunkWords; rw [List.length_map, List.length_range])

theorem MarkOnly_refl (pg : Page) : MarkOnly pg pg :=
  ⟨rfl, rfl, rfl, rfl, rfl, rfl, rfl, rfl, fun _ h => h⟩

theorem MarkOnly_trans {pg q r : Page} (h1 : MarkOnly pg q) (h2 : MarkOnly q r) :
    MarkOnly pg r :=
  ⟨h2.blk.trans h1.blk, h2.scls.trans h1.scls, h2.ns.trans h1.ns, h2.cnt.trans h1.cnt,
   h2.fh.trans h1.fh, h2.ib.trans h1.ib, h2.sl.trans h1.sl, h2.mbLen.trans h1.mbLen,
   fun i h => h2.mono i (h1.mono i h)⟩

/-- Setting a mark bit is a `MarkOnly` change. -/
theorem MarkOnly_setMark (pg : Page) (i : Nat) :
    MarkOnly pg { pg with markBits := pg.markBits.set i true } := by
  refine ⟨rfl, rfl, rfl, rfl, rfl, rfl, rfl, List.length_set _ _ _, ?_⟩
  intro j hj
  show (pg.markBits.set i true).getD j false = true
  by_cases hij : i = j
  · subst hij
    by_cases hl : i < pg.markBits.length
    · rw [getD_set_eq hl]
    · rw [List.set_eq_of_length_le (by omega)]
      exact hj
  · rw [getD_set_ne hij]
    exact hj

theorem pagesOf_gcMap (g : GC) (F : Page → Page) :
    pagesOf (gcMap g F) = (pagesOf g).map F := by
  unfold pagesOf gcMap
  rw [List.map_append]
  congr 1
  show (g.classPages.map (List.map F)).flatten = g.classPages.flatten.map F
  rw [List.map_flatten]

theorem map_map_id (L : List (List Page)) :
    L.map (List.map (fun pg : Page => pg)) = L := by
  induction L with
  | nil => rfl
  | cons l ls ih => simp only [List.map_cons, List.map_id', ih]

theorem gcMap_id (g : GC) : gcMap g (fun pg => pg) = g := by
  cases g
  unfold gcMap
  simp only [map_map_id, List.map_id']

theorem gcMap_gcMap (g : GC) (F F2 : Page → Page) :
    gcMap (gcMap g F) F2 = gcMap g (fun pg => F2 (F pg)) := by
  unfold gcMap
  congr 1
  · rw [List.map_map]
    apply List.map_congr_left
    intro l _
    show List.map F2 (List.map F l) = List.map (fun pg => F2 (F pg)) l
    rw [List.map_map]
    rfl
  · rw [List.map_map]
    rfl

theorem gcMap_idx (g : GC) (F : Page → Page) : (gcMap g F).idx = g.idx := rfl

theorem mapPage_gcMap (g : GC) (F : Page → Page) (b : Nat) (f : Page → Page) :
    mapPage (gcMap g F) b f = gcMap (gcMap g F) (pmap1 b f) := rfl

theorem findPage_gcMap {F : Page → Page} (hF : ∀ pg, (F pg).block = pg.block)
    (g : GC) (b : Nat) : findPage (gcMap g F) b = (findPage g b).map F := by
  unfold findPage
  rw [pagesOf_gcMap, List.find?_map]
  have hpred : ((fun pg : Page => pg.block == b) ∘ F) = (fun pg : Page => pg.block == b) := by
    funext pg
    show ((F pg).block == b) = (pg.block == b)
    rw [hF pg]
  rw [hpred]

/-- The lookup written with `Option.bind`, convenient for rewriting. -/
theorem findPageContaining_eq (g : GC) (p : Nat) (hp : p ≠ 0) :
    findPageContaining g p =
      (pageIndexFindByAddr g.idx p).bind (fun b =>
        (findPage g b).bind (fun pg =>
          if p < pg.block then none
          else if BUFF_SIZE ≤ p - pg.block then none
          else if pg.nslots ≤ (p - pg.block) / pg.sizeClass then none
          else some (pg.block, (p - pg.block) / pg.sizeClass))) := by
  unfold findPageContaining
  rw [if_neg hp]
  cases pageIndexFindByAddr g.idx p with
  | none => rfl
  | some b =>
    show (match findPage g b with
      | none => none
      | some pg =>
        if p < pg.block then none
        else
          let off := p - pg.block
          if BUFF_SIZE ≤ off then none
          else
            let i := off / pg.sizeClass
            if pg.nslots ≤ i then none else some (pg.block, i)) =
      (findPage g b).bind (fun pg =>
        if p < pg.block then none
        else if BUFF_SIZE ≤ p - pg.block then none
        else if pg.nslots ≤ (p - pg.block) / pg.sizeClass then none
        else some (pg.block, (p - pg.block) / pg.sizeClass))
    cases findPage g b with
    | none => rfl
    | some pg => rfl

/-- The containing-slot lookup only reads the index and mark-invariant
page fields, so a mark-only change preserves it. -/
theorem findPageContaining_gcMap {F : Page → Page} (hF : ∀ pg, MarkOnly pg (F pg))
    (g : GC) (p : Nat) : findPageContaining (gcMap g F) p = findPageContaining g p := by
  by_cases hp : p = 0
  · unfold findPageContaining
    rw [if_pos hp, if_pos hp]
  · rw [findPageContaining_eq _ _ hp, findPageContaining_eq _ _ hp, gcMap_idx]
    cases pageIndexFindByAddr g.idx p with
    | none => rfl
    | some b =>
      show (findPage (gcMap g F) b).bind _ = (findPage g b).bind _
      rw [findPage_gcMap (fun pg => (hF pg).blk)]
      cases findPage g b with
      | none => rfl
      | some pg =>
        show (if p < (F pg).block then none
          else if BUFF_SIZE ≤ p - (F pg).block then none
          else if (F pg).nslots ≤ (p - (F pg).block) / (F pg).sizeClass then none
          else some ((F pg).block, (p - (F pg).block) / (F pg).sizeClass)) = _
        rw [(hF pg).blk, (hF pg).scls, (hF pg).ns]
        rfl

theorem inuseAt_gcMap {F : Page → Page} (hF : ∀ pg, MarkOnly pg (F pg))
    (g : GC) (bi : Nat × Nat) : inuseAt (gcMap g F) bi = inuseAt g bi := by
  unfold inuseAt
  rw [findPage_gcMap (fun pg => (hF pg).blk)]
  cases findPage g bi.1 with
  | none => rfl
  | some pg =>
    show (F pg).inuseBits.getD bi.2 false = pg.inuseBits.getD bi.2 false
    rw [(hF pg).ib]

theorem slotWords_gcMap {F : Page → Page} (hF : ∀ pg, MarkOnly pg (F pg))
    (g : GC) (bi : Nat × Nat) : slotWords (gcMap g F) bi = slotWords g bi := by
  unfold slotWords
  rw [findPage_gcMap (fun pg => (hF pg).blk)]
  cases findPage g bi.1 with
  | none => rfl
  | some pg =>
    show (F pg).slots.getD bi.2 [] = pg.slots.getD bi.2 []
    rw [(hF pg).sl]

theorem markedAt_some {g : GC} {bi : Nat × Nat} {pg : Page}
    (h : findPage g bi.1 = some pg) : markedAt g bi = pg.markBits.getD bi.2 false := by
  unfold markedAt
  rw [h]

theorem markedAt_none {g : GC} {bi : Nat × Nat}
    (h : findPage g bi.1 = none) : markedAt g bi = false := by
  unfold markedAt
  rw [h]

theorem inuseAt_some {g : GC} {bi : Nat × Nat} {pg : Page}
    (h : findPage g bi.1 = some pg) : inuseAt g bi = pg.inuseBits.getD bi.2 false := by
  unfold inuseAt
  rw [h]

theorem slotWords_some {g : GC} {bi : Nat × Nat} {pg : Page}
    (h : findPage g bi.1 = some pg) : slotWords g bi = pg.slots.getD bi.2 [] := by
  unfold slotWords
  rw [h]

theorem findPage_gcMap_some {F : Page → Page} (hblk : ∀ pg, (F pg).block = pg.block)
    {g : GC} {b : Nat} {pg : Page} (h : findPage g b = some pg) :
    findPage (gcMap g F) b = some (F pg) := by
  rw [findPage_gcMap hblk, h]
  rfl

theorem findPage_gcMap_none {F : Page → Page} (hblk : ∀ pg, (F pg).block = pg.block)
    {g : GC} {b : Nat} (h : findPage g b = none) :
    findPage (gcMap g F) b = none := by
  rw [findPage_gcMap hblk, h]
  rfl

theorem markedAt_gcMap_mono {F F2 : Page → Page}
    (h12 : ∀ pg, MarkOnly (F pg) (F2 pg)) (hblk : ∀ pg, (F pg).block = pg.block)
    (g : GC) (bi : Nat × Nat) (hm : markedAt (gcMap g F) bi = true) :
    markedAt (gcMap g F2) bi = true := by
  cases hfp : findPage g bi.1 with
  | none =>
    rw [markedAt_none (findPage_gcMap_none hblk hfp)] at hm
    exact absurd hm (by simp)
  | some pg =>
    rw [markedAt_some (findPage_gcMap_some hblk hfp)] at hm
    rw [markedAt_some (findPage_gcMap_some
      (fun pg => (h12 pg).blk.trans (hblk pg)) hfp)]
    exact (h12 pg).mono bi.2 hm

-- ================================
-- Marking one pointer
-- ================================

theorem findPage_mem {g : GC} {b : Nat} {pg : Page} (h : findPage g b = some pg) :
    pg ∈ pagesOf g ∧ pg.block = b := by
  refine ⟨List.mem_of_find?_eq_some h, ?_⟩
  have := List.find?_some h
  exact beq_iff_eq.mp this

theorem findPageContaining_inv {g : GC} {p : Nat} {bi : Nat × Nat}
    (h : findPageContaining g p = some bi) :
    ∃ pg, findPage g bi.1 = some pg ∧ pg.block = bi.1 ∧ bi.2 < pg.nslots := by
  have hp : p ≠ 0 := by
    intro hp0
    rw [hp0] at h
    unfold findPageContaining at h
    rw [if_pos rfl] at h
    exact absurd h (by simp)
  rw [findPageContaining_eq _ _ hp] at h
  cases hq : pageIndexFindByAddr g.idx p with
  | none => rw [hq] at h; exact absurd h (by simp)
  | some b =>
    rw [hq] at h
    have h2 : (findPage g b).bind (fun pg =>
        if p < pg.block then none
        else if BUFF_SIZE ≤ p - pg.block then none
        else if pg.nslots ≤ (p - pg.block) / pg.sizeClass then none
        else some (pg.block, (p - pg.block) / pg.sizeClass)) = some bi := h
    cases hf : findPage g b with
    | none => rw [hf] at h2; exact absurd h2 (by simp)
    | some pg =>
      rw [hf] at h2
      have h3 : (if p < pg.block then none
        else if BUFF_SIZE ≤ p - pg.block then (none : Option (Nat × Nat))
        else if pg.nslots ≤ (p - pg.block) / pg.sizeClass then none
        else some (pg.block, (p - pg.block) / pg.sizeClass)) = some bi := h2
      by_cases hc1 : p < pg.block
      · rw [if_pos hc1] at h3; exact absurd h3 (by simp)
      · rw [if_neg hc1] at h3
        by_cases hc2 : BUFF_SIZE ≤ p - pg.block
        · rw [if_pos hc2] at h3; exact absurd h3 (by simp)
        · rw [if_neg hc2] at h3
          by_cases hc3 : pg.nslots ≤ (p - pg.block) / pg.sizeClass
          · rw [if_pos hc3] at h3; exact absurd h3 (by simp)
          · rw [if_neg hc3] at h3
            have hbi : (pg.block, (p - pg.block) / pg.sizeClass) = bi :=
              Option.some.inj h3
            obtain rfl := hbi
            refine ⟨pg, ?_, rfl, ?_⟩
            · show findPage g pg.block = some pg
              rw [(findPage_mem hf).2]
              exact hf
            · show (p - pg.block) / pg.sizeClass < pg.nslots
              omega

theorem markedCount_gcMap (g : GC) (F : Page → Page) :
    markedCount (gcMap g F) =
      ((pagesOf g).map (fun pg => popcountTo (F pg).nslots (F pg).markBits)).sum := by
  unfold markedCount
  rw [pagesOf_gcMap, List.map_map]
  rfl

theorem sum_map_le_map {α : Type} {l : List α} {f f2 : α → Nat}
    (h : ∀ a ∈ l, f a ≤ f2 a) : (l.map f).sum ≤ (l.map f2).sum := by
  induction l with
  | nil => exact le_refl 0
  | cons a l ih =>
    rw [List.map_cons, List.map_cons, List.sum_cons, List.sum_cons]
    have h1 := h a (List.mem_cons_self a l)
    have h2 := ih (fun x hx => h x (List.mem_cons_of_mem a hx))
    omega

theorem markedCount_le {g0 : GC} (W : GCWF g0) {F : Page → Page}
    (hF : ∀ pg, MarkOnly pg (F pg)) : markedCount (gcMap g0 F) ≤ totalSlots g0 := by
  rw [markedCount_gcMap]
  unfold totalSlots
  apply sum_map_le_map
  intro pg _
  calc popcountTo (F pg).nslots (F pg).markBits ≤ (F pg).nslots := popcountTo_le _ _
  _ = pg.nslots := (hF pg).ns

theorem sum_map_update {l : List Page} (hnd : (l.map Page.block).Nodup)
    {f f2 : Page → Nat} {pg0 : Page} (h0 : pg0 ∈ l)
    (hsame : ∀ pg ∈ l, pg.block ≠ pg0.block → f2 pg = f pg)
    (hupd : f2 pg0 = f pg0 + 1) :
    (l.map f2).sum = (l.map f).sum + 1 := by
  induction l with
  | nil => cases h0
  | cons a l ih =>
    rw [List.map_cons, List.map_cons, List.sum_cons, List.sum_cons]
    have hnd2 := List.nodup_cons.mp (by rw [List.map_cons] at hnd; exact hnd)
    rcases List.mem_cons.mp h0 with h | h
    · subst h
      have htail : ∀ pg ∈ l, f2 pg = f pg := by
        intro pg hpg
        refine hsame pg (List.mem_cons_of_mem _ hpg) ?_
        intro hb
        apply hnd2.1
        rw [← hb]
        exact List.mem_map_of_mem Page.block hpg
      rw [hupd, List.map_congr_left htail]
      omega
    · have hane : a.block ≠ pg0.block := by
        intro hb
        apply hnd2.1
        rw [hb]
        exact List.mem_map_of_mem Page.block h
      have hhead : f2 a = f a := hsame a (List.mem_cons_self a l) hane
      rw [hhead,
        ih hnd2.2 h (fun pg hpg hne => hsame pg (List.mem_cons_of_mem _ hpg) hne)]
      omega

theorem markPtr_eq (g : GC) (wl : List (Nat × Nat)) (ptr : Nat) :
    markPtr g wl ptr =
      match findPageContaining g ptr with
      | none => (g, wl)
      | some bi =>
        if inuseAt g bi = false then (g, wl)
        else if markedAt g bi then (g, wl)
        else (mapPage g bi.1 (fun pg => { pg with markBits := pg.markBits.set bi.2 true }),
              bi :: wl) := rfl

/-- One `markPtr` call from a mark-only state: either a no-op, or it marks
and pushes exactly the slot containing `ptr`; either way the target of
`ptr` (if allocated) is marked afterwards. -/
theorem markPtr_step {g0 : GC} (W : GCWF g0) {F : Page → Page}
    (hF : ∀ pg, MarkOnly pg (F pg)) (wl : List (Nat × Nat)) (ptr : Nat) :
    ∃ F2, (∀ pg, MarkOnly pg (F2 pg)) ∧ (∀ pg, MarkOnly (F pg) (F2 pg)) ∧
      (markPtr (gcMap g0 F) wl ptr).1 = gcMap g0 F2 ∧
      ((markPtr (gcMap g0 F) wl ptr).2 = wl ∧ F2 = F ∨
        (∃ bi, (markPtr (gcMap g0 F) wl ptr).2 = bi :: wl ∧
          findPageContaining g0 ptr = some bi ∧ inuseAt g0 bi = true ∧
          markedAt (gcMap g0 F2) bi = true ∧
          (∀ bj, bj ≠ bi → markedAt (gcMap g0 F2) bj = markedAt (gcMap g0 F) bj) ∧
          markedCount (gcMap g0 F2) = markedCount (gcMap g0 F) + 1)) ∧
      (∀ bj, findPageContaining g0 ptr = some bj → inuseAt g0 bj = true →
        markedAt (gcMap g0 F2) bj = true) := by
  cases hopt : findPageContaining g0 ptr with
  | none =>
    have hme2 : markPtr (gcMap g0 F) wl ptr = (gcMap g0 F, wl) := by
      rw [markPtr_eq, findPageContaining_gcMap hF, hopt]
    refine ⟨F, hF, fun pg => MarkOnly_refl _, by rw [hme2], Or.inl ⟨by rw [hme2], rfl⟩, ?_⟩
    intro bj hbj _
    have hbj2 : (none : Option (Nat × Nat)) = some bj := hopt ▸ hbj
    exact absurd hbj2 (by simp)
  | some bi =>
    have hif : markPtr (gcMap g0 F) wl ptr =
        (if inuseAt g0 bi = false then (gcMap g0 F, wl)
         else if markedAt (gcMap g0 F) bi then (gcMap g0 F, wl)
         else (mapPage (gcMap g0 F) bi.1
           (fun pg => { pg with markBits := pg.markBits.set bi.2 true }), bi :: wl)) := by
      rw [markPtr_eq, findPageContaining_gcMap hF, hopt]
      show (if inuseAt (gcMap g0 F) bi = false then _ else _) = _
      rw [inuseAt_gcMap hF]
    by_cases hiu : inuseAt g0 bi = false
    · have hme2 : markPtr (gcMap g0 F) wl ptr = (gcMap g0 F, wl) := by
        rw [hif, if_pos hiu]
      refine ⟨F, hF, fun pg => MarkOnly_refl _, by rw [hme2], Or.inl ⟨by rw [hme2], rfl⟩, ?_⟩
      intro bj hbj hinu
      have hbj2 : some bi = some bj := hopt ▸ hbj
      have hbij : bi = bj := Option.some.inj hbj2
      have h2 : inuseAt g0 bi = true := by rw [hbij]; exact hinu
      rw [h2] at hiu
      exact absurd hiu (by simp)
    · by_cases hmk : markedAt (gcMap g0 F) bi = true
      · have hme2 : markPtr (gcMap g0 F) wl ptr = (gcMap g0 F, wl) := by
          rw [hif, if_neg hiu, if_pos hmk]
        refine ⟨F, hF, fun pg => MarkOnly_refl _, by rw [hme2],
          Or.inl ⟨by rw [hme2], rfl⟩, ?_⟩
        intro bj hbj _
        have hbj2 : some bi = some bj := hopt ▸ hbj
        have hbij : bi = bj := Option.some.inj hbj2
        rw [← hbij]
        exact hmk
      · -- the slot gets marked and pushed
        obtain ⟨pg0, hfp0, hblk0, hlt0⟩ := findPageContaining_inv hopt
        have hpg0mem := (findPage_mem hfp0).1
        have Wpg0 := W.pages pg0 hpg0mem
        have hsmono : ∀ pg, MarkOnly (F pg) (pmap1 bi.1 (smark bi.2) (F pg)) := by
          intro pg
          unfold pmap1
          by_cases hb : (F pg).block = bi.1
          · rw [if_pos hb]
            exact MarkOnly_setMark (F pg) bi.2
          · rw [if_neg hb]
            exact MarkOnly_refl _
        have hFam2 : ∀ pg, MarkOnly pg (pmap1 bi.1 (smark bi.2) (F pg)) :=
          fun pg => MarkOnly_trans (hF pg) (hsmono pg)
        have hme2 : markPtr (gcMap g0 F) wl ptr =
            (gcMap g0 (fun pg => pmap1 bi.1 (smark bi.2) (F pg)), bi :: wl) := by
          rw [hif, if_neg hiu, if_neg hmk]
          rw [show (mapPage (gcMap g0 F) bi.1
            (fun pg => { pg with markBits := pg.markBits.set bi.2 true })) =
            gcMap (gcMap g0 F) (pmap1 bi.1 (smark bi.2)) from rfl]
          rw [gcMap_gcMap]
        have hblkF : ∀ pg, (F pg).block = pg.block := fun pg => (hF pg).blk
        have hblkF2 : ∀ pg, (pmap1 bi.1 (smark bi.2) (F pg)).block = pg.block :=
          fun pg => (hFam2 pg).blk
        have hmbl : (F pg0).markBits.length = pg0.nslots := by
          rw [(hF pg0).mbLen, Wpg0.mbLen]
        have hil2 : bi.2 < (F pg0).markBits.length := by rw [hmbl]; exact hlt0
        have hfp2 : findPage (gcMap g0 F) bi.1 = some (F pg0) :=
          findPage_gcMap_some hblkF hfp0
        have hfresh : (F pg0).markBits.getD bi.2 false = false := by
          rw [markedAt_some hfp2] at hmk
          cases hv : (F pg0).markBits.getD bi.2 false
          · rfl
          · exact absurd hv hmk
        have hApg0 : pmap1 bi.1 (smark bi.2) (F pg0) = smark bi.2 (F pg0) := by
          unfold pmap1
          rw [if_pos ((hF pg0).blk.trans hblk0)]
        have hfp3 : findPage (gcMap g0 (fun pg => pmap1 bi.1 (smark bi.2) (F pg))) bi.1 =
            some (pmap1 bi.1 (smark bi.2) (F pg0)) :=
          findPage_gcMap_some hblkF2 hfp0
        have hmarked :
            markedAt (gcMap g0 (fun pg => pmap1 bi.1 (smark bi.2) (F pg))) bi = true := by
          rw [markedAt_some hfp3, hApg0]
          show ((F pg0).markBits.set bi.2 true).getD bi.2 false = true
          rw [getD_set_eq hil2]
        have hother : ∀ bj, bj ≠ bi →
            markedAt (gcMap g0 (fun pg => pmap1 bi.1 (smark bi.2) (F pg))) bj =
              markedAt (gcMap g0 F) bj := by
          intro bj hne
          cases hjf : findPage g0 bj.1 with
          | none =>
            rw [markedAt_none (findPage_gcMap_none hblkF2 hjf),
              markedAt_none (findPage_gcMap_none hblkF hjf)]
          | some pg2 =>
            rw [markedAt_some (findPage_gcMap_some hblkF2 hjf),
              markedAt_some (findPage_gcMap_some hblkF hjf)]
            by_cases hb2 : (F pg2).block = bi.1
            · have hbj1 : bj.1 = bi.1 := by
                rw [← (findPage_mem hjf).2, ← (hF pg2).blk, hb2]
              have hj2 : bj.2 ≠ bi.2 := fun h22 => hne (Prod.ext hbj1 h22)
              have hp2 : pmap1 bi.1 (smark bi.2) (F pg2) = smark bi.2 (F pg2) := by
                unfold pmap1
                rw [if_pos hb2]
              rw [hp2]
              show ((F pg2).markBits.set bi.2 true).getD bj.2 false = _
              rw [getD_set_ne (fun h => hj2 h.symm)]
            · have hp2 : pmap1 bi.1 (smark bi.2) (F pg2) = F pg2 := by
                unfold pmap1
                rw [if_neg hb2]
              rw [hp2]
        have hcount :
            markedCount (gcMap g0 (fun pg => pmap1 bi.1 (smark bi.2) (F pg))) =
              markedCount (gcMap g0 F) + 1 := by
          rw [markedCount_gcMap, markedCount_gcMap]
          refine sum_map_update W.distinct hpg0mem ?_ ?_
          · intro pg hpg hbne
            have hb2 : (F pg).block ≠ bi.1 := by
              rw [(hF pg).blk, ← hblk0]
              exact hbne
            have hp2 : pmap1 bi.1 (smark bi.2) (F pg) = F pg := by
              unfold pmap1
              rw [if_neg hb2]
            rw [hp2]
          · rw [hApg0]
            show popcountTo (F pg0).nslots ((F pg0).markBits.set bi.2 true) =
              popcountTo (F pg0).nslots (F pg0).markBits + 1
            have hn2 : bi.2 < (F pg0).nslots := by rw [(hF pg0).ns]; exact hlt0
            exact popcountTo_set_true hn2 hil2 hfresh
        have hinu : inuseAt g0 bi = true := by
          cases hv : inuseAt g0 bi
          · exact absurd hv hiu
          · rfl
        refine ⟨fun pg => pmap1 bi.1 (smark bi.2) (F pg), hFam2, hsmono, by rw [hme2],
          Or.inr ⟨bi, by rw [hme2], rfl, hinu, hmarked, hother, hcount⟩, ?_⟩
        intro bj hbj _
        have hbj2 : some bi = some bj := hopt ▸ hbj
        have hbij : bi = bj := Option.some.inj hbj2
        rw [← hbij]
        exact hmarked

-- ================================
-- Scanning word lists
-- ================================

/-- Folding `markPtr` over a word list: the state stays a mark-only image
of `g0`, the worklist grows by freshly marked slots only, and every
allocated target of a scanned word ends up marked. -/
theorem markWords_spec {g0 : GC} (W : GCWF g0) :
    ∀ (ws : List Nat) (F : Page → Page), (∀ pg, MarkOnly pg (F pg)) →
    ∀ (wl : List (Nat × Nat)),
    ∃ F2, (∀ pg, MarkOnly pg (F2 pg)) ∧ (∀ pg, MarkOnly (F pg) (F2 pg)) ∧
      (markWords (gcMap g0 F, wl) ws).1 = gcMap g0 F2 ∧
      (∃ pre, (markWords (gcMap g0 F, wl) ws).2 = pre ++ wl ∧
        (∀ bi ∈ pre, markedAt (gcMap g0 F2) bi = true) ∧
        (∀ bi ∈ pre, inuseAt g0 bi = true) ∧
        markedCount (gcMap g0 F2) = markedCount (gcMap g0 F) + pre.length ∧
        (∀ bj, markedAt (gcMap g0 F2) bj = true →
          markedAt (gcMap g0 F) bj = true ∨ bj ∈ pre)) ∧
      (∀ w ∈ ws, ∀ bj, findPageContaining g0 w = some bj → inuseAt g0 bj = true →
        markedAt (gcMap g0 F2) bj = true) := by
  intro ws
  induction ws with
  | nil =>
    intro F hF wl
    refine ⟨F, hF, fun pg => MarkOnly_refl _, rfl, ⟨[], rfl, ?_, ?_, by simp, ?_⟩, ?_⟩
    · intro bi hbi
      exact absurd hbi (List.not_mem_nil bi)
    · intro bi hbi
      exact absurd hbi (List.not_mem_nil bi)
    · intro bj hm
      exact Or.inl hm
    · intro w hw
      exact absurd hw (List.not_mem_nil w)
  | cons w ws ih =>
    intro F hF wl
    obtain ⟨F1, hF1, h01, heq1, hdisj, hsound1⟩ := markPtr_step W hF wl w
    have hstep : markWords (gcMap g0 F, wl) (w :: ws) =
        markWords (markPtr (gcMap g0 F) wl w) ws := rfl
    rcases hdisj with ⟨hwl1, hFeq⟩ | ⟨bi, hwl1, hfc, hinu1, hmk1, hother1, hcnt1⟩
    · -- no-op step
      subst hFeq
      have hpair : markPtr (gcMap g0 F1) wl w = (gcMap g0 F1, wl) :=
        Prod.ext heq1 hwl1
      obtain ⟨F2, hF2, h12, heq2, ⟨pre, hpre, hprem, hpinu, hcnt2, hnew2⟩, hsound2⟩ :=
        ih F1 hF1 wl
      refine ⟨F2, hF2, h12, ?_, ⟨pre, ?_, hprem, hpinu, hcnt2, hnew2⟩, ?_⟩
      · rw [hstep, hpair]
        exact heq2
      · rw [hstep, hpair]
        exact hpre
      · intro w2 hw2 bj hbj hin
        rcases List.mem_cons.mp hw2 with h | h
        · subst h
          exact markedAt_gcMap_mono h12 (fun pg => (hF1 pg).blk) g0 bj
            (hsound1 bj hbj hin)
        · exact hsound2 w2 h bj hbj hin
    · -- a fresh slot was marked and pushed
      have hpair : markPtr (gcMap g0 F) wl w = (gcMap g0 F1, bi :: wl) :=
        Prod.ext heq1 hwl1
      obtain ⟨F2, hF2, h12, heq2, ⟨pre, hpre, hprem, hpinu, hcnt2, hnew2⟩, hsound2⟩ :=
        ih F1 hF1 (bi :: wl)
      refine ⟨F2, hF2, fun pg => MarkOnly_trans (h01 pg) (h12 pg), ?_,
        ⟨pre ++ [bi], ?_, ?_, ?_, ?_, ?_⟩, ?_⟩
      · rw [hstep, hpair]
        exact heq2
      · rw [hstep, hpair, hpre, List.append_assoc]
        rfl
      · intro bj hbj
        rcases List.mem_append.mp hbj with h | h
        · exact hprem bj h
        · rw [List.mem_singleton.mp h]
          exact markedAt_gcMap_mono h12 (fun pg => (hF1 pg).blk) g0 bi hmk1
      · intro bj hbj
        rcases List.mem_append.mp hbj with h | h
        · exact hpinu bj h
        · rw [List.mem_singleton.mp h]
          exact hinu1
      · rw [hcnt2, hcnt1, List.length_append, List.length_singleton]
        omega
      · intro bj hm
        rcases hnew2 bj hm with h | h
        · by_cases hbj : bj = bi
          · refine Or.inr (List.mem_append.mpr (Or.inr ?_))
            rw [hbj]
            exact List.mem_cons_self bi []
          · rw [hother1 bj hbj] at h
            exact Or.inl h
        · exact Or.inr (List.mem_append.mpr (Or.inl h))
      · intro w2 hw2 bj hbj hin
        rcases List.mem_cons.mp hw2 with h | h
        · subst h
          have hbij : bi = bj := by
            have h2 : some bi = some bj := hfc ▸ hbj
            exact Option.some.inj h2
          rw [← hbij]
          exact markedAt_gcMap_mono h12 (fun pg => (hF1 pg).blk) g0 bi hmk1
        · exact hsound2 w2 h bj hbj hin

/-- `markFromExplicitRoots` is the word scan over the dereferenced
non-vacant roots. -/
theorem markRoots_eq_markWords (e : Env) :
    ∀ (roots : List (Option Nat)) (s : GC × List (Nat × Nat)),
    markRoots e s roots = markWords s ((roots.filterMap id).map e.deref) := by
  intro roots
  induction roots with
  | nil => intro s; rfl
  | cons r roots ih =>
    intro s
    cases r with
    | none =>
      show markRoots e s roots = _
      rw [ih s]
      rfl
    | some a =>
      show markRoots e (markPtr s.1 s.2 (e.deref a)) roots = _
      rw [ih (markPtr s.1 s.2 (e.deref a))]
      rfl

-- ================================
-- The trace loop reaches its fixpoint
-- ================================

theorem totalSlots_gcMap {g : GC} {F : Page → Page}
    (hF : ∀ pg, (F pg).nslots = pg.nslots) :
    totalSlots (gcMap g F) = totalSlots g := by
  unfold totalSlots
  rw [pagesOf_gcMap, List.map_map]
  congr 1
  apply List.map_congr_left
  intro pg _
  show (F pg).nslots = pg.nslots
  exact hF pg

/-- Running the worklist to exhaustion: with fuel exceeding the standard
measure (twice the unmarked slots plus the worklist length), the trace
ends with an empty worklist and the marked set closed under payload
pointers. -/
theorem trace_spec {g0 : GC} (W : GCWF g0) :
    ∀ (fuel : Nat) (F : Page → Page), (∀ pg, MarkOnly pg (F pg)) →
    ∀ (wl : List (Nat × Nat)),
      (∀ bi ∈ wl, markedAt (gcMap g0 F) bi = true) →
      (∀ bi, markedAt (gcMap g0 F) bi = true → bi ∈ wl ∨
        (∀ w ∈ slotWords g0 bi, ∀ bj, findPageContaining g0 w = some bj →
          inuseAt g0 bj = true → markedAt (gcMap g0 F) bj = true)) →
      2 * totalSlots g0 + wl.length < fuel + 2 * markedCount (gcMap g0 F) →
    ∃ F2, (∀ pg, MarkOnly pg (F2 pg)) ∧ (∀ pg, MarkOnly (F pg) (F2 pg)) ∧
      traceWorklist fuel (gcMap g0 F) wl = gcMap g0 F2 ∧
      (∀ bi, markedAt (gcMap g0 F2) bi = true →
        (∀ w ∈ slotWords g0 bi, ∀ bj, findPageContaining g0 w = some bj →
          inuseAt g0 bj = true → markedAt (gcMap g0 F2) bj = true)) ∧
      (∀ bi, markedAt (gcMap g0 F2) bi = true →
        markedAt (gcMap g0 F) bi = true ∨ inuseAt g0 bi = true) := by
  intro fuel
  induction fuel with
  | zero =>
    intro F hF wl hwl hcls hfuel
    have := markedCount_le W hF
    omega
  | succ fuel ih =>
    intro F hF wl hwl hcls hfuel
    cases wl with
    | nil =>
      refine ⟨F, hF, fun pg => MarkOnly_refl _, rfl, ?_, fun bi hm => Or.inl hm⟩
      intro bi hm
      rcases hcls bi hm with h | h
      · exact absurd h (List.not_mem_nil bi)
      · exact h
    | cons bi rest =>
      have hbm := hwl bi (List.mem_cons_self bi rest)
      cases hfp : findPage g0 bi.1 with
      | none =>
        rw [markedAt_none (findPage_gcMap_none (fun pg => (hF pg).blk) hfp)] at hbm
        exact absurd hbm (by simp)
      | some pg0 =>
        have hws : (match findPage (gcMap g0 F) bi.1 with
            | none => ([] : List Nat)
            | some pg => pg.slots.getD bi.2 []) = slotWords g0 bi := by
          rw [findPage_gcMap_some (fun pg => (hF pg).blk) hfp, slotWords_some hfp]
          show (F pg0).slots.getD bi.2 [] = pg0.slots.getD bi.2 []
          rw [(hF pg0).sl]
        have hstep : traceWorklist (fuel + 1) (gcMap g0 F) (bi :: rest) =
            traceWorklist fuel (markWords (gcMap g0 F, rest) (slotWords g0 bi)).1
              (markWords (gcMap g0 F, rest) (slotWords g0 bi)).2 := by
          show traceWorklist fuel
              (markWords (gcMap g0 F, rest) (match findPage (gcMap g0 F) bi.1 with
                | none => ([] : List Nat)
                | some pg => pg.slots.getD bi.2 [])).1
              (markWords (gcMap g0 F, rest) (match findPage (gcMap g0 F) bi.1 with
                | none => ([] : List Nat)
                | some pg => pg.slots.getD bi.2 [])).2 = _
          rw [hws]
        obtain ⟨F1, hF1, h01, heq1, ⟨pre, hpre, hprem, hpinu, hcnt1, hnew1⟩, hsound1⟩ :=
          markWords_spec W (slotWords g0 bi) F hF rest
        have hwl1 : ∀ bj ∈ pre ++ rest, markedAt (gcMap g0 F1) bj = true := by
          intro bj hbj
          rcases List.mem_append.mp hbj with h | h
          · exact hprem bj h
          · exact markedAt_gcMap_mono h01 (fun pg => (hF pg).blk) g0 bj
              (hwl bj (List.mem_cons_of_mem bi h))
        have hcls1 : ∀ bj, markedAt (gcMap g0 F1) bj = true → bj ∈ pre ++ rest ∨
            (∀ w ∈ slotWords g0 bj, ∀ bk, findPageContaining g0 w = some bk →
              inuseAt g0 bk = true → markedAt (gcMap g0 F1) bk = true) := by
          intro bj hm1
          rcases hnew1 bj hm1 with hmF | hpre2
          · rcases hcls bj hmF with hmem | hdone
            · rcases List.mem_cons.mp hmem with hbb | hr
              · right
                rw [hbb]
                intro w hw bk hbk hin
                exact hsound1 w hw bk hbk hin
              · exact Or.inl (List.mem_append.mpr (Or.inr hr))
            · right
              intro w hw bk hbk hin
              exact markedAt_gcMap_mono h01 (fun pg => (hF pg).blk) g0 bk
                (hdone w hw bk hbk hin)
          · exact Or.inl (List.mem_append.mpr (Or.inl hpre2))
        have hfuel1 : 2 * totalSlots g0 + (pre ++ rest).length <
            fuel + 2 * markedCount (gcMap g0 F1) := by
          rw [List.length_append, hcnt1]
          have hlen : (bi :: rest).length = rest.length + 1 := by
            rw [List.length_cons]
          rw [hlen] at hfuel
          omega
        obtain ⟨F2, hF2, h12, heq2, hclosed, hminu2⟩ :=
          ih F1 hF1 (pre ++ rest) hwl1 hcls1 hfuel1
        refine ⟨F2, hF2, fun pg => MarkOnly_trans (h01 pg) (h12 pg), ?_, hclosed, ?_⟩
        · rw [hstep, heq1, hpre]
          exact heq2
        · intro bj hm2
          rcases hminu2 bj hm2 with h | h
          · rcases hnew1 bj h with h2 | h2
            · exact Or.inl h2
            · exact Or.inr (hpinu bj h2)
          · exact Or.inr h

theorem gcCollect_eq (e : Env) (g : GC) :
    gcCollect e g = collectCore (traceWorklist
      ((markState e g).2.length + 2 * totalSlots (markState e g).1 + 1)
      (markState e g).1 (markState e g).2) := rfl

theorem markedAt_clear {g0 : GC} (W : GCWF g0) (bi : Nat × Nat) :
    markedAt g0 bi = false := by
  cases hfp : findPage g0 bi.1 with
  | none => exact markedAt_none hfp
  | some pg =>
    rw [markedAt_some hfp]
    exact W.marks pg (findPage_mem hfp).1 bi.2

/-- The mark phase of `gcCollect`: the collector reaches the sweep with a
mark-only image of the original state in which every slot reachable from
the registered roots is marked. -/
theorem collect_marks_reachable {g0 : GC} (W : GCWF g0) (e : Env) :
    ∃ F3, (∀ pg, MarkOnly pg (F3 pg)) ∧
      gcCollect e g0 = collectCore (gcMap g0 F3) ∧
      (∀ bi, Reaches e g0 bi → markedAt (gcMap g0 F3) bi = true) ∧
      (∀ bi, markedAt (gcMap g0 F3) bi = true → inuseAt g0 bi = true) := by
  -- stack-word scan
  obtain ⟨F1, hF1, h01, heq1, ⟨pre1, hpre1, hprem1, hpinu1, hcnt1, hnew1⟩, hsound1⟩ :=
    markWords_spec W e.stackWords (fun pg => pg) (fun pg => MarkOnly_refl pg) []
  rw [gcMap_id] at heq1 hpre1 hnew1
  rw [List.append_nil] at hpre1
  have hs1 : markWords (g0, []) e.stackWords = (gcMap g0 F1, pre1) :=
    Prod.ext heq1 hpre1
  -- explicit-roots scan
  obtain ⟨F2, hF2, h12, heq2, ⟨pre2, hpre2, hprem2, hpinu2, hcnt2, hnew2⟩, hsound2⟩ :=
    markWords_spec W ((g0.roots.filterMap id).map e.deref) F1 hF1 pre1
  have hms : markState e g0 = (gcMap g0 F2, pre2 ++ pre1) := by
    unfold markState
    rw [hs1]
    show markRoots e (gcMap g0 F1, pre1) g0.roots = _
    rw [markRoots_eq_markWords]
    exact Prod.ext heq2 hpre2
  -- the trace
  have hwl3 : ∀ bi ∈ pre2 ++ pre1, markedAt (gcMap g0 F2) bi = true := by
    intro bi hbi
    rcases List.mem_append.mp hbi with h | h
    · exact hprem2 bi h
    · exact markedAt_gcMap_mono h12 (fun pg => (hF1 pg).blk) g0 bi (hprem1 bi h)
  have hcls3 : ∀ bi, markedAt (gcMap g0 F2) bi = true → bi ∈ pre2 ++ pre1 ∨
      (∀ w ∈ slotWords g0 bi, ∀ bj, findPageContaining g0 w = some bj →
        inuseAt g0 bj = true → markedAt (gcMap g0 F2) bj = true) := by
    intro bi hm
    left
    rcases hnew2 bi hm with h | h
    · rcases hnew1 bi h with h2 | h2
      · rw [markedAt_clear W bi] at h2
        exact absurd h2 (by simp)
      · exact List.mem_append.mpr (Or.inr h2)
    · exact List.mem_append.mpr (Or.inl h)
  have hfuel3 : 2 * totalSlots g0 + (pre2 ++ pre1).length <
      ((pre2 ++ pre1).length + 2 * totalSlots (gcMap g0 F2) + 1) +
        2 * markedCount (gcMap g0 F2) := by
    rw [totalSlots_gcMap (fun pg => (hF2 pg).ns)]
    omega
  obtain ⟨F3, hF3, h23, heq3, hclosed, hminu3⟩ := trace_spec W
    ((pre2 ++ pre1).length + 2 * totalSlots (gcMap g0 F2) + 1) F2 hF2
    (pre2 ++ pre1) hwl3 hcls3 hfuel3
  refine ⟨F3, hF3, ?_, ?_, ?_⟩
  · rw [gcCollect_eq, hms]
    show collectCore (traceWorklist
      ((pre2 ++ pre1).length + 2 * totalSlots (gcMap g0 F2) + 1)
      (gcMap g0 F2) (pre2 ++ pre1)) = _
    rw [heq3]
  · -- every reachable slot is marked
    intro bi hr
    induction hr with
    | root a bi2 hmem hfind hin =>
      have hda : e.deref a ∈ (g0.roots.filterMap id).map e.deref := by
        refine List.mem_map_of_mem e.deref ?_
        rw [List.mem_filterMap]
        exact ⟨some a, hmem, rfl⟩
      exact markedAt_gcMap_mono h23 (fun pg => (hF2 pg).blk) g0 bi2
        (hsound2 (e.deref a) hda bi2 hfind hin)
    | step bi2 bj w hr2 hw hfind hin ih =>
      exact hclosed bi2 ih w hw bj hfind hin
  · -- marks are set only on allocated slots
    intro bi hm
    rcases hminu3 bi hm with h | h
    · rcases hnew2 bi h with h2 | h2
      · rcases hnew1 bi h2 with h3 | h3
        · rw [markedAt_clear W bi] at h3
          exact absurd h3 (by simp)
        · exact hpinu1 bi h3
      · exact hpinu2 bi h2
    · exact h

-- ================================
-- Sweep support lemmas
-- ================================

theorem getD_true_lt {bs : List Bool} {i : Nat} (h : bs.getD i false = true) :
    i < bs.length := by
  by_contra hge
  rw [List.getD_eq_default _ _ (by omega)] at h
  exact absurd h (by simp)

theorem popcountTo_eq_zero {n : Nat} {bs : List Bool} (h : popcountTo n bs = 0) :
    ∀ i, i < n → bs.getD i false = false := by
  intro i hi
  cases hv : bs.getD i false
  · rfl
  · exact absurd h (by
      have := popcountTo_pos hi hv
      omega)

/-- An empty page has every in-use bit clear. -/
theorem count_zero_bits {pg : Page} (W : PageWF pg) (h : pg.inuseCount = 0) :
    ∀ i, pg.inuseBits.getD i false = false := by
  intro i
  by_cases hi : i < pg.nslots
  · exact popcountTo_eq_zero (by rw [← W.cntEq]; exact h) i hi
  · rw [List.getD_eq_default]
    rw [W.ibLen]
    omega

theorem find?_block_unique {l : List Page} (hnd : (l.map Page.block).Nodup)
    {pg : Page} (hpg : pg ∈ l) :
    l.find? (fun q => q.block == pg.block) = some pg := by
  induction l with
  | nil => cases hpg
  | cons a l ih =>
    have hnd2 := List.nodup_cons.mp (by rw [List.map_cons] at hnd; exact hnd)
    rcases List.mem_cons.mp hpg with h | h
    · subst h
      rw [List.find?_cons_of_pos _ (by simp)]
    · have hane : a.block ≠ pg.block := by
        intro hb
        apply hnd2.1
        rw [hb]
        exact List.mem_map_of_mem Page.block h
      rw [List.find?_cons_of_neg _ (by simp [hane])]
      exact ih hnd2.2 h

theorem findPage_of_mem {g : GC} (hnd : (blocksOf g).Nodup) {pg : Page}
    (hpg : pg ∈ pagesOf g) : findPage g pg.block = some pg :=
  find?_block_unique hnd hpg

/-- A `MarkOnly` change preserves page well-formedness. -/
theorem PageWF_markOnly {pg q : Page} (W : PageWF pg) (h : MarkOnly pg q) : PageWF q := by
  refine ⟨?_, ?_, ?_, ?_, ?_, ?_, ?_, ?_, ?_, ?_⟩
  · rw [h.blk]; exact W.blockNZ
  · rw [h.blk]; exact W.blockAl
  · rw [h.scls]; exact W.scMem
  · rw [h.ns, h.scls]; exact W.nslotsEq
  · rw [h.ib, h.ns]; exact W.ibLen
  · rw [h.mbLen, h.ns]; exact W.mbLen
  · rw [h.sl, h.ns]; exact W.slotsLen
  · rw [h.sl, h.scls]; exact W.slotLen
  · rw [h.cnt, h.ib, h.ns]; exact W.cntEq
  · rw [h.ns, h.sl, h.fh, h.ib]
    exact W.chain

theorem sweepSlot_block (pg : Page) (i : Nat) : (sweepSlot pg i).block = pg.block := by
  show (if (pg.inuseBits.getD i false && !pg.markBits.getD i false) = true then freeSlot pg i
      else if pg.markBits.getD i false = true then { pg with markBits := pg.markBits.set i false }
      else pg).block = pg.block
  split
  · rfl
  · split <;> rfl

theorem sweepPage_block (pg : Page) : (sweepPage pg).block = pg.block := by
  unfold sweepPage
  generalize List.range pg.nslots = l
  induction l generalizing pg with
  | nil => rfl
  | cons i l ih =>
    show ((l.foldl sweepSlot (sweepSlot pg i))).block = pg.block
    rw [ih (sweepSlot pg i)]
    exact sweepSlot_block pg i

theorem sweptKeep_append (a b : List Page) :
    sweptKeep (a ++ b) = sweptKeep a ++ sweptKeep b := by
  unfold sweptKeep
  rw [List.map_append, List.filter_append]

theorem sweptEmpt_append (a b : List Page) :
    sweptEmpt (a ++ b) = sweptEmpt a ++ sweptEmpt b := by
  unfold sweptEmpt
  rw [List.map_append, List.filter_append]

/-- The probe loop of `pageIndexFindByAddr` only returns values stored
under the probed key. -/
theorem hLookup_inv {cap : Nat} (hpow : ∃ m, cap = 2 ^ m)
    (keys vals : List Nat) (base v : Nat) :
    ∀ fuel pos, pos < cap → hLookup keys vals (cap - 1) base fuel pos = some v →
      ∃ q, q < cap ∧ keys.getD q 0 = base ∧ base ≠ 0 ∧ vals.getD q 0 = v := by
  intro fuel
  induction fuel with
  | zero =>
    intro pos _ h
    exact absurd h (by simp [hLookup])
  | succ f ih =>
    intro pos hpos h
    rw [hLookup] at h
    by_cases h1 : keys.getD pos 0 ≠ 0
    · rw [if_pos h1] at h
      by_cases h2 : keys.getD pos 0 = base
      · rw [if_pos h2] at h
        exact ⟨pos, hpos, h2, by rw [← h2]; exact h1, Option.some.inj h⟩
      · rw [if_neg h2] at h
        have hc : 0 < cap := by omega
        have hnext : (pos + 1) &&& (cap - 1) < cap := by
          rw [and_mask_eq_mod hpow]
          exact Nat.mod_lt _ hc
        exact ih ((pos + 1) &&& (cap - 1)) hnext h
    · rw [if_neg h1] at h
      exact absurd h (by simp)

theorem pageIndexFindByAddr_inv {h : HIdx} (W : HWF h) {p v : Nat}
    (hfind : pageIndexFindByAddr h p = some v) :
    hMem h (alignDown p BUFF_SIZE) v ∧ alignDown p BUFF_SIZE ≠ 0 := by
  have hc : 0 < h.cap := HWF_cap_pos W
  unfold pageIndexFindByAddr at hfind
  rw [if_neg (by omega)] at hfind
  have hstart : hash64 (alignDown p BUFF_SIZE) &&& (h.cap - 1) < h.cap := by
    rw [and_mask_eq_mod W.pow]
    exact Nat.mod_lt _ hc
  obtain ⟨q, hq, hkq, hb0, hvq⟩ := hLookup_inv W.pow h.keys h.vals
    (alignDown p BUFF_SIZE) v h.cap _ hstart hfind
  exact ⟨⟨q, hq, hkq, hvq⟩, hb0⟩

theorem sweptKeep_cons_pos {pg : Page} (h : (sweepPage pg).inuseCount ≠ 0) (l : List Page) :
    sweptKeep (pg :: l) = sweepPage pg :: sweptKeep l := by
  unfold sweptKeep
  rw [List.map_cons, List.filter_cons_of_pos (by simp [h])]

theorem sweptKeep_cons_neg {pg : Page} (h : (sweepPage pg).inuseCount = 0) (l : List Page) :
    sweptKeep (pg :: l) = sweptKeep l := by
  unfold sweptKeep
  rw [List.map_cons, List.filter_cons_of_neg (by simp [h])]

theorem sweptEmpt_cons_pos {pg : Page} (h : (sweepPage pg).inuseCount = 0) (l : List Page) :
    sweptEmpt (pg :: l) = sweepPage pg :: sweptEmpt l := by
  unfold sweptEmpt
  rw [List.map_cons, List.filter_cons_of_pos (by simp [h])]

theorem sweptEmpt_cons_neg {pg : Page} (h : (sweepPage pg).inuseCount ≠ 0) (l : List Page) :
    sweptEmpt (pg :: l) = sweptEmpt l := by
  unfold sweptEmpt
  rw [List.map_cons, List.filter_cons_of_neg (by simp [h])]

/-- Sweeping one class list keeps exactly the non-empty swept pages, pushes
the emptied pages onto the cache (or removes them from the index under
`freeMemory`), and touches nothing else. -/
theorem sweepList_spec (fm : Bool) :
    ∀ (l : List Page) (st : SweepSt), HWF st.idx →
      ∃ st2, sweepList fm st l = (sweptKeep l, st2) ∧
        HWF st2.idx ∧
        st2.empties = (if fm then st.empties else (sweptEmpt l).reverse ++ st.empties) ∧
        (∀ k v, k ≠ 0 → (hMem st2.idx k v ↔
          (hMem st.idx k v ∧ (fm = true → k ∉ (sweptEmpt l).map Page.block)))) ∧
        (fm = false → st2.idx = st.idx) := by
  intro l
  induction l with
  | nil =>
    intro st hW
    refine ⟨st, rfl, hW, by cases fm <;> simp [sweptEmpt], ?_, fun _ => rfl⟩
    intro k v hk
    simp [sweptEmpt]
  | cons pg rest ih =>
    intro st hW
    by_cases hemp : (sweepPage pg).inuseCount = 0
    · cases fm with
      | true =>
        have hop : sweepOnePage true st pg = (none,
            { st with idx := (pageIndexRemove st.idx (sweepPage pg).block).1,
                      numPages := if (pageIndexRemove st.idx (sweepPage pg).block).2 then
                        st.numPages - 1 else st.numPages }) := by
          unfold sweepOnePage
          rw [if_pos hemp]
          rfl
        have hrem := pageIndexRemove_spec hW (sweepPage pg).block
        obtain ⟨st2, heq, hW2, hemps, hmem, _⟩ := ih
          { st with idx := (pageIndexRemove st.idx (sweepPage pg).block).1,
                    numPages := if (pageIndexRemove st.idx (sweepPage pg).block).2 then
                      st.numPages - 1 else st.numPages } hrem.1
        refine ⟨st2, ?_, hW2, ?_, ?_, ?_⟩
        · simp only [sweepList, hop]
          rw [heq, sweptKeep_cons_neg hemp]
        · rw [if_pos rfl] at hemps ⊢
          exact hemps
        · intro k v hk
          rw [hmem k v hk, hrem.2.2.1 k v hk, sweptEmpt_cons_pos hemp,
            List.map_cons]
          simp only [List.mem_cons]
          tauto
        · intro hc
          exact absurd hc (by simp)
      | false =>
        have hop : sweepOnePage false st pg =
            (none, { st with empties := sweepPage pg :: st.empties }) := by
          unfold sweepOnePage
          rw [if_pos hemp]
          rfl
        obtain ⟨st2, heq, hW2, hemps, hmem, hidx⟩ := ih
          { st with empties := sweepPage pg :: st.empties } hW
        refine ⟨st2, ?_, hW2, ?_, ?_, fun _ => hidx rfl⟩
        · simp only [sweepList, hop]
          rw [heq, sweptKeep_cons_neg hemp]
        · rw [if_neg (by simp)] at hemps ⊢
          rw [hemps, sweptEmpt_cons_pos hemp, List.reverse_cons, List.append_assoc]
          rfl
        · intro k v hk
          rw [hmem k v hk]
          constructor
          · rintro ⟨h1, _⟩
            exact ⟨h1, fun hc => absurd hc (by simp)⟩
          · rintro ⟨h1, _⟩
            exact ⟨h1, fun hc => absurd hc (by simp)⟩
    · have hop : sweepOnePage fm st pg = (some (sweepPage pg), st) := by
        unfold sweepOnePage
        rw [if_neg hemp]
      obtain ⟨st2, heq, hW2, hemps, hmem, hidx⟩ := ih st hW
      refine ⟨st2, ?_, hW2, ?_, ?_, hidx⟩
      · simp only [sweepList, hop]
        rw [heq, sweptKeep_cons_pos hemp]
      · rw [hemps, sweptEmpt_cons_neg hemp]
      · intro k v hk
        rw [hmem k v hk, sweptEmpt_cons_neg hemp]

/-- `sweepClasses` threaded over all class lists. -/
theorem sweepClasses_spec (fm : Bool) :
    ∀ (ls : List (List Page)) (st : SweepSt), HWF st.idx →
      ∃ st2, sweepClasses fm st ls = (ls.map sweptKeep, st2) ∧
        HWF st2.idx ∧
        st2.empties = (if fm then st.empties
          else (sweptEmpt ls.flatten).reverse ++ st.empties) ∧
        (∀ k v, k ≠ 0 → (hMem st2.idx k v ↔
          (hMem st.idx k v ∧ (fm = true → k ∉ (sweptEmpt ls.flatten).map Page.block)))) ∧
        (fm = false → st2.idx = st.idx) := by
  intro ls
  induction ls with
  | nil =>
    intro st hW
    refine ⟨st, rfl, hW, by cases fm <;> simp [sweptEmpt], ?_, fun _ => rfl⟩
    intro k v hk
    simp [sweptEmpt]
  | cons l ls ih =>
    intro st hW
    obtain ⟨st1, heq1, hW1, hemps1, hmem1, hidx1⟩ := sweepList_spec fm l st hW
    obtain ⟨st2, heq2, hW2, hemps2, hmem2, hidx2⟩ := ih st1 hW1
    refine ⟨st2, ?_, hW2, ?_, ?_, fun h => (hidx2 h).trans (hidx1 h)⟩
    · show (let r1 := sweepList fm st l
        let r2 := sweepClasses fm r1.2 ls
        (r1.1 :: r2.1, r2.2)) = _
      rw [show sweepList fm st l = (sweptKeep l, st1) from heq1]
      show (sweptKeep l :: (sweepClasses fm st1 ls).1, (sweepClasses fm st1 ls).2) = _
      rw [heq2, List.map_cons]
    · rw [hemps2, hemps1]
      cases fm with
      | true => rw [if_pos rfl, if_pos rfl, if_pos rfl]
      | false =>
        rw [if_neg (by simp), if_neg (by simp), if_neg (by simp),
          List.flatten_cons, sweptEmpt_append, List.reverse_append,
          List.append_assoc]
    · intro k v hk
      rw [hmem2 k v hk, hmem1 k v hk, List.flatten_cons, sweptEmpt_append,
        List.map_append]
      simp only [List.mem_append]
      tauto

theorem sweepSlot_sizeClass (pg : Page) (i : Nat) :
    (sweepSlot pg i).sizeClass = pg.sizeClass := by
  show (if (pg.inuseBits.getD i false && !pg.markBits.getD i false) = true then freeSlot pg i
      else if pg.markBits.getD i false = true then { pg with markBits := pg.markBits.set i false }
      else pg).sizeClass = pg.sizeClass
  split
  · rfl
  · split <;> rfl

theorem sweepPage_sizeClass (pg : Page) : (sweepPage pg).sizeClass = pg.sizeClass := by
  unfold sweepPage
  generalize List.range pg.nslots = l
  induction l generalizing pg with
  | nil => rfl
  | cons i l ih =>
    show ((l.foldl sweepSlot (sweepSlot pg i))).sizeClass = pg.sizeClass
    rw [ih (sweepSlot pg i)]
    exact sweepSlot_sizeClass pg i

theorem getD_map_nil {α β : Type} (f : List α → List β) (hf : f [] = [])
    (L : List (List α)) (c : Nat) : (L.map f).getD c [] = f (L.getD c []) := by
  by_cases hc : c < L.length
  · rw [List.getD_eq_getElem _ _ (by simpa using hc), List.getD_eq_getElem _ _ hc,
      List.getElem_map]
  · rw [List.getD_eq_default _ _ (by simpa using hc), List.getD_eq_default _ _ (by omega), hf]

/-- The kept and the emptied pages of one list partition its swept image. -/
theorem sweptKeep_empt_perm (l : List Page) :
    List.Perm (sweptKeep l ++ sweptEmpt l) (l.map sweepPage) := by
  have hcongr : sweptEmpt l =
      (l.map sweepPage).filter (fun q => !(decide (q.inuseCount ≠ 0))) := by
    unfold sweptEmpt
    refine List.filter_congr ?_
    intro q _
    by_cases h : q.inuseCount = 0 <;> simp [h]
  rw [hcongr]
  exact List.filter_append_perm _ _

theorem map_block_sweep {F : Page → Page} (hblk : ∀ pg, (F pg).block = pg.block)
    (l : List Page) : ((l.map F).map sweepPage).map Page.block = l.map Page.block := by
  rw [List.map_map, List.map_map]
  refine List.map_congr_left ?_
  intro pg _
  show ((sweepPage (F pg))).block = pg.block
  rw [sweepPage_block, hblk]

theorem perm_four {α : Type} (A B C D : List α) :
    List.Perm ((A ++ B) ++ (C ++ D)) ((A ++ C) ++ (B ++ D)) := by
  have h2 : List.Perm (A ++ (B ++ (C ++ D))) (A ++ (C ++ (B ++ D))) :=
    List.Perm.append_left _ (List.perm_append_comm_assoc _ _ _)
  rw [List.append_assoc A B (C ++ D), List.append_assoc A C (B ++ D)]
  exact h2

/-- The blocks of the kept pages and of the emptied pages together are a
permutation of the blocks of the original class pages. -/
theorem blocks_sweep_perm {F : Page → Page} (hblk : ∀ pg, (F pg).block = pg.block) :
    ∀ L : List (List Page),
      List.Perm
        (((L.map (fun l => sweptKeep (l.map F))).flatten).map Page.block ++
          (sweptEmpt ((L.flatten).map F)).map Page.block)
        ((L.flatten).map Page.block) := by
  intro L
  induction L with
  | nil => simp [sweptEmpt]
  | cons l L ih =>
    rw [List.map_cons, List.flatten_cons, List.flatten_cons, List.map_append,
      List.map_append, List.map_append, sweptEmpt_append, List.map_append]
    have hl : List.Perm
        ((sweptKeep (l.map F)).map Page.block ++ (sweptEmpt (l.map F)).map Page.block)
        (l.map Page.block) := by
      have := (sweptKeep_empt_perm (l.map F)).map Page.block
      rw [List.map_append] at this
      rw [← map_block_sweep hblk l]
      exact this
    refine List.Perm.trans (perm_four _ _ _ _) (List.Perm.append hl ih)

theorem sweepAllPages_eq {g : GC} {keep : List (List Page)} {st2 : SweepSt}
    (h : sweepClasses g.freeMemory ⟨g.emptyPages, g.idx, g.numPages⟩ g.classPages =
      (keep, st2)) :
    sweepAllPages g =
      { g with
          classPages := keep,
          emptyPages := st2.empties,
          idx := st2.idx,
          numPages := st2.numPages } := by
  unfold sweepAllPages
  rw [h]

/-- Full inversion of a successful `findPageContaining`. -/
theorem findPageContaining_elim {g : GC} {w : Nat} {bi : Nat × Nat}
    (h : findPageContaining g w = some bi) :
    w ≠ 0 ∧ ∃ v pg, pageIndexFindByAddr g.idx w = some v ∧ findPage g v = some pg ∧
      pg.block ≤ w ∧ w - pg.block < BUFF_SIZE ∧
      (w - pg.block) / pg.sizeClass < pg.nslots ∧
      bi = (pg.block, (w - pg.block) / pg.sizeClass) := by
  have hw : w ≠ 0 := by
    intro hw0
    rw [hw0] at h
    unfold findPageContaining at h
    rw [if_pos rfl] at h
    exact absurd h (by simp)
  refine ⟨hw, ?_⟩
  rw [findPageContaining_eq _ _ hw] at h
  cases hq : pageIndexFindByAddr g.idx w with
  | none => rw [hq] at h; exact absurd h (by simp)
  | some v =>
    rw [hq] at h
    simp only [Option.some_bind] at h
    cases hfp : findPage g v with
    | none =>
      rw [hfp] at h
      exact absurd h (by simp)
    | some pg =>
      rw [hfp] at h
      simp only [Option.some_bind] at h
      by_cases h1 : w < pg.block
      · rw [if_pos h1] at h
        exact absurd h (by simp)
      rw [if_neg h1] at h
      by_cases h2 : BUFF_SIZE ≤ w - pg.block
      · rw [if_pos h2] at h
        exact absurd h (by simp)
      rw [if_neg h2] at h
      by_cases h3 : pg.nslots ≤ (w - pg.block) / pg.sizeClass
      · rw [if_pos h3] at h
        exact absurd h (by simp)
      rw [if_neg h3] at h
      exact ⟨v, pg, rfl, hfp, by omega, by omega, by omega,
        (Option.some.inj h).symm⟩

theorem inuseAt_none {g : GC} {bi : Nat × Nat} (h : findPage g bi.1 = none) :
    inuseAt g bi = false := by
  unfold inuseAt
  rw [h]

theorem map_block_F {F : Page → Page} (hblk : ∀ pg, (F pg).block = pg.block)
    (l : List Page) : (l.map F).map Page.block = l.map Page.block := by
  rw [List.map_map]
  refine List.map_congr_left ?_
  intro pg _
  exact hblk pg

/-- Distinctness and membership of the block list after a sweep, stated
over abstract block lists: kept blocks plus (cached or none of the)
emptied blocks plus the blocks of the previously empty pages. -/
theorem nodup_mem_sweep {bK bE bCL bEM : List Nat} (fm : Bool)
    (hperm : List.Perm (bK ++ bE) bCL) (hnd : (bCL ++ bEM).Nodup) :
    (bK ++ ((if fm then [] else bE.reverse) ++ bEM)).Nodup ∧
    ∀ k, k ∈ bK ++ ((if fm then [] else bE.reverse) ++ bEM) ↔
      (k ∈ bCL ++ bEM ∧ (fm = true → k ∉ bE)) := by
  have hpermT : List.Perm ((bK ++ bE) ++ bEM) (bCL ++ bEM) :=
    hperm.append (List.Perm.refl _)
  have hndX : ((bK ++ bE) ++ bEM).Nodup := hpermT.nodup_iff.mpr hnd
  cases fm with
  | true =>
    rw [if_pos rfl, List.nil_append]
    obtain ⟨hnd1, hnd2, hdis⟩ := List.nodup_append.mp hndX
    obtain ⟨hnd11, hnd12, hdis1⟩ := List.nodup_append.mp hnd1
    constructor
    · exact ((List.sublist_append_left bK bE).append (List.Sublist.refl bEM)).nodup hndX
    · intro k
      have hmemX : k ∈ (bK ++ bE) ++ bEM ↔ k ∈ bCL ++ bEM := hpermT.mem_iff
      constructor
      · intro hk
        rcases List.mem_append.mp hk with hk | hk
        · exact ⟨hmemX.mp (List.mem_append_left _ (List.mem_append_left _ hk)),
            fun _ => hdis1 hk⟩
        · refine ⟨hmemX.mp (List.mem_append_right _ hk), fun _ hkE => ?_⟩
          exact hdis (List.mem_append_right _ hkE) hk
      · rintro ⟨hk, hkE⟩
        rcases List.mem_append.mp (hmemX.mpr hk) with hk2 | hk2
        · rcases List.mem_append.mp hk2 with hk3 | hk3
          · exact List.mem_append_left _ hk3
          · exact absurd hk3 (hkE rfl)
        · exact List.mem_append_right _ hk2
  | false =>
    rw [if_neg (by simp)]
    have hpermR : List.Perm (bK ++ (bE.reverse ++ bEM)) (bCL ++ bEM) := by
      have h1 : List.Perm (bE.reverse ++ bEM) (bE ++ bEM) :=
        (List.reverse_perm _).append (List.Perm.refl _)
      refine (List.Perm.append_left bK h1).trans ?_
      rw [← List.append_assoc]
      exact hpermT
    constructor
    · exact hpermR.nodup_iff.mpr hnd
    · intro k
      rw [hpermR.mem_iff]
      constructor
      · intro h
        exact ⟨h, fun hc => absurd hc (by simp)⟩
      · rintro ⟨h, _⟩
        exact h

/-- The sweep phase (ReMem.c 819-857): starting from a well-formed book
whose marks sit only on in-use slots, sweeping yields a well-formed book
that keeps every marked in-use slot alive with its payload intact, on a
page of unchanged geometry. -/
theorem sweep_master {g0 : GC} (W : GCWF g0) {F : Page → Page}
    (hF : ∀ pg, MarkOnly pg (F pg))
    (hminu : ∀ bi, markedAt (gcMap g0 F) bi = true → inuseAt g0 bi = true) :
    GCWF (sweepAllPages (gcMap g0 F)) ∧
    (sweepAllPages (gcMap g0 F)).roots = g0.roots ∧
    (sweepAllPages (gcMap g0 F)).freeMemory = g0.freeMemory ∧
    (∀ b, b ∈ blocksOf (sweepAllPages (gcMap g0 F)) → b ∈ blocksOf g0) ∧
    (∀ bi, inuseAt g0 bi = true → markedAt (gcMap g0 F) bi = true →
      inuseAt (sweepAllPages (gcMap g0 F)) bi = true ∧
      slotWords (sweepAllPages (gcMap g0 F)) bi = slotWords g0 bi ∧
      ∃ pg0 q, findPage g0 bi.1 = some pg0 ∧
        findPage (sweepAllPages (gcMap g0 F)) bi.1 = some q ∧
        q.sizeClass = pg0.sizeClass ∧ q.nslots = pg0.nslots) := by
  have hblk : ∀ pg, (F pg).block = pg.block := fun pg => (hF pg).blk
  obtain ⟨st2, hsceq, hW2, hemps0, hmem0, -⟩ :=
    sweepClasses_spec (gcMap g0 F).freeMemory (gcMap g0 F).classPages
      ⟨(gcMap g0 F).emptyPages, (gcMap g0 F).idx, (gcMap g0 F).numPages⟩ W.hwf
  have hall := sweepAllPages_eq hsceq
  have hclp : (sweepAllPages (gcMap g0 F)).classPages =
      (g0.classPages.map (List.map F)).map sweptKeep := by
    rw [hall]
    rfl
  have hep : (sweepAllPages (gcMap g0 F)).emptyPages = st2.empties := by rw [hall]
  have hidx : (sweepAllPages (gcMap g0 F)).idx = st2.idx := by rw [hall]
  have hroots : (sweepAllPages (gcMap g0 F)).roots = g0.roots := by
    rw [hall]
    rfl
  have hfm : (sweepAllPages (gcMap g0 F)).freeMemory = g0.freeMemory := by
    rw [hall]
    rfl
  have hflat : (g0.classPages.map (List.map F)).flatten = g0.classPages.flatten.map F := by
    rw [List.map_flatten]
  have hemps : st2.empties = (if g0.freeMemory then g0.emptyPages.map F
      else (sweptEmpt (g0.classPages.flatten.map F)).reverse ++ g0.emptyPages.map F) := by
    have h0 : st2.empties = (if g0.freeMemory then g0.emptyPages.map F
        else (sweptEmpt ((g0.classPages.map (List.map F)).flatten)).reverse ++
          g0.emptyPages.map F) := hemps0
    rw [h0, hflat]
  have hmem : ∀ k v, k ≠ 0 → (hMem st2.idx k v ↔ (hMem g0.idx k v ∧
      (g0.freeMemory = true →
        k ∉ (sweptEmpt (g0.classPages.flatten.map F)).map Page.block))) := by
    intro k v hk
    have h0 : hMem st2.idx k v ↔ (hMem g0.idx k v ∧ (g0.freeMemory = true →
        k ∉ (sweptEmpt ((g0.classPages.map (List.map F)).flatten)).map Page.block)) :=
      hmem0 k v hk
    rw [h0, hflat]
  have hpages : pagesOf (sweepAllPages (gcMap g0 F)) =
      (g0.classPages.map (fun l => sweptKeep (l.map F))).flatten ++ st2.empties := by
    unfold pagesOf
    rw [hclp, hep, List.map_map]
    rfl
  have hpages0 : pagesOf g0 = g0.classPages.flatten ++ g0.emptyPages := rfl
  have hblocks0 : blocksOf g0 =
      g0.classPages.flatten.map Page.block ++ g0.emptyPages.map Page.block := by
    unfold blocksOf
    rw [hpages0, List.map_append]
  have hpermK := blocks_sweep_perm hblk g0.classPages
  have hCLmem : ∀ pg, pg ∈ g0.classPages.flatten → pg ∈ pagesOf g0 := by
    intro pg h
    rw [hpages0]
    exact List.mem_append_left _ h
  have hEMmem : ∀ pg, pg ∈ g0.emptyPages → pg ∈ pagesOf g0 := by
    intro pg h
    rw [hpages0]
    exact List.mem_append_right _ h
  have horig : ∀ q ∈ pagesOf (sweepAllPages (gcMap g0 F)),
      (∃ pg, pg ∈ g0.classPages.flatten ∧ q = sweepPage (F pg)) ∨
      (∃ pg, pg ∈ g0.emptyPages ∧ q = F pg) := by
    intro q hq
    rw [hpages] at hq
    rcases List.mem_append.mp hq with hq | hq
    · obtain ⟨kl, hkl, hqkl⟩ := List.mem_flatten.mp hq
      obtain ⟨l, hl, rfl⟩ := List.mem_map.mp hkl
      have hq2 := List.mem_filter.mp hqkl
      obtain ⟨x, hx, rfl⟩ := List.mem_map.mp hq2.1
      obtain ⟨pg, hpg, rfl⟩ := List.mem_map.mp hx
      exact Or.inl ⟨pg, List.mem_flatten.mpr ⟨l, hl, hpg⟩, rfl⟩
    · rw [hemps] at hq
      by_cases hfmv : g0.freeMemory = true
      · rw [if_pos hfmv] at hq
        obtain ⟨pg, hpg, rfl⟩ := List.mem_map.mp hq
        exact Or.inr ⟨pg, hpg, rfl⟩
      · rw [if_neg hfmv] at hq
        rcases List.mem_append.mp hq with hq | hq
        · rw [List.mem_reverse] at hq
          have hq2 := List.mem_filter.mp hq
          obtain ⟨x, hx, rfl⟩ := List.mem_map.mp hq2.1
          obtain ⟨pg, hpg, rfl⟩ := List.mem_map.mp hx
          exact Or.inl ⟨pg, hpg, rfl⟩
        · obtain ⟨pg, hpg, rfl⟩ := List.mem_map.mp hq
          exact Or.inr ⟨pg, hpg, rfl⟩
  have hFm : ∀ pg, pg ∈ g0.emptyPages → ∀ i, (F pg).markBits.getD i false = false := by
    intro pg hpg i
    cases hv : (F pg).markBits.getD i false with
    | false => rfl
    | true =>
      exfalso
      have hfp0 : findPage g0 pg.block = some pg :=
        findPage_of_mem W.distinct (hEMmem pg hpg)
      have hfpm : findPage (gcMap g0 F) pg.block = some (F pg) :=
        findPage_gcMap_some hblk hfp0
      have hmk : markedAt (gcMap g0 F) (pg.block, i) = true := by
        rw [markedAt_some hfpm]
        exact hv
      have hiu := hminu _ hmk
      have hiu' : pg.inuseBits.getD i false = true := by
        rw [inuseAt_some hfp0] at hiu
        exact hiu
      have hbit := count_zero_bits (W.pages pg (hEMmem pg hpg)) (W.empties pg hpg) i
      exact absurd (hbit ▸ hiu') (by simp)
  have hbgr : blocksOf (sweepAllPages (gcMap g0 F)) =
      ((g0.classPages.map (fun l => sweptKeep (l.map F))).flatten).map Page.block ++
        (st2.empties).map Page.block := by
    unfold blocksOf
    rw [hpages, List.map_append]
  have hbemp : (st2.empties).map Page.block =
      (if g0.freeMemory then []
       else ((sweptEmpt (g0.classPages.flatten.map F)).map Page.block).reverse) ++
      g0.emptyPages.map Page.block := by
    rw [hemps]
    by_cases hfmv : g0.freeMemory = true
    · rw [if_pos hfmv, if_pos hfmv, map_block_F hblk, List.nil_append]
    · rw [if_neg hfmv, if_neg hfmv, List.map_append, List.map_reverse,
        map_block_F hblk]
  have hmaster := nodup_mem_sweep g0.freeMemory hpermK (hblocks0 ▸ W.distinct)
  have hnodup : (blocksOf (sweepAllPages (gcMap g0 F))).Nodup := by
    rw [hbgr, hbemp]
    exact hmaster.1
  have hmemiff : ∀ k, k ∈ blocksOf (sweepAllPages (gcMap g0 F)) ↔
      (k ∈ blocksOf g0 ∧ (g0.freeMemory = true →
        k ∉ (sweptEmpt (g0.classPages.flatten.map F)).map Page.block)) := by
    intro k
    rw [hbgr, hbemp, hblocks0]
    exact hmaster.2 k
  have hGCWF : GCWF (sweepAllPages (gcMap g0 F)) := by
    refine ⟨?_, ?_, ?_, ?_, ?_, hnodup, ?_, ?_⟩
    · rw [hclp]
      simp only [List.length_map]
      exact W.cpLen
    · intro q hq
      rcases horig q hq with ⟨pg, hpg, rfl⟩ | ⟨pg, hpg, rfl⟩
      · exact SweepInv_PageWF (PageWF_markOnly (W.pages pg (hCLmem pg hpg)) (hF pg))
          (sweepPage_spec (PageWF_markOnly (W.pages pg (hCLmem pg hpg)) (hF pg)))
      · exact PageWF_markOnly (W.pages pg (hEMmem pg hpg)) (hF pg)
    · intro c q hq
      rw [hclp, getD_map_nil sweptKeep rfl, getD_map_nil (List.map F) rfl] at hq
      have hq2 := List.mem_filter.mp hq
      obtain ⟨x, hx, rfl⟩ := List.mem_map.mp hq2.1
      obtain ⟨pg, hpg, rfl⟩ := List.mem_map.mp hx
      rw [sweepPage_sizeClass, (hF pg).scls]
      exact W.classSC c pg hpg
    · intro q hq
      rw [hep, hemps] at hq
      by_cases hfmv : g0.freeMemory = true
      · rw [if_pos hfmv] at hq
        obtain ⟨pg, hpg, rfl⟩ := List.mem_map.mp hq
        rw [(hF pg).cnt]
        exact W.empties pg hpg
      · rw [if_neg hfmv] at hq
        rcases List.mem_append.mp hq with hq | hq
        · rw [List.mem_reverse] at hq
          have hq2 := List.mem_filter.mp hq
          simpa using hq2.2
        · obtain ⟨pg, hpg, rfl⟩ := List.mem_map.mp hq
          rw [(hF pg).cnt]
          exact W.empties pg hpg
    · intro q hq i
      rcases horig q hq with ⟨pg, hpg, rfl⟩ | ⟨pg, hpg, rfl⟩
      · exact sweepPage_marks (PageWF_markOnly (W.pages pg (hCLmem pg hpg)) (hF pg)) i
      · exact hFm pg hpg i
    · rw [hidx]
      exact hW2
    · intro k v hk
      rw [hidx, hmem k v hk, W.contents k v hk, hmemiff k]
      tauto
  refine ⟨hGCWF, hroots, hfm, ?_, ?_⟩
  · intro b hb
    exact ((hmemiff b).mp hb).1
  · intro bi hinu hmk
    cases hfp0 : findPage g0 bi.1 with
    | none =>
      rw [inuseAt_none hfp0] at hinu
      exact absurd hinu (by simp)
    | some pg0 =>
      have hmem00 := findPage_mem hfp0
      have hW0 : PageWF pg0 := W.pages pg0 hmem00.1
      rw [inuseAt_some hfp0] at hinu
      have hi2 : bi.2 < pg0.nslots := by
        have h := getD_true_lt hinu
        rw [hW0.ibLen] at h
        exact h
      have hpgCL : pg0 ∈ g0.classPages.flatten := by
        have h0 : pg0 ∈ g0.classPages.flatten ++ g0.emptyPages := hmem00.1
        rcases List.mem_append.mp h0 with h | h
        · exact h
        · exfalso
          rw [count_zero_bits hW0 (W.empties pg0 h) bi.2] at hinu
          exact absurd hinu (by simp)
      have hfpm : findPage (gcMap g0 F) bi.1 = some (F pg0) :=
        findPage_gcMap_some hblk hfp0
      rw [markedAt_some hfpm] at hmk
      have hWF : PageWF (F pg0) := PageWF_markOnly hW0 (hF pg0)
      have I := sweepPage_spec hWF
      have hi2' : bi.2 < (F pg0).nslots := by
        rw [(hF pg0).ns]
        exact hi2
      have hFib : (F pg0).inuseBits.getD bi.2 false = true := by
        rw [(hF pg0).ib]
        exact hinu
      have hqbit : (sweepPage (F pg0)).inuseBits.getD bi.2 false = true := by
        rw [(I.lo bi.2 hi2').2.1, hFib, hmk]
        rfl
      have hcnt : (sweepPage (F pg0)).inuseCount ≠ 0 := by
        rw [I.cnt]
        have h := popcountTo_pos hi2' hqbit
        omega
      obtain ⟨l, hlCL, hpgl⟩ := List.mem_flatten.mp hpgCL
      have hqmem : sweepPage (F pg0) ∈ pagesOf (sweepAllPages (gcMap g0 F)) := by
        rw [hpages]
        refine List.mem_append_left _ (List.mem_flatten.mpr
          ⟨sweptKeep (l.map F), List.mem_map_of_mem _ hlCL, ?_⟩)
        refine List.mem_filter.mpr ⟨List.mem_map_of_mem _ (List.mem_map_of_mem _ hpgl), ?_⟩
        simpa using hcnt
      have hqblk : (sweepPage (F pg0)).block = bi.1 := by
        rw [sweepPage_block, hblk]
        exact hmem00.2
      have hfq : findPage (sweepAllPages (gcMap g0 F)) bi.1 = some (sweepPage (F pg0)) := by
        rw [← hqblk]
        exact findPage_of_mem hnodup hqmem
      refine ⟨?_, ?_, pg0, sweepPage (F pg0), rfl, hfq, ?_, ?_⟩
      · rw [inuseAt_some hfq]
        exact hqbit
      · rw [slotWords_some hfq, slotWords_some hfp0]
        have hsl := (I.lo bi.2 hi2').2.2 hFib hmk
        rw [hsl, (hF pg0).sl]
      · rw [sweepPage_sizeClass, (hF pg0).scls]
      · rw [I.ns, (hF pg0).ns]

theorem GCWF_collectCore {g3 : GC} (h : GCWF (sweepAllPages g3)) : GCWF (collectCore g3) :=
  ⟨h.cpLen, h.pages, h.classSC, h.empties, h.marks, h.distinct, h.hwf, h.contents⟩

/-- Reachability only looks at the roots, the lookup maps and the slots. -/
theorem Reaches_congr {e : Env} {g g2 : GC} (hroots : g2.roots = g.roots)
    (hfc : ∀ w, findPageContaining g2 w = findPageContaining g w)
    (hinu : ∀ bi, inuseAt g2 bi = inuseAt g bi)
    (hsl : ∀ bi, slotWords g2 bi = slotWords g bi) :
    ∀ bi, Reaches e g bi → Reaches e g2 bi := by
  intro bi h
  induction h with
  | root a bi h1 h2 h3 =>
    exact Reaches.root a bi (by rw [hroots]; exact h1) (by rw [hfc]; exact h2)
      (by rw [hinu]; exact h3)
  | step bi bj w h1 h2 h3 h4 ih =>
    exact Reaches.step bi bj w ih (by rw [hsl]; exact h2) (by rw [hfc]; exact h3)
      (by rw [hinu]; exact h4)

/-- One full collection from a well-formed state: the result is
well-formed, the registry and mode survive, the pressure counter resets,
no new blocks appear, and every slot reachable from the roots stays
allocated with its payload intact and stays reachable. -/
theorem gcCollect_spec (e : Env) {g0 : GC} (W : GCWF g0) :
    GCWF (gcCollect e g0) ∧
    (gcCollect e g0).roots = g0.roots ∧
    (gcCollect e g0).freeMemory = g0.freeMemory ∧
    (gcCollect e g0).bytesSinceLastGC = 0 ∧
    (∀ b, b ∈ blocksOf (gcCollect e g0) → b ∈ blocksOf g0) ∧
    (∀ bi, Reaches e g0 bi →
      inuseAt (gcCollect e g0) bi = true ∧
      slotWords (gcCollect e g0) bi = slotWords g0 bi ∧
      Reaches e (gcCollect e g0) bi) := by
  obtain ⟨F3, hF3, heq, hmarked, hminu⟩ := collect_marks_reachable W e
  obtain ⟨WS, hrootsS, hfmS, hsubS, hsurv⟩ := sweep_master W hF3 hminu
  have hTfc : ∀ w, findPageContaining (collectCore (gcMap g0 F3)) w =
      findPageContaining (sweepAllPages (gcMap g0 F3)) w := fun _ => rfl
  have hTinu : ∀ bi, inuseAt (collectCore (gcMap g0 F3)) bi =
      inuseAt (sweepAllPages (gcMap g0 F3)) bi := fun _ => rfl
  have hTsl : ∀ bi, slotWords (collectCore (gcMap g0 F3)) bi =
      slotWords (sweepAllPages (gcMap g0 F3)) bi := fun _ => rfl
  have hTroots : (collectCore (gcMap g0 F3)).roots =
      (sweepAllPages (gcMap g0 F3)).roots := rfl
  have hTblocks : blocksOf (collectCore (gcMap g0 F3)) =
      blocksOf (sweepAllPages (gcMap g0 F3)) := rfl
  have hTfm : (collectCore (gcMap g0 F3)).freeMemory =
      (sweepAllPages (gcMap g0 F3)).freeMemory := rfl
  have hFPC : ∀ w bi, findPageContaining g0 w = some bi → inuseAt g0 bi = true →
      markedAt (gcMap g0 F3) bi = true →
      findPageContaining (sweepAllPages (gcMap g0 F3)) w = some bi := by
    intro w bi hfc hinu hmk
    obtain ⟨hw, v, pg, hfind, hfp, hle, hoff, hslot, hbi⟩ := findPageContaining_elim hfc
    obtain ⟨hinuS, hslW, pg0, q, hfp0, hfq, hqsc, hqns⟩ := hsurv bi hinu hmk
    have hpgv : pg.block = v := (findPage_mem hfp).2
    have hb1 : bi.1 = pg.block := by rw [hbi]
    have hfp0' : findPage g0 pg.block = some pg0 := by rw [← hb1]; exact hfp0
    have hfp2 : findPage g0 pg.block = some pg := by rw [hpgv]; exact hfp
    have hpg0 : pg0 = pg := Option.some.inj (hfp0'.symm.trans hfp2)
    obtain ⟨hmemk, hk0⟩ := pageIndexFindByAddr_inv W.hwf hfind
    have hvk : v = alignDown w BUFF_SIZE := ((W.contents _ _ hk0).mp hmemk).1
    have hqblk : q.block = bi.1 := (findPage_mem hfq).2
    have hqmemS : q ∈ pagesOf (sweepAllPages (gcMap g0 F3)) := (findPage_mem hfq).1
    have hbmemS : pg.block ∈ blocksOf (sweepAllPages (gcMap g0 F3)) := by
      unfold blocksOf
      rw [← hb1, ← hqblk]
      exact List.mem_map_of_mem _ hqmemS
    have hbne : pg.block ≠ 0 := by
      rw [hpgv, hvk]
      exact hk0
    have hmemS : hMem (sweepAllPages (gcMap g0 F3)).idx pg.block pg.block :=
      (WS.contents _ _ hbne).mpr ⟨rfl, hbmemS⟩
    have hfindS : pageIndexFindByAddr (sweepAllPages (gcMap g0 F3)).idx w =
        some pg.block := by
      refine pageIndexFindByAddr_mem WS.hwf ?_ hbne hmemS
      rw [hpgv, hvk]
    have hfqS : findPage (sweepAllPages (gcMap g0 F3)) pg.block = some q := by
      rw [← hb1]
      exact hfq
    have hqblk' : q.block = pg.block := by rw [hqblk, hb1]
    rw [findPageContaining_eq _ _ hw, hfindS]
    simp only [Option.some_bind]
    rw [hfqS]
    simp only [Option.some_bind]
    rw [hqblk', hqsc, hqns, hpg0]
    rw [if_neg (not_lt.mpr hle), if_neg (not_le.mpr hoff), if_neg (not_le.mpr hslot)]
    rw [hbi]
  have hreach : ∀ bj, Reaches e g0 bj →
      Reaches e (sweepAllPages (gcMap g0 F3)) bj := by
    intro bj hr
    induction hr with
    | root a bi2 h1 h2 h3 =>
      have hmk := hmarked _ (Reaches.root a bi2 h1 h2 h3)
      exact Reaches.root a bi2 (by rw [hrootsS]; exact h1) (hFPC _ _ h2 h3 hmk)
        (hsurv bi2 h3 hmk).1
    | step bi2 bj2 w h1 h2 h3 h4 ih =>
      have hmki := hmarked _ h1
      have hinui : inuseAt g0 bi2 = true := hminu _ hmki
      have hmkj := hmarked _ (Reaches.step bi2 bj2 w h1 h2 h3 h4)
      exact Reaches.step bi2 bj2 w ih
        (by rw [(hsurv bi2 hinui hmki).2.1]; exact h2)
        (hFPC _ _ h3 h4 hmkj) (hsurv bj2 h4 hmkj).1
  refine ⟨?_, ?_, ?_, ?_, ?_, ?_⟩
  · rw [heq]
    exact GCWF_collectCore WS
  · rw [heq, hTroots, hrootsS]
  · rw [heq, hTfm, hfmS]
  · rw [heq]
    rfl
  · intro b hb
    rw [heq, hTblocks] at hb
    exact hsubS b hb
  · intro bi hr
    have hmk := hmarked bi hr
    have hinu : inuseAt g0 bi = true := hminu bi hmk
    obtain ⟨hinuS, hslWS, -⟩ := hsurv bi hinu hmk
    refine ⟨?_, ?_, ?_⟩
    · rw [heq, hTinu]
      exact hinuS
    · rw [heq, hTsl]
      exact hslWS
    · rw [heq]
      exact Reaches_congr hTroots hTfc hTinu hTsl bi (hreach bi hr)

-- ================================
-- Allocation-path invariants
-- ================================

theorem set_getD_id {α : Type} (d : α) : ∀ (L : List α) (i : Nat),
    L.set i (L.getD i d) = L := by
  intro L
  induction L with
  | nil => intro i; rfl
  | cons a L ih =>
    intro i
    cases i with
    | zero => rfl
    | succ j =>
      show a :: L.set j (L.getD j d) = a :: L
      rw [ih j]

theorem mem_set_flatten {α : Type} {L : List (List α)} {ci : Nat} {lnew : List α}
    {x : α} (h : x ∈ (L.set ci lnew).flatten) : x ∈ lnew ∨ x ∈ L.flatten := by
  rw [List.mem_flatten] at h
  obtain ⟨l, hl, hx⟩ := h
  rcases List.mem_or_eq_of_mem_set hl with h2 | h2
  · exact Or.inr (List.mem_flatten.mpr ⟨l, h2, hx⟩)
  · subst h2
    exact Or.inl hx

/-- Putting a new page at the head of class list `ci` inserts its entry
into the flattened page list, up to permutation. -/
theorem flatten_set_cons_perm {α : Type} :
    ∀ (L : List (List α)) (ci : Nat), ci < L.length → ∀ (x : α),
      List.Perm ((L.set ci (x :: L.getD ci [])).flatten) (x :: L.flatten) := by
  intro L
  induction L with
  | nil =>
    intro ci hci
    exact absurd hci (by simp)
  | cons l L ih =>
    intro ci hci x
    cases ci with
    | zero =>
      show List.Perm (((x :: l) :: L).flatten) (x :: (l :: L).flatten)
      rw [List.flatten_cons, List.flatten_cons, List.cons_append]
    | succ cj =>
      have hcj : cj < L.length := by
        rw [List.length_cons] at hci
        omega
      show List.Perm ((l :: L.set cj (x :: L.getD cj [])).flatten) (x :: (l :: L).flatten)
      rw [List.flatten_cons, List.flatten_cons]
      refine (List.Perm.append_left l (ih cj hcj x)).trans ?_
      exact List.perm_middle

theorem classMem_pagesOf {g : GC} {ci : Nat} {pg : Page}
    (h : pg ∈ g.classPages.getD ci []) : pg ∈ pagesOf g := by
  by_cases hci : ci < g.classPages.length
  · refine List.mem_append_left _ (List.mem_flatten.mpr
      ⟨g.classPages.getD ci [], ?_, h⟩)
    rw [List.getD_eq_getElem _ _ hci]
    exact List.getElem_mem _
  · rw [List.getD_eq_default _ _ (by omega)] at h
    cases h

theorem GCWF_bytes {g : GC} (W : GCWF g) (b : Nat) :
    GCWF { g with bytesSinceLastGC := b } :=
  ⟨W.cpLen, W.pages, W.classSC, W.empties, W.marks, W.distinct, W.hwf, W.contents⟩

theorem pressured_facts (e : Env) {g : GC} (W : GCWF g) (ci : Nat) :
    GCWF (pressured e g ci) ∧
    (pressured e g ci).roots = g.roots ∧
    (pressured e g ci).freeMemory = g.freeMemory ∧
    (∀ b, b ∈ blocksOf (pressured e g ci) → b ∈ blocksOf g) := by
  by_cases hc : g.bytesSinceLastGC + sizeClasses.getD ci 0 >
      3 * (if g.lastLiveBytes ≠ 0 then g.lastLiveBytes else BUFF_SIZE) / 2
  · have he : pressured e g ci = { gcCollect e g with bytesSinceLastGC := 0 } := by
      show (if g.bytesSinceLastGC + sizeClasses.getD ci 0 >
          3 * (if g.lastLiveBytes ≠ 0 then g.lastLiveBytes else BUFF_SIZE) / 2
        then ({ gcCollect e g with bytesSinceLastGC := 0 }, true)
        else (g, false)).1 = _
      rw [if_pos hc]
    obtain ⟨W2, hroots, hfm, -, hsub, -⟩ := gcCollect_spec e W
    rw [he]
    exact ⟨GCWF_bytes W2 0, hroots, hfm, fun b hb => hsub b hb⟩
  · have he : pressured e g ci = g := by
      show (if g.bytesSinceLastGC + sizeClasses.getD ci 0 >
          3 * (if g.lastLiveBytes ≠ 0 then g.lastLiveBytes else BUFF_SIZE) / 2
        then ({ gcCollect e g with bytesSinceLastGC := 0 }, true)
        else (g, false)).1 = _
      rw [if_neg hc]
    rw [he]
    exact ⟨W, rfl, rfl, fun b hb => hb⟩

/-- `allocFromClass` with the pressure state named, for rewriting. -/
theorem allocFromClass_eq (e : Env) (g : GC) (ci raw : Nat) :
    allocFromClass e g ci raw =
      (match allocInList ((pressured e g ci).classPages.getD ci []) with
       | some r =>
         Except.ok ({ pressured e g ci with
             classPages := (pressured e g ci).classPages.set ci r.1,
             bytesSinceLastGC :=
               (pressured e g ci).bytesSinceLastGC + sizeClasses.getD ci 0 }, r.2)
       | none =>
         match (pressured e g ci).emptyPages with
         | pg :: rest =>
           Except.ok ({ pressured e g ci with
               emptyPages := rest,
               classPages := (pressured e g ci).classPages.set ci
                 ((pageBump (pageResetForClass pg ci)).1 ::
                   (pressured e g ci).classPages.getD ci []),
               bytesSinceLastGC :=
                 (pressured e g ci).bytesSinceLastGC + sizeClasses.getD ci 0 },
             (pageBump (pageResetForClass pg ci)).2)
         | [] =>
           match pageInitForClass raw ci with
           | Except.error k => Except.error k
           | Except.ok pg =>
             Except.ok ({ pressured e g ci with
                 classPages := (pressured e g ci).classPages.set ci
                   ((pageBump pg).1 :: (pressured e g ci).classPages.getD ci []),
                 idx := pageIndexInsert (pressured e g ci).idx raw raw,
                 numPages := (pressured e g ci).numPages + 1,
                 bytesSinceLastGC :=
                   (pressured e g ci).bytesSinceLastGC + sizeClasses.getD ci 0 },
               (pageBump pg).2)) := rfl

/-- The first-fit scan over a class list bumps exactly the first page with
a free slot and keeps the rest. -/
theorem allocInList_spec : ∀ l : List Page,
    allocInList l = none ∨
    ∃ l1 pg l2, l = l1 ++ pg :: l2 ∧ pg.freeHead ≠ -1 ∧
      allocInList l = some (l1 ++ (pageBump pg).1 :: l2, (pageBump pg).2) := by
  intro l
  induction l with
  | nil => exact Or.inl rfl
  | cons pg rest ih =>
    by_cases hfh : pg.freeHead = -1
    · rcases ih with hnone | ⟨l1, pg1, l2, hsplit, hfh1, heq⟩
      · left
        show (if pg.freeHead = -1 then
            (match allocInList rest with
             | none => none
             | some r => some (pg :: r.1, r.2))
          else some ((pageBump pg).1 :: rest, (pageBump pg).2)) = none
        rw [if_pos hfh, hnone]
      · right
        refine ⟨pg :: l1, pg1, l2, by rw [hsplit]; rfl, hfh1, ?_⟩
        show (if pg.freeHead = -1 then
            (match allocInList rest with
             | none => none
             | some r => some (pg :: r.1, r.2))
          else some ((pageBump pg).1 :: rest, (pageBump pg).2)) = _
        rw [if_pos hfh, heq]
        rfl
    · right
      refine ⟨[], pg, rest, rfl, hfh, ?_⟩
      show (if pg.freeHead = -1 then
          (match allocInList rest with
           | none => none
           | some r => some (pg :: r.1, r.2))
        else some ((pageBump pg).1 :: rest, (pageBump pg).2)) = _
      rw [if_neg hfh]
      rfl

/-- Replacing one class list by a block-preserving, well-formed list keeps
the collector well-formed. -/
theorem GCWF_setClass {g : GC} (W : GCWF g) (ci : Nat) (lnew : List Page) (b : Nat)
    (hblocks : lnew.map Page.block = (g.classPages.getD ci []).map Page.block)
    (hwfp : ∀ pg ∈ lnew, PageWF pg)
    (hsc : ∀ pg ∈ lnew, pg.sizeClass = sizeClasses.getD ci 0)
    (hmarks : ∀ pg ∈ lnew, ∀ i, pg.markBits.getD i false = false) :
    GCWF { g with
             classPages := g.classPages.set ci lnew,
             bytesSinceLastGC := b } := by
  have hbl : blocksOf { g with
      classPages := g.classPages.set ci lnew,
      bytesSinceLastGC := b } = blocksOf g := by
    show ((g.classPages.set ci lnew).flatten ++ g.emptyPages).map Page.block =
      (g.classPages.flatten ++ g.emptyPages).map Page.block
    rw [List.map_append, List.map_append, List.map_flatten, List.map_flatten,
      List.map_set, hblocks, ← getD_map_nil (List.map Page.block) rfl,
      set_getD_id]
  have hpg : ∀ pg, pg ∈ pagesOf { g with
      classPages := g.classPages.set ci lnew,
      bytesSinceLastGC := b } → pg ∈ lnew ∨ pg ∈ pagesOf g := by
    intro pg h
    rcases List.mem_append.mp h with h | h
    · rcases mem_set_flatten h with h2 | h2
      · exact Or.inl h2
      · exact Or.inr (List.mem_append_left _ h2)
    · exact Or.inr (List.mem_append_right _ h)
  refine ⟨?_, ?_, ?_, W.empties, ?_, ?_, W.hwf, ?_⟩
  · show (g.classPages.set ci lnew).length = NUM_CLASSES
    rw [List.length_set]
    exact W.cpLen
  · intro pg h
    rcases hpg pg h with h2 | h2
    · exact hwfp pg h2
    · exact W.pages pg h2
  · intro c pg h
    have h2 : pg ∈ (g.classPages.set ci lnew).getD c [] := h
    by_cases hc : c = ci
    · subst hc
      by_cases hlen : c < g.classPages.length
      · rw [getD_set_eq hlen] at h2
        exact hsc pg h2
      · rw [List.set_eq_of_length_le (by omega)] at h2
        exact W.classSC c pg h2
    · rw [getD_set_ne (fun h3 => hc h3.symm)] at h2
      exact W.classSC c pg h2
  · intro pg h i
    rcases hpg pg h with h2 | h2
    · exact hmarks pg h2 i
    · exact W.marks pg h2 i
  · rw [hbl]
    exact W.distinct
  · intro k v hk
    rw [hbl]
    exact W.contents k v hk

/-- Reusing a cached empty page for class `ci` keeps the collector
well-formed. -/
theorem GCWF_emptyReuse {g : GC} (W : GCWF g) {ci : Nat} (hci : ci < NUM_CLASSES)
    {pg : Page} {rest : List Page} (hemp : g.emptyPages = pg :: rest) (b : Nat) :
    GCWF { g with
             emptyPages := rest,
             classPages := g.classPages.set ci
               ((pageBump (pageResetForClass pg ci)).1 :: g.classPages.getD ci []),
             bytesSinceLastGC := b } := by
  have hlen : ci < g.classPages.length := by
    rw [W.cpLen]
    exact hci
  have hpgmem : pg ∈ pagesOf g := by
    refine List.mem_append_right _ ?_
    rw [hemp]
    exact List.mem_cons_self _ _
  have hWpg := W.pages pg hpgmem
  have hWr : PageWF (pageResetForClass pg ci) :=
    pageResetForClass_WF hWpg.blockNZ hWpg.blockAl hci
  have hfh : (pageResetForClass pg ci).freeHead ≠ -1 := by
    show (0 : Int) ≠ -1
    decide
  obtain ⟨i, hi, hfhi, hbit, hbeq, hWq⟩ := pageBump_spec hWr hfh
  have hqblk : (pageBump (pageResetForClass pg ci)).1.block = pg.block := rfl
  have hqsc : (pageBump (pageResetForClass pg ci)).1.sizeClass =
      sizeClasses.getD ci 0 := rfl
  have hqmk : ∀ j, (pageBump (pageResetForClass pg ci)).1.markBits.getD j false =
      false := by
    intro j
    show (List.replicate (BUFF_SIZE / sizeClasses.getD ci 0) false).getD j false = false
    exact getD_replicate_false _ _
  have hperm : List.Perm
      (blocksOf { g with
         emptyPages := rest,
         classPages := g.classPages.set ci
           ((pageBump (pageResetForClass pg ci)).1 :: g.classPages.getD ci []),
         bytesSinceLastGC := b })
      (blocksOf g) := by
    show List.Perm
      (((g.classPages.set ci
          ((pageBump (pageResetForClass pg ci)).1 :: g.classPages.getD ci [])).flatten ++
        rest).map Page.block)
      (blocksOf g)
    rw [List.map_append]
    refine List.Perm.trans (List.Perm.append
      ((flatten_set_cons_perm _ ci hlen _).map Page.block) (List.Perm.refl _)) ?_
    show List.Perm
      ((pg.block :: (g.classPages.flatten).map Page.block) ++ rest.map Page.block)
      (blocksOf g)
    rw [List.cons_append]
    have hg : blocksOf g = (g.classPages.flatten).map Page.block ++
        (pg.block :: rest.map Page.block) := by
      unfold blocksOf pagesOf
      rw [List.map_append, hemp, List.map_cons]
    rw [hg]
    exact List.perm_middle.symm
  have hpgmem2 : ∀ q, q ∈ pagesOf { g with
      emptyPages := rest,
      classPages := g.classPages.set ci
        ((pageBump (pageResetForClass pg ci)).1 :: g.classPages.getD ci []),
      bytesSinceLastGC := b } →
      q = (pageBump (pageResetForClass pg ci)).1 ∨ q ∈ pagesOf g := by
    intro q h
    rcases List.mem_append.mp h with h | h
    · rcases mem_set_flatten h with h2 | h2
      · rcases List.mem_cons.mp h2 with h3 | h3
        · exact Or.inl h3
        · exact Or.inr (classMem_pagesOf h3)
      · exact Or.inr (List.mem_append_left _ h2)
    · refine Or.inr (List.mem_append_right _ ?_)
      rw [hemp]
      exact List.mem_cons_of_mem _ h
  refine ⟨?_, ?_, ?_, ?_, ?_, ?_, W.hwf, ?_⟩
  · show (g.classPages.set ci _).length = NUM_CLASSES
    rw [List.length_set]
    exact W.cpLen
  · intro q h
    rcases hpgmem2 q h with h2 | h2
    · rw [h2]
      exact hWq
    · exact W.pages q h2
  · intro c q h
    have h2 : q ∈ (g.classPages.set ci
        ((pageBump (pageResetForClass pg ci)).1 :: g.classPages.getD ci [])).getD c [] := h
    by_cases hc : c = ci
    · subst hc
      rw [getD_set_eq hlen] at h2
      rcases List.mem_cons.mp h2 with h3 | h3
      · rw [h3]
        exact hqsc
      · exact W.classSC c q h3
    · rw [getD_set_ne (fun h3 => hc h3.symm)] at h2
      exact W.classSC c q h2
  · intro q h
    refine W.empties q ?_
    rw [hemp]
    exact List.mem_cons_of_mem _ h
  · intro q h j
    rcases hpgmem2 q h with h2 | h2
    · rw [h2]
      exact hqmk j
    · exact W.marks q h2 j
  · exact hperm.nodup_iff.mpr W.distinct
  · intro k v hk
    have hWc := W.contents k v hk
    constructor
    · intro hm
      have hm2 : hMem g.idx k v := hm
      obtain ⟨hvk, hmem⟩ := hWc.mp hm2
      exact ⟨hvk, hperm.mem_iff.mpr hmem⟩
    · rintro ⟨hvk, hmem⟩
      exact hWc.mpr ⟨hvk, hperm.mem_iff.mp hmem⟩

/-- Creating a fresh page for class `ci` from an aligned, unmanaged block
and inserting it into the index keeps the collector well-formed. -/
theorem GCWF_freshInsert {g : GC} (W : GCWF g) {ci : Nat} (hci : ci < NUM_CLASSES)
    {raw : Nat} (hal : raw % BUFF_SIZE = 0) (hnz : raw ≠ 0)
    (hfresh : raw ∉ blocksOf g) (b : Nat) :
    GCWF { g with
             classPages := g.classPages.set ci
               ((pageBump (freshPage raw ci)).1 :: g.classPages.getD ci []),
             idx := pageIndexInsert g.idx raw raw,
             numPages := g.numPages + 1,
             bytesSinceLastGC := b } := by
  have hlen : ci < g.classPages.length := by
    rw [W.cpLen]
    exact hci
  have hWf : PageWF (freshPage raw ci) := freshPage_WF hci hal hnz
  have hfh : (freshPage raw ci).freeHead ≠ -1 := by
    show (0 : Int) ≠ -1
    decide
  obtain ⟨i, hi, hfhi, hbit, hbeq, hWq⟩ := pageBump_spec hWf hfh
  have hqsc : (pageBump (freshPage raw ci)).1.sizeClass = sizeClasses.getD ci 0 := rfl
  have hqmk : ∀ j, (pageBump (freshPage raw ci)).1.markBits.getD j false = false := by
    intro j
    show (List.replicate (BUFF_SIZE / sizeClasses.getD ci 0) false).getD j false = false
    exact getD_replicate_false _ _
  have hperm : List.Perm
      (blocksOf { g with
         classPages := g.classPages.set ci
           ((pageBump (freshPage raw ci)).1 :: g.classPages.getD ci []),
         idx := pageIndexInsert g.idx raw raw,
         numPages := g.numPages + 1,
         bytesSinceLastGC := b })
      (raw :: blocksOf g) := by
    show List.Perm
      (((g.classPages.set ci
          ((pageBump (freshPage raw ci)).1 :: g.classPages.getD ci [])).flatten ++
        g.emptyPages).map Page.block)
      (raw :: blocksOf g)
    rw [List.map_append]
    refine List.Perm.trans (List.Perm.append
      ((flatten_set_cons_perm _ ci hlen _).map Page.block) (List.Perm.refl _)) ?_
    show List.Perm
      ((raw :: (g.classPages.flatten).map Page.block) ++ g.emptyPages.map Page.block)
      (raw :: blocksOf g)
    rw [List.cons_append]
    have hg : blocksOf g = (g.classPages.flatten).map Page.block ++
        g.emptyPages.map Page.block := by
      unfold blocksOf pagesOf
      rw [List.map_append]
    rw [hg]
  have hmemnew : ∀ q, q ∈ pagesOf { g with
      classPages := g.classPages.set ci
        ((pageBump (freshPage raw ci)).1 :: g.classPages.getD ci []),
      idx := pageIndexInsert g.idx raw raw,
      numPages := g.numPages + 1,
      bytesSinceLastGC := b } →
      q = (pageBump (freshPage raw ci)).1 ∨ q ∈ pagesOf g := by
    intro q h
    rcases List.mem_append.mp h with h | h
    · rcases mem_set_flatten h with h2 | h2
      · rcases List.mem_cons.mp h2 with h3 | h3
        · exact Or.inl h3
        · exact Or.inr (classMem_pagesOf h3)
      · exact Or.inr (List.mem_append_left _ h2)
    · exact Or.inr (List.mem_append_right _ h)
  obtain ⟨hWins, hmemins⟩ := pageIndexInsert_spec W.hwf raw raw hnz
  refine ⟨?_, ?_, ?_, W.empties, ?_, ?_, hWins, ?_⟩
  · show (g.classPages.set ci _).length = NUM_CLASSES
    rw [List.length_set]
    exact W.cpLen
  · intro q h
    rcases hmemnew q h with h2 | h2
    · rw [h2]
      exact hWq
    · exact W.pages q h2
  · intro c q h
    have h2 : q ∈ (g.classPages.set ci
        ((pageBump (freshPage raw ci)).1 :: g.classPages.getD ci [])).getD c [] := h
    by_cases hc : c = ci
    · subst hc
      rw [getD_set_eq hlen] at h2
      rcases List.mem_cons.mp h2 with h3 | h3
      · rw [h3]
        exact hqsc
      · exact W.classSC c q h3
    · rw [getD_set_ne (fun h3 => hc h3.symm)] at h2
      exact W.classSC c q h2
  · intro q h j
    rcases hmemnew q h with h2 | h2
    · rw [h2]
      exact hqmk j
    · exact W.marks q h2 j
  · refine hperm.nodup_iff.mpr ?_
    exact List.nodup_cons.mpr ⟨hfresh, W.distinct⟩
  · intro k v hk
    have hins := hmemins k v hk
    have hWc := W.contents k v hk
    have hmemiff : k ∈ blocksOf { g with
        classPages := g.classPages.set ci
          ((pageBump (freshPage raw ci)).1 :: g.classPages.getD ci []),
        idx := pageIndexInsert g.idx raw raw,
        numPages := g.numPages + 1,
        bytesSinceLastGC := b } ↔ (k = raw ∨ k ∈ blocksOf g) := by
      rw [hperm.mem_iff, List.mem_cons]
    constructor
    · intro hm
      have hm2 : hMem (pageIndexInsert g.idx raw raw) k v := hm
      rcases hins.mp hm2 with ⟨hk1, hv1⟩ | ⟨hk1, hmv⟩
      · exact ⟨hv1.trans hk1.symm, hmemiff.mpr (Or.inl hk1)⟩
      · obtain ⟨hvk, hmem1⟩ := hWc.mp hmv
        exact ⟨hvk, hmemiff.mpr (Or.inr hmem1)⟩
    · rintro ⟨hvk, hmem⟩
      rcases hmemiff.mp hmem with hk1 | hk1
      · exact hins.mpr (Or.inl ⟨hk1, hvk.trans hk1⟩)
      · refine hins.mpr (Or.inr ⟨?_, hWc.mpr ⟨hvk, hk1⟩⟩)
        intro hkr
        rw [hkr] at hk1
        exact hfresh hk1

/-- `allocFromClass` success: a well-formed result whose pointer is the
base of a live slot of a page of the requested class, with the pressure
counter bumped by the slot size. -/
theorem allocFromClass_spec (e : Env) {g : GC} (W : GCWF g) {ci : Nat}
    (hci : ci < NUM_CLASSES) {raw : Nat}
    (hal : raw % BUFF_SIZE = 0) (hfresh : raw ∉ blocksOf g) :
    ∀ {g2 : GC} {p : Nat}, allocFromClass e g ci raw = Except.ok (g2, p) →
      GCWF g2 ∧ g2.roots = g.roots ∧ g2.freeMemory = g.freeMemory ∧
      g2.bytesSinceLastGC =
        (pressured e g ci).bytesSinceLastGC + sizeClasses.getD ci 0 ∧
      ∃ q i, q ∈ g2.classPages.getD ci [] ∧ q.sizeClass = sizeClasses.getD ci 0 ∧
        i < q.nslots ∧ p = q.block + i * q.sizeClass ∧ p ≠ 0 := by
  intro g2 p heq
  obtain ⟨W0, hroots0, hfm0, hsub0⟩ := pressured_facts e W ci
  have hlen0 : ci < (pressured e g ci).classPages.length := by
    rw [W0.cpLen]
    exact hci
  rw [allocFromClass_eq] at heq
  rcases allocInList_spec ((pressured e g ci).classPages.getD ci []) with
    hnone | ⟨l1, pg, l2, hsplit, hfh, hsome⟩
  · -- no free slot in the existing class pages
    rw [hnone] at heq
    cases hempcase : (pressured e g ci).emptyPages with
    | cons pg rest =>
      -- reuse a cached empty page
      rw [hempcase] at heq
      have hpgmem : pg ∈ pagesOf (pressured e g ci) := by
        refine List.mem_append_right _ ?_
        rw [hempcase]
        exact List.mem_cons_self _ _
      have hWpg := W0.pages pg hpgmem
      have hWr : PageWF (pageResetForClass pg ci) :=
        pageResetForClass_WF hWpg.blockNZ hWpg.blockAl hci
      have hfhr : (pageResetForClass pg ci).freeHead ≠ -1 := by
        show (0 : Int) ≠ -1
        decide
      obtain ⟨i, hi, hfhi, hbit, hbeq, hWq⟩ := pageBump_spec hWr hfhr
      have hg2 : g2 = { pressured e g ci with
          emptyPages := rest,
          classPages := (pressured e g ci).classPages.set ci
            ((pageBump (pageResetForClass pg ci)).1 ::
              (pressured e g ci).classPages.getD ci []),
          bytesSinceLastGC :=
            (pressured e g ci).bytesSinceLastGC + sizeClasses.getD ci 0 } :=
        (congrArg Prod.fst (Except.ok.inj heq)).symm
      have hp : p = (pageBump (pageResetForClass pg ci)).2 :=
        (congrArg Prod.snd (Except.ok.inj heq)).symm
      have hp2 : (pageBump (pageResetForClass pg ci)).2 =
          (pageResetForClass pg ci).block + i * (pageResetForClass pg ci).sizeClass :=
        congrArg Prod.snd hbeq
      subst hg2
      subst hp
      refine ⟨GCWF_emptyReuse W0 hci hempcase _, hroots0, hfm0, rfl,
        (pageBump (pageResetForClass pg ci)).1, i, ?_, rfl, hi, ?_, ?_⟩
      · show (pageBump (pageResetForClass pg ci)).1 ∈
          ((pressured e g ci).classPages.set ci
            ((pageBump (pageResetForClass pg ci)).1 ::
              (pressured e g ci).classPages.getD ci [])).getD ci []
        rw [getD_set_eq hlen0]
        exact List.mem_cons_self _ _
      · rw [hp2]
        rfl
      · rw [hp2]
        intro h0
        exact hWpg.blockNZ (Nat.eq_zero_of_add_eq_zero_right h0)
    | nil =>
      -- make a fresh page
      rw [hempcase] at heq
      cases hinit : pageInitForClass raw ci with
      | error k =>
        rw [hinit] at heq
        exact Except.noConfusion heq
      | ok pg2 =>
        rw [hinit] at heq
        have hraw0 : raw ≠ 0 := by
          intro h0
          rw [h0] at hinit
          have herr : pageInitForClass 0 ci = Except.error 53 := by
            unfold pageInitForClass
            rw [if_neg (by decide), if_pos rfl]
          exact Except.noConfusion (herr.symm.trans hinit)
        have hpg2 : pg2 = freshPage raw ci :=
          Except.ok.inj ((pageInitForClass_eq hal hraw0).symm.trans hinit).symm
        subst hpg2
        have hfresh0 : raw ∉ blocksOf (pressured e g ci) :=
          fun h => hfresh (hsub0 raw h)
        obtain ⟨i, hi, hfhi, hbit, hbeq, hWq⟩ :=
          pageBump_spec (freshPage_WF hci hal hraw0)
            (show (0 : Int) ≠ -1 by decide)
        have hg2 : g2 = { pressured e g ci with
            classPages := (pressured e g ci).classPages.set ci
              ((pageBump (freshPage raw ci)).1 ::
                (pressured e g ci).classPages.getD ci []),
            idx := pageIndexInsert (pressured e g ci).idx raw raw,
            numPages := (pressured e g ci).numPages + 1,
            bytesSinceLastGC :=
              (pressured e g ci).bytesSinceLastGC + sizeClasses.getD ci 0 } :=
          (congrArg Prod.fst (Except.ok.inj heq)).symm
        have hp : p = (pageBump (freshPage raw ci)).2 :=
          (congrArg Prod.snd (Except.ok.inj heq)).symm
        have hp2 : (pageBump (freshPage raw ci)).2 =
            (freshPage raw ci).block + i * (freshPage raw ci).sizeClass :=
          congrArg Prod.snd hbeq
        subst hg2
        subst hp
        refine ⟨GCWF_freshInsert W0 hci hal hraw0 hfresh0 _, hroots0, hfm0, rfl,
          (pageBump (freshPage raw ci)).1, i, ?_, rfl, hi, ?_, ?_⟩
        · show (pageBump (freshPage raw ci)).1 ∈
            ((pressured e g ci).classPages.set ci
              ((pageBump (freshPage raw ci)).1 ::
                (pressured e g ci).classPages.getD ci [])).getD ci []
          rw [getD_set_eq hlen0]
          exact List.mem_cons_self _ _
        · rw [hp2]
          rfl
        · rw [hp2]
          intro h0
          exact hraw0 (Nat.eq_zero_of_add_eq_zero_right h0)
  · -- bump the first page with a free slot
    rw [hsome] at heq
    have hpgmem0 : pg ∈ (pressured e g ci).classPages.getD ci [] := by
      rw [hsplit]
      exact List.mem_append_right _ (List.mem_cons_self _ _)
    have hWpg := W0.pages pg (classMem_pagesOf hpgmem0)
    obtain ⟨i, hi, hfhi, hbit, hbeq, hWq⟩ := pageBump_spec hWpg hfh
    have hg2 : g2 = { pressured e g ci with
        classPages := (pressured e g ci).classPages.set ci
          (l1 ++ (pageBump pg).1 :: l2),
        bytesSinceLastGC :=
          (pressured e g ci).bytesSinceLastGC + sizeClasses.getD ci 0 } :=
      (congrArg Prod.fst (Except.ok.inj heq)).symm
    have hp : p = (pageBump pg).2 :=
      (congrArg Prod.snd (Except.ok.inj heq)).symm
    have hp2 : (pageBump pg).2 = pg.block + i * pg.sizeClass :=
      congrArg Prod.snd hbeq
    subst hg2
    subst hp
    have hWsc : GCWF { pressured e g ci with
        classPages := (pressured e g ci).classPages.set ci
          (l1 ++ (pageBump pg).1 :: l2),
        bytesSinceLastGC :=
          (pressured e g ci).bytesSinceLastGC + sizeClasses.getD ci 0 } := by
      refine GCWF_setClass W0 ci (l1 ++ (pageBump pg).1 :: l2) _ ?_ ?_ ?_ ?_
      · rw [hsplit, List.map_append, List.map_append, List.map_cons, List.map_cons]
        rfl
      · intro q hq
        rcases List.mem_append.mp hq with h2 | h2
        · have hq2 : q ∈ (pressured e g ci).classPages.getD ci [] := by
            rw [hsplit]
            exact List.mem_append_left _ h2
          exact W0.pages q (classMem_pagesOf hq2)
        · rcases List.mem_cons.mp h2 with h3 | h3
          · rw [h3]
            exact hWq
          · have hq2 : q ∈ (pressured e g ci).classPages.getD ci [] := by
              rw [hsplit]
              exact List.mem_append_right _ (List.mem_cons_of_mem _ h3)
            exact W0.pages q (classMem_pagesOf hq2)
      · intro q hq
        rcases List.mem_append.mp hq with h2 | h2
        · refine W0.classSC ci q ?_
          rw [hsplit]
          exact List.mem_append_left _ h2
        · rcases List.mem_cons.mp h2 with h3 | h3
          · rw [h3]
            exact W0.classSC ci pg hpgmem0
          · refine W0.classSC ci q ?_
            rw [hsplit]
            exact List.mem_append_right _ (List.mem_cons_of_mem _ h3)
      · intro q hq j
        rcases List.mem_append.mp hq with h2 | h2
        · have hq2 : q ∈ (pressured e g ci).classPages.getD ci [] := by
            rw [hsplit]
            exact List.mem_append_left _ h2
          exact W0.marks q (classMem_pagesOf hq2) j
        · rcases List.mem_cons.mp h2 with h3 | h3
          · rw [h3]
            exact W0.marks pg (classMem_pagesOf hpgmem0) j
          · have hq2 : q ∈ (pressured e g ci).classPages.getD ci [] := by
              rw [hsplit]
              exact List.mem_append_right _ (List.mem_cons_of_mem _ h3)
            exact W0.marks q (classMem_pagesOf hq2) j
    refine ⟨hWsc, hroots0, hfm0, rfl, (pageBump pg).1, i, ?_, ?_, hi, ?_, ?_⟩
    · show (pageBump pg).1 ∈
        ((pressured e g ci).classPages.set ci (l1 ++ (pageBump pg).1 :: l2)).getD ci []
      rw [getD_set_eq hlen0]
      exact List.mem_append_right _ (List.mem_cons_self _ _)
    · exact W0.classSC ci pg hpgmem0
    · rw [hp2]
      rfl
    · rw [hp2]
      intro h0
      exact hWpg.blockNZ (Nat.eq_zero_of_add_eq_zero_right h0)

theorem maybeCollect_WF (e : Env) {g : GC} (W : GCWF g) (n : Nat) :
    GCWF (maybeCollectOnPressure e g n).1 ∧
    (maybeCollectOnPressure e g n).1.roots = g.roots ∧
    (maybeCollectOnPressure e g n).1.freeMemory = g.freeMemory := by
  by_cases hc : g.bytesSinceLastGC + n >
      3 * (if g.lastLiveBytes ≠ 0 then g.lastLiveBytes else BUFF_SIZE) / 2
  · have he : (maybeCollectOnPressure e g n).1 =
        { gcCollect e g with bytesSinceLastGC := 0 } := by
      show (if g.bytesSinceLastGC + n >
          3 * (if g.lastLiveBytes ≠ 0 then g.lastLiveBytes else BUFF_SIZE) / 2
        then ({ gcCollect e g with bytesSinceLastGC := 0 }, true)
        else (g, false)).1 = _
      rw [if_pos hc]
    obtain ⟨W2, hroots, hfm, -, -, -⟩ := gcCollect_spec e W
    rw [he]
    exact ⟨GCWF_bytes W2 0, hroots, hfm⟩
  · have he : (maybeCollectOnPressure e g n).1 = g := by
      show (if g.bytesSinceLastGC + n >
          3 * (if g.lastLiveBytes ≠ 0 then g.lastLiveBytes else BUFF_SIZE) / 2
        then ({ gcCollect e g with bytesSinceLastGC := 0 }, true)
        else (g, false)).1 = _
      rw [if_neg hc]
    rw [he]
    exact ⟨W, rfl, rfl⟩

theorem classForSize_toNat_lt {n : Nat} (h : ¬ classForSize n < 0) :
    (classForSize n).toNat < NUM_CLASSES := by
  have hnn : 0 ≤ classForSize n := le_of_not_lt h
  have heq : classForSize n = ((classForSize n).toNat : Int) :=
    (Int.toNat_of_nonneg hnn).symm
  obtain ⟨hspec, -⟩ := classForSizeAux_spec n sizeClasses 0
  obtain ⟨-, hlt, -⟩ := hspec (classForSize n).toNat (by rw [← heq]; rfl)
  have hlen : sizeClasses.length = NUM_CLASSES := rfl
  omega

/-- The class branch of `gcAlloc`, for rewriting. -/
theorem gcAlloc_class_eq (e : Env) (g : GC) (size : Nat)
    (h : ¬ classForSize size < 0) :
    gcAlloc e g size =
      (match allocFromClass e g (classForSize size).toNat e.raw1 with
       | Except.error k => Except.error k
       | Except.ok gp =>
         if gp.2 = 0 then
           match allocFromClass e (gcCollect e gp.1) (classForSize size).toNat e.raw2 with
           | Except.error k => Except.error k
           | Except.ok gp2 => if gp2.2 = 0 then Except.error 71 else Except.ok gp2
         else Except.ok gp) := by
  show (if classForSize size < 0 then _ else _) = _
  rw [if_neg h]

/-- The oversize branch of `gcAlloc`, for rewriting. -/
theorem gcAlloc_over_eq (e : Env) (g : GC) (size : Nat) (h : classForSize size < 0) :
    gcAlloc e g size =
      (if e.lp1 = 0 then
        (if e.lp2 = 0 then Except.error 70
         else Except.ok ({ gcCollect e (maybeCollectOnPressure e g size).1 with
             bytesSinceLastGC :=
               (gcCollect e (maybeCollectOnPressure e g size).1).bytesSinceLastGC + size },
           e.lp2))
       else Except.ok ({ (maybeCollectOnPressure e g size).1 with
           bytesSinceLastGC := (maybeCollectOnPressure e g size).1.bytesSinceLastGC + size },
         e.lp1)) := by
  show (if classForSize size < 0 then _ else _) = _
  rw [if_pos h]

/-- `gcAlloc` success from a well-formed state: the result is well-formed
and the returned pointer is never null. -/
theorem gcAlloc_spec (e : Env) {g : GC} (W : GCWF g) (n : Nat)
    (hal1 : e.raw1 % BUFF_SIZE = 0) (hfresh1 : e.raw1 ∉ blocksOf g) :
    ∀ {g2 : GC} {p : Nat}, gcAlloc e g n = Except.ok (g2, p) →
      GCWF g2 ∧ p ≠ 0 ∧ g2.roots = g.roots ∧ g2.freeMemory = g.freeMemory := by
  intro g2 p heq
  by_cases hover : classForSize n < 0
  · rw [gcAlloc_over_eq e g n hover] at heq
    obtain ⟨W1, hroots1, hfm1⟩ := maybeCollect_WF e W n
    by_cases hlp1 : e.lp1 = 0
    · rw [if_pos hlp1] at heq
      by_cases hlp2 : e.lp2 = 0
      · rw [if_pos hlp2] at heq
        exact Except.noConfusion heq
      · rw [if_neg hlp2] at heq
        obtain ⟨W2, hroots2, hfm2, -, -, -⟩ := gcCollect_spec e W1
        have hg2 : g2 = { gcCollect e (maybeCollectOnPressure e g n).1 with
            bytesSinceLastGC :=
              (gcCollect e (maybeCollectOnPressure e g n).1).bytesSinceLastGC + n } :=
          (congrArg Prod.fst (Except.ok.inj heq)).symm
        have hp : p = e.lp2 := (congrArg Prod.snd (Except.ok.inj heq)).symm
        subst hg2
        subst hp
        exact ⟨GCWF_bytes W2 _, hlp2, hroots2.trans hroots1, hfm2.trans hfm1⟩
    · rw [if_neg hlp1] at heq
      have hg2 : g2 = { (maybeCollectOnPressure e g n).1 with
          bytesSinceLastGC := (maybeCollectOnPressure e g n).1.bytesSinceLastGC + n } :=
        (congrArg Prod.fst (Except.ok.inj heq)).symm
      have hp : p = e.lp1 := (congrArg Prod.snd (Except.ok.inj heq)).symm
      subst hg2
      subst hp
      exact ⟨GCWF_bytes W1 _, hlp1, hroots1, hfm1⟩
  · rw [gcAlloc_class_eq e g n hover] at heq
    have hciLT : (classForSize n).toNat < NUM_CLASSES := classForSize_toNat_lt hover
    cases halloc : allocFromClass e g (classForSize n).toNat e.raw1 with
    | error k =>
      rw [halloc] at heq
      exact Except.noConfusion heq
    | ok gp =>
      rw [halloc] at heq
      obtain ⟨Wg1, hroots1, hfm1, -, q, i, hqmem, hqsc, hqi, hpe, hpne⟩ :=
        allocFromClass_spec e W hciLT hal1 hfresh1
          (show _ = Except.ok (gp.1, gp.2) from halloc)
      have heq2 : (if gp.2 = 0 then
          (match allocFromClass e (gcCollect e gp.1) (classForSize n).toNat e.raw2 with
           | Except.error k => Except.error k
           | Except.ok gp2 => if gp2.2 = 0 then Except.error 71 else Except.ok gp2)
        else Except.ok gp) = Except.ok (g2, p) := heq
      rw [if_neg hpne] at heq2
      have hg2 : g2 = gp.1 := (congrArg Prod.fst (Except.ok.inj heq2)).symm
      have hp : p = gp.2 := (congrArg Prod.snd (Except.ok.inj heq2)).symm
      subst hg2
      subst hp
      exact ⟨Wg1, hpne, hroots1, hfm1⟩

theorem GCWF_roots {g : GC} (W : GCWF g) (r : List (Option Nat)) :
    GCWF { g with roots := r } :=
  ⟨W.cpLen, W.pages, W.classSC, W.empties, W.marks, W.distinct, W.hwf, W.contents⟩

/-- One public call from a legal environment preserves well-formedness. -/
theorem applyGOp_WF {g : GC} (W : GCWF g) {op : GOp} (hok : envOKb g op = true) :
    ∀ {g2 : GC}, applyGOp g op = Except.ok g2 → GCWF g2 := by
  intro g2 heq
  cases op with
  | alloc n e =>
    have h2 : (decide (e.raw1 % BUFF_SIZE = 0) &&
        !(blocksOf g).contains e.raw1) = true := hok
    rw [Bool.and_eq_true] at h2
    have hal1 : e.raw1 % BUFF_SIZE = 0 := of_decide_eq_true h2.1
    have hfresh1 : e.raw1 ∉ blocksOf g := by simpa using h2.2
    cases halloc : gcAlloc e g n with
    | error k =>
      have h1 : applyGOp g (GOp.alloc n e) = Except.error k := by
        show (match gcAlloc e g n with
          | Except.ok gp => Except.ok gp.1
          | Except.error k => Except.error k) = _
        rw [halloc]
      exact Except.noConfusion (h1.symm.trans heq)
    | ok gp =>
      have h1 : applyGOp g (GOp.alloc n e) = Except.ok gp.1 := by
        show (match gcAlloc e g n with
          | Except.ok gp => Except.ok gp.1
          | Except.error k => Except.error k) = _
        rw [halloc]
      have hg2 : g2 = gp.1 := (Except.ok.inj (h1.symm.trans heq)).symm
      subst hg2
      exact (gcAlloc_spec e W n hal1 hfresh1
        (show _ = Except.ok (gp.1, gp.2) from halloc)).1
  | collect e =>
    have hg2 : gcCollect e g = g2 := Except.ok.inj heq
    subst hg2
    exact (gcCollect_spec e W).1
  | root a =>
    have hg2 : gcRootVariable g a = g2 := Except.ok.inj heq
    subst hg2
    unfold gcRootVariable
    split
    · exact GCWF_roots W _
    · exact W
  | unroot a =>
    have hg2 : gcUnrootVariable g a = g2 := Except.ok.inj heq
    subst hg2
    unfold gcUnrootVariable
    split
    · exact W
    · exact GCWF_roots W _

/-- Any legal sequence of public calls preserves well-formedness. -/
theorem applyGOps_WF : ∀ (ops : List GOp) (g : GC), GCWF g →
    legalGOps g ops = true → ∀ {g2 : GC}, applyGOps g ops = Except.ok g2 → GCWF g2 := by
  intro ops
  induction ops with
  | nil =>
    intro g W _ g2 heq
    have hg2 : g = g2 := Except.ok.inj heq
    subst hg2
    exact W
  | cons op ops ih =>
    intro g W hleg g2 heq
    have hleg2 : (envOKb g op && (match applyGOp g op with
        | Except.ok g3 => legalGOps g3 ops
        | Except.error _ => true)) = true := hleg
    rw [Bool.and_eq_true] at hleg2
    cases happ : applyGOp g op with
    | error k =>
      have h1 : applyGOps g (op :: ops) = Except.error k := by
        show (match applyGOp g op with
          | Except.ok g3 => applyGOps g3 ops
          | Except.error k => Except.error k) = _
        rw [happ]
      exact Except.noConfusion (h1.symm.trans heq)
    | ok g3 =>
      have h1 : applyGOps g (op :: ops) = applyGOps g3 ops := by
        show (match applyGOp g op with
          | Except.ok g3 => applyGOps g3 ops
          | Except.error k => Except.error k) = _
        rw [happ]
      have hleg3 : legalGOps g3 ops = true := by
        have h4 := hleg2.2
        rw [happ] at h4
        exact h4
      exact ih g3 (applyGOp_WF W hleg2.1 happ) hleg3 (h1.symm.trans heq)

theorem Reaches_inuse {e : Env} {g : GC} {bi : Nat × Nat} (h : Reaches e g bi) :
    inuseAt g bi = true := by
  cases h with
  | root a bi h1 h2 h3 => exact h3
  | step bi bj w h1 h2 h3 h4 => exact h4

/-- The initial state is well-formed. -/
theorem gcInit_WF (fm : Bool) : GCWF (gcInit fm) := by
  have hpages : pagesOf (gcInit fm) = [] := rfl
  have hgetD : ∀ c, (List.replicate NUM_CLASSES ([] : List Page)).getD c [] = [] := by
    intro c
    by_cases hc : c < NUM_CLASSES
    · rw [List.getD_eq_getElem _ _ (by simpa using hc), List.getElem_replicate]
    · rw [List.getD_eq_default _ _ (by simpa using hc)]
  refine ⟨?_, ?_, ?_, ?_, ?_, ?_, HWF_init128, ?_⟩
  · show (List.replicate NUM_CLASSES ([] : List Page)).length = NUM_CLASSES
    rw [List.length_replicate]
  · intro pg h
    rw [hpages] at h
    cases h
  · intro c pg h
    have h2 : pg ∈ (List.replicate NUM_CLASSES ([] : List Page)).getD c [] := h
    rw [hgetD c] at h2
    cases h2
  · intro pg h
    cases (show pg ∈ ([] : List Page) from h)
  · intro pg h
    rw [hpages] at h
    cases h
  · show (pagesOf (gcInit fm)).map Page.block |>.Nodup
    rw [hpages]
    exact List.nodup_nil
  · intro k v hk
    constructor
    · intro hm
      exact absurd hm (hMem_init_nil hk)
    · rintro ⟨-, hmem⟩
      have h2 : k ∈ blocksOf (gcInit fm) := hmem
      rw [show blocksOf (gcInit fm) = [] from rfl] at h2
      cases h2

-- ================================
-- Claim theorems: C1, C2, C5, C6, C10
-- ================================

/-- C1: every slot reachable from the root registry when a collection
starts (a registered, non-vacant root address holds — through client
memory — a pointer resolving to an in-use slot, directly or transitively
through slot payload words) is still allocated after `gcCollect` returns,
with every payload word unchanged; this persists over any number of
successive collections. -/
theorem collect_preserves_reachable (e : Env) (bi : Nat × Nat) :
    ∀ (n : Nat) (g : GC), GCWF g → Reaches e g bi →
      inuseAt (collectN e n g) bi = true ∧
      slotWords (collectN e n g) bi = slotWords g bi := by
  intro n
  induction n with
  | zero =>
    intro g W hr
    exact ⟨Reaches_inuse hr, rfl⟩
  | succ n ih =>
    intro g W hr
    obtain ⟨W2, -, -, -, -, hkeep⟩ := gcCollect_spec e W
    obtain ⟨hinu1, hsl1, hr1⟩ := hkeep bi hr
    obtain ⟨ha, hb⟩ := ih (gcCollect e g) W2 hr1
    exact ⟨ha, hb.trans hsl1⟩

/-- C2: from a well-formed state whose fresh-block oracle behaves like
`aligned_alloc` (an aligned block not already managed), a `gcAlloc` that
returns to the caller never returns a null pointer — every failure path is
a fatal `Except.error` exit instead. -/
theorem gcAlloc_never_null (e : Env) {g : GC} (W : GCWF g) (n : Nat)
    (hal1 : e.raw1 % BUFF_SIZE = 0) (hfresh1 : e.raw1 ∉ blocksOf g)
    {g2 : GC} {p : Nat} (h : gcAlloc e g n = Except.ok (g2, p)) : p ≠ 0 :=
  ((gcAlloc_spec e W n hal1 hfresh1 h).2).1

/-- C5: after `gcCollect` returns — on any state reached by a legal
sequence of public calls from `gcInit` — the mark bitmap of every page
still managed by the collector (every class list and the empty-page
cache) is all zero. -/
theorem gcCollect_marks_all_clear (fm : Bool) (ops : List GOp) (e : Env) {g2 : GC}
    (hleg : legalGOps (gcInit fm) ops = true)
    (happ : applyGOps (gcInit fm) ops = Except.ok g2) :
    ∀ pg ∈ pagesOf (gcCollect e g2), ∀ i, pg.markBits.getD i false = false :=
  (gcCollect_spec e (applyGOps_WF ops (gcInit fm) (gcInit_WF fm) hleg happ)).1.marks

/-- C6: after every legal sequence of public calls (alloc, collect, root,
unroot) from `gcInit`, every page on every class list has `inuseCount`
equal to the popcount of its in-use bitmap over its `nslots` slots. -/
theorem inuse_count_matches_popcount (fm : Bool) (ops : List GOp) {g2 : GC}
    (hleg : legalGOps (gcInit fm) ops = true)
    (happ : applyGOps (gcInit fm) ops = Except.ok g2) :
    ∀ c pg, pg ∈ g2.classPages.getD c [] →
      pg.inuseCount = popcountTo pg.nslots pg.inuseBits :=
  fun _ pg h =>
    ((applyGOps_WF ops (gcInit fm) (gcInit_WF fm) hleg happ).pages pg
      (classMem_pagesOf h)).cntEq

/-- C10: a zero-byte request resolves to class index 0 (16-byte slots),
behaves exactly like a 16-byte request, returns a non-null pointer to the
base of a slot of a class-0 page, and adds 16 bytes — not 0 — to the
pressure counter. -/
theorem gcAlloc_zero_spec (e : Env) {g : GC} (W : GCWF g)
    (hal1 : e.raw1 % BUFF_SIZE = 0) (hfresh1 : e.raw1 ∉ blocksOf g) :
    classForSize 0 = 0 ∧
    gcAlloc e g 0 = gcAlloc e g 16 ∧
    (∀ {g2 : GC} {p : Nat}, gcAlloc e g 0 = Except.ok (g2, p) →
      p ≠ 0 ∧
      g2.bytesSinceLastGC = (pressured e g 0).bytesSinceLastGC + 16 ∧
      ∃ q i, q ∈ g2.classPages.getD 0 [] ∧ q.sizeClass = 16 ∧ i < q.nslots ∧
        p = q.block + i * 16) := by
  refine ⟨rfl, rfl, ?_⟩
  intro g2 p heq
  rw [gcAlloc_class_eq e g 0 (by decide)] at heq
  cases halloc : allocFromClass e g (classForSize 0).toNat e.raw1 with
  | error k =>
    rw [halloc] at heq
    exact Except.noConfusion heq
  | ok gp =>
    rw [halloc] at heq
    obtain ⟨Wg1, hroots1, hfm1, hbytes, q, i, hqmem, hqsc, hqi, hpe, hpne⟩ :=
      allocFromClass_spec e W (by decide) hal1 hfresh1
        (show _ = Except.ok (gp.1, gp.2) from halloc)
    have heq2 : (if gp.2 = 0 then
        (match allocFromClass e (gcCollect e gp.1) (classForSize 0).toNat e.raw2 with
         | Except.error k => Except.error k
         | Except.ok gp2 => if gp2.2 = 0 then Except.error 71 else Except.ok gp2)
      else Except.ok gp) = Except.ok (g2, p) := heq
    rw [if_neg hpne] at heq2
    have hg2 : g2 = gp.1 := (congrArg Prod.fst (Except.ok.inj heq2)).symm
    have hp : p = gp.2 := (congrArg Prod.snd (Except.ok.inj heq2)).symm
    subst hg2
    subst hp
    have hqsc16 : q.sizeClass = 16 := hqsc
    refine ⟨hpne, hbytes, q, i, hqmem, hqsc16, hqi, ?_⟩
    rw [hpe, hqsc16]

theorem collect_preserves_reachable_witness :
    GCWF gW ∧ Reaches envW gW (BUFF_SIZE, 0) ∧
    (inuseAt (collectN envW 1 gW) (BUFF_SIZE, 0) = true ∧
     slotWords (collectN envW 1 gW) (BUFF_SIZE, 0) = slotWords gW (BUFF_SIZE, 0)) :=
  have hW : GCWF gW := applyGOps_WF opsW (gcInit false) (gcInit_WF false)
    (by decide) (by rfl)
  have hr : Reaches envW gW (BUFF_SIZE, 0) :=
    Reaches.root 10 (BUFF_SIZE, 0) (by decide) (by decide) (by decide)
  ⟨hW, hr, collect_preserves_reachable envW (BUFF_SIZE, 0) 1 gW hW hr⟩

theorem gcAlloc_never_null_witness :
    envW.raw1 % BUFF_SIZE = 0 ∧ envW.raw1 ∉ blocksOf (gcInit true) ∧
    gcAlloc envW (gcInit true) 262144 = Except.ok (gA, pA) ∧ pA ≠ 0 :=
  ⟨by decide, by decide, by rfl,
   gcAlloc_never_null envW (gcInit_WF true) 262144 (by decide) (by decide) (by rfl)⟩

theorem gcCollect_marks_all_clear_witness :
    legalGOps (gcInit false) opsW = true ∧
    applyGOps (gcInit false) opsW = Except.ok gW ∧
    (∀ pg ∈ pagesOf (gcCollect envW gW), ∀ i, pg.markBits.getD i false = false) :=
  ⟨by decide, by rfl, gcCollect_marks_all_clear false opsW envW (by decide) (by rfl)⟩

theorem inuse_count_matches_popcount_witness :
    legalGOps (gcInit false) opsW = true ∧
    applyGOps (gcInit false) opsW = Except.ok gW ∧
    (∀ c pg, pg ∈ gW.classPages.getD c [] →
      pg.inuseCount = popcountTo pg.nslots pg.inuseBits) :=
  ⟨by decide, by rfl, inuse_count_matches_popcount false opsW (by decide) (by rfl)⟩

theorem gcAlloc_zero_spec_witness :
    envW.raw1 % BUFF_SIZE = 0 ∧ envW.raw1 ∉ blocksOf (gcInit true) ∧
    (classForSize 0 = 0 ∧
     gcAlloc envW (gcInit true) 0 = gcAlloc envW (gcInit true) 16 ∧
     (∀ {g2 : GC} {p : Nat}, gcAlloc envW (gcInit true) 0 = Except.ok (g2, p) →
       p ≠ 0 ∧
       g2.bytesSinceLastGC = (pressured envW (gcInit true) 0).bytesSinceLastGC + 16 ∧
       ∃ q i, q ∈ g2.classPages.getD 0 [] ∧ q.sizeClass = 16 ∧ i < q.nslots ∧
         p = q.block + i * 16)) :=
  ⟨by decide, by decide, gcAlloc_zero_spec envW (gcInit_WF true) (by decide) (by decide)⟩

end ReMem
